import Mathlib

/-!
# screenshot-compare: a verification development

A shallow embedding of the comparison engine of `screenshot-compare`
(package `v1`: `compare.go`, `compare_colors.go`, `in_config.go`,
`in_tagged_image.go`, `out_result.go`, and `parseDurationSpecifier` of
`in_read_config.go`), followed by theorems about it.

Conventions of the embedding:

* Go's `int` and `time.Duration` are 64-bit two's-complement integers: they
  are `Int` values and every arithmetic result goes through `wrapInt64`.
  `uint32` products go through `wrapUint32`, the `uint` counter through
  `wrapUint64`.
* Go's `float64` is IEEE-754 binary64 with round-to-nearest, ties-to-even,
  every operation rounded on its own (`F64`).
* Mutation of `*Result` is explicit state passing; a Go `panic` is the
  outcome `Exec.panicked`.
* What the wall clock and the scheduler decide (elapsed time, which
  goroutine sends first) is an explicit input of `Compare` (`Env`).
-/

namespace ScreenshotCompare

/-! ## Machine integers -/

/-- Two's-complement wrap-around of a 64-bit signed integer (Go `int`, `int64`). -/
def wrapInt64 (i : Int) : Int := (i + 2 ^ 63) % 2 ^ 64 - 2 ^ 63

/-- Wrap-around of a `uint32`. -/
def wrapUint32 (n : Nat) : Nat := n % 2 ^ 32

/-- Wrap-around of a 64-bit `uint`. -/
def wrapUint64 (n : Nat) : Nat := n % 2 ^ 64

/-! ## IEEE-754 binary64 -/

/-- The rational `2 ^ e` for an integer exponent. -/
def pow2 (e : Int) : ℚ :=
  if 0 ≤ e then ((2 ^ e.toNat : Nat) : ℚ) else 1 / ((2 ^ (-e).toNat : Nat) : ℚ)

/-- Binary logarithm of a natural number by repeated halving, `fuel` bounding
the number of halvings. -/
def log2Fuel : Nat → Nat → Nat
  | 0, _ => 0
  | fuel + 1, n => if n < 2 then 0 else log2Fuel fuel (n / 2) + 1

/-- The floor of the binary logarithm of a natural number (`0` at `0`). -/
def natLog2 (n : Nat) : Nat := log2Fuel n n

/-- The floor of the binary logarithm of a positive rational. -/
def ilog2 (x : ℚ) : Int :=
  let k : Int := (natLog2 x.num.natAbs : Int) - (natLog2 x.den : Int)
  if pow2 k ≤ x then k else k - 1

/-- Round a non-negative rational to the nearest integer, ties to even. -/
def rne (q : ℚ) : Int :=
  let f : Int := ⌊q⌋
  let r : ℚ := q - f
  if r < 1 / 2 then f else if 1 / 2 < r then f + 1 else if f % 2 = 0 then f else f + 1

/-- The exponent of the unit in the last place of binary64 at the positive
rational `x`: 53 significant bits, smallest exponent `-1074`. -/
def quantum (x : ℚ) : Int := max (ilog2 x - 52) (-1074)

/-- The nearest multiple of the unit in the last place to a positive rational,
ties to even (overflow not yet considered). -/
def roundMag (x : ℚ) : ℚ := (rne (x / pow2 (quantum x)) : ℚ) * pow2 (quantum x)

/-- A binary64 value. A finite number carries its exact value; `fin 0` is `+0`. -/
inductive F64 where
  | fin (q : ℚ)
  | negZero
  | inf (neg : Bool)
  | nan
  deriving DecidableEq

namespace F64

/-- The signed zero with the given sign bit. -/
def signedZero (neg : Bool) : F64 := if neg then negZero else fin 0

/-- Rounding of an exact real result to binary64 (round-to-nearest-even,
overflow to infinity, underflow to a signed zero). -/
def round (x : ℚ) : F64 :=
  if x = 0 then fin 0
  else
    let y := roundMag |x|
    if pow2 1024 ≤ y then inf (decide (x < 0))
    else if y = 0 then signedZero (decide (x < 0))
    else if x < 0 then fin (-y) else fin y

/-- The exact value of a finite number (`0` for the others). -/
def toRat : F64 → ℚ
  | fin q => q
  | _ => 0

/-- The sign bit. -/
def isNeg : F64 → Bool
  | fin q => decide (q < 0)
  | negZero => true
  | inf s => s
  | nan => false

/-- Whether the value is `+0` or `-0`. -/
def isZero : F64 → Bool
  | fin q => decide (q = 0)
  | negZero => true
  | _ => false

/-- Whether the value is neither an infinity nor a NaN. -/
def isFinite : F64 → Bool
  | fin _ => true
  | negZero => true
  | _ => false

/-- Unary minus. -/
def neg : F64 → F64
  | fin q => if q = 0 then negZero else fin (-q)
  | negZero => fin 0
  | inf s => inf (!s)
  | nan => nan

/-- Go `x + y` on `float64`. -/
def add : F64 → F64 → F64
  | nan, _ => nan
  | _, nan => nan
  | inf s, inf t => if s = t then inf s else nan
  | inf s, _ => inf s
  | _, inf t => inf t
  | negZero, negZero => negZero
  | negZero, fin b => fin b
  | fin a, negZero => fin a
  | fin a, fin b => round (a + b)

/-- Go `x - y` on `float64`. -/
def sub (a b : F64) : F64 := add a (neg b)

/-- Go `x * y` on `float64`. -/
def mul (a b : F64) : F64 :=
  match a, b with
  | nan, _ => nan
  | _, nan => nan
  | inf s, y => if y.isZero then nan else inf (xor s y.isNeg)
  | x, inf t => if x.isZero then nan else inf (xor x.isNeg t)
  | x, y =>
    if x.toRat * y.toRat = 0 then signedZero (xor x.isNeg y.isNeg)
    else round (x.toRat * y.toRat)

/-- Go `x / y` on `float64`. -/
def div (a b : F64) : F64 :=
  match a, b with
  | nan, _ => nan
  | _, nan => nan
  | inf _, inf _ => nan
  | inf s, y => inf (xor s y.isNeg)
  | x, inf t => signedZero (xor x.isNeg t)
  | x, y =>
    if y.isZero then (if x.isZero then nan else inf (xor x.isNeg y.isNeg))
    else if x.isZero then signedZero (xor x.isNeg y.isNeg)
    else round (x.toRat / y.toRat)

/-- Go `x < y` on `float64` (false as soon as one side is a NaN). -/
def lt (a b : F64) : Bool :=
  match a, b with
  | nan, _ => false
  | _, nan => false
  | inf s, inf t => s && !t
  | inf s, _ => s
  | _, inf t => !t
  | x, y => decide (x.toRat < y.toRat)

/-- Go `x == y` on `float64` (`+0 == -0`, a NaN equals nothing). -/
def eq (a b : F64) : Bool :=
  match a, b with
  | nan, _ => false
  | _, nan => false
  | inf s, inf t => s == t
  | inf _, _ => false
  | _, inf _ => false
  | x, y => decide (x.toRat = y.toRat)

/-- Go `x != y`. -/
def ne (a b : F64) : Bool := !(eq a b)

/-- Go `x > y`. -/
def gt (a b : F64) : Bool := lt b a

/-- Go `x <= y`. -/
def le (a b : F64) : Bool := lt a b || eq a b

/-- Go `x >= y`. -/
def ge (a b : F64) : Bool := le b a

/-- Conversion of an integer to `float64` (`float64(i)`), and of an integer
constant. -/
def ofInt (i : Int) : F64 := round (i : ℚ)

/-- Conversion of a decimal constant to `float64`. -/
def ofRat (q : ℚ) : F64 := round q

/-- The floor of the square root of a natural number below `4 ^ k`. -/
def isqrtAux : Nat → Nat → Nat
  | 0, _ => 0
  | k + 1, x =>
    let r := isqrtAux k (x / 4)
    if (2 * r + 1) * (2 * r + 1) ≤ x then 2 * r + 1 else 2 * r

/-- The floor of the square root of a natural number. -/
def isqrt (x : Nat) : Nat := isqrtAux (natLog2 x / 2 + 1) x

/-- The correctly rounded square root of a positive rational (ties to even). -/
def sqrtRound (q : ℚ) : ℚ :=
  let e : Int := max (ilog2 q / 2 - 52) (-1074)
  let z : ℚ := q / pow2 (2 * e)
  let n : Nat := isqrt (⌊z⌋.toNat)
  let h : ℚ := (n : ℚ) + 1 / 2
  let m : Nat := if z < h * h then n else if h * h < z then n + 1 else if n % 2 = 0 then n else n + 1
  (m : ℚ) * pow2 e

/-- Go `math.Sqrt`. -/
def sqrt : F64 → F64
  | nan => nan
  | inf s => if s then nan else inf false
  | negZero => negZero
  | fin q => if q < 0 then nan else if q = 0 then fin 0 else fin (sqrtRound q)

/-- Go `math.Frexp` on a non-zero finite value: `x = frac * 2 ^ exp` with
`1/2 ≤ |frac| < 1`. -/
def frexp (q : ℚ) : ℚ × Int := (q / pow2 (ilog2 |q| + 1), ilog2 |q| + 1)

/-- Go `math.Ldexp`: `frac * 2 ^ exp`, rounded once when the result is
subnormal, infinite on overflow. -/
def ldexp (frac : F64) (exp : Int) : F64 :=
  match frac with
  | fin q => if q = 0 then fin 0 else round (q * pow2 exp)
  | other => other

/-- Go `math.Pow(x, 2)`. After the special cases the library splits `x` with
`Frexp`, squares the fraction in the one pass of its square-and-multiply loop
that the exponent `2` needs, renormalises it into `[1/2, 1)` and reassembles
the result with `Ldexp`. -/
def powTwo : F64 → F64
  | nan => nan
  | inf _ => inf false
  | negZero => fin 0
  | fin q =>
    if q = 0 then fin 0
    else if q = 1 then fin 1
    else
      let x1 := fin (frexp q).1
      let xe := (frexp q).2
      let x1 := mul x1 x1
      let xe := 2 * xe
      let xe := if lt x1 (fin (1 / 2)) then xe - 1 else xe
      let x1 := if lt x1 (fin (1 / 2)) then add x1 x1 else x1
      let a1 := mul (fin 1) x1
      ldexp a1 xe

end F64

/-! ## Images, configuration and result (`in_tagged_image.go`, `in_config.go`, `out_result.go`) -/

/-- The four `uint32` values returned by Go's `color.Color.RGBA()`. -/
structure RGBA where
  r : UInt32
  g : UInt32
  b : UInt32
  a : UInt32
  deriving DecidableEq

/-- Go's `image.Point`. -/
structure Point where
  X : Int
  Y : Int
  deriving DecidableEq

/-- Go's `image.Rectangle`. -/
structure Rectangle where
  Min : Point
  Max : Point
  deriving DecidableEq

/-- Go's `image.Image` as the program uses it: `Bounds()` and the channel
readings `At(x, y).RGBA()`. -/
structure Image where
  Bounds : Rectangle
  At : Int → Int → RGBA

/-- Embedding of `TaggedImage` of `in_tagged_image.go`; a nil `Image` is `none`. -/
structure TaggedImage where
  Image : Option Image
  Width : Int
  Height : Int
  MinX : Int
  MinY : Int
  Format : String
  Source : String

/-- Embedding of `Config` of `in_config.go`; the durations are nanosecond counts. -/
structure Config where
  ColorSpace : String
  Timeout : Int
  PreWait : Int
  AdmissibleDiffPixel : Nat
  NoDimensionError : Bool
  BaseImg : TaggedImage
  RefImg : TaggedImage

/-- Embedding of `Result` of `out_result.go` (its unexported `config` field is never read
or written and is left out). -/
structure Result where
  Config : String
  Runtime : Int
  PixelsDifferent : Nat
  Timeout : Bool
  Score : F64
  deriving DecidableEq

/-- The errors the package returns, one constructor for each message. -/
inductive Error where
  /-- "image dimensions do not correspond; got %d×%d (base) and %d×%d (ref)" -/
  | dimensionMismatch (baseW baseH refW refH : Int)
  /-- "color space is invalid" -/
  | colorSpaceInvalid
  /-- "base image required" -/
  | baseImageRequired
  /-- "reference image required" -/
  | refImageRequired
  /-- "width of base image to compare is zero" -/
  | baseWidthZero
  /-- "height of base image to compare is zero" -/
  | baseHeightZero
  /-- "width of reference image to compare is zero" -/
  | refWidthZero
  /-- "height of reference image to compare is zero" -/
  | refHeightZero
  /-- "base image minimum x coordinate is smaller than 0" -/
  | baseMinXNegative
  /-- "base image minimum y coordinate is smaller than 0" -/
  | baseMinYNegative
  /-- "reference image minimum x coordinate is smaller than 0" -/
  | refMinXNegative
  /-- "reference image minimum y coordinate is smaller than 0" -/
  | refMinYNegative
  /-- "width of base image is smaller than MinX + comparison Width" (base image) -/
  | baseWidthExceeded
  /-- "height of base image is smaller than MinY + comparison Height" (base image) -/
  | baseHeightExceeded
  /-- "width of base image is smaller than MinX + comparison Width" (reference image) -/
  | refWidthExceeded
  /-- "height of base image is smaller than MinY + comparison Height" (reference image) -/
  | refHeightExceeded
  /-- "timeout %s exceeded" -/
  | timeoutExceeded (timeout : Int)
  /-- "invalid duration specifier; expected integer and one of 'ismh'; got '%s'" -/
  | invalidDuration (s : List (Fin 256))
  /-- An error of `os.Open` or `image.Decode`. -/
  | decodeFailed (reason : String)
  deriving DecidableEq

/-- The outcome of running Go code that may panic. -/
inductive Exec (α : Type) where
  | ret (a : α)
  | panicked
  deriving DecidableEq

/-- Embedding of `TaggedImage.FromFilepath`: `decode` stands for `os.Open` followed by
`image.Decode`, giving the decoded image and its format name. -/
def TaggedImage.FromFilepath (decode : String → Except Error (ScreenshotCompare.Image × String))
    (i : TaggedImage) (fp : String) : TaggedImage × Option Error :=
  match decode fp with
  | .error err => (i, some err)
  | .ok (decoded, format) =>
    let i := { i with Image := some decoded }
    let i := { i with Width := wrapInt64 (decoded.Bounds.Max.X - decoded.Bounds.Min.X) }
    let i := { i with Height := wrapInt64 (decoded.Bounds.Max.Y - decoded.Bounds.Min.Y) }
    let i := { i with MinX := decoded.Bounds.Min.X }
    let i := { i with MinX := decoded.Bounds.Min.Y }
    let i := { i with Format := format }
    let i := { i with Source := fp }
    (i, none)

/-- Embedding of `TaggedImage.String`. -/
def TaggedImage.String (i : TaggedImage) : String :=
  "\x7bWidth: " ++ toString i.Width ++ ", Height: " ++ toString i.Height ++
  ", MinX: " ++ toString i.MinX ++ ", MinY: " ++ toString i.MinY ++
  ", Format: '" ++ i.Format ++ "', Source: '" ++ i.Source ++ "', Image: " ++
  (match i.Image with
   | none => "nil"
   | some _ => "<ready>") ++ "\x7d"

/-- Embedding of `Config.String`; `fmtDuration` is `time.Duration.String`. -/
def Config.String (fmtDuration : Int → String) (c : Config) : String :=
  "\x7bcolors: " ++ c.ColorSpace ++ ", timeout: " ++ fmtDuration c.Timeout ++
  ", wait: " ++ fmtDuration c.PreWait ++ ", diffpixel: " ++ toString c.AdmissibleDiffPixel ++
  ", nodimerr: " ++ toString c.NoDimensionError ++ ", baseimg: " ++ c.BaseImg.String ++
  ", refimg: " ++ c.RefImg.String ++ "\x7d"

/-- Embedding of `Config.Valid`; `none` is the nil error. The two warnings it may print to
standard error about `AdmissibleDiffPixel` change neither the configuration
nor the returned error. -/
def Config.Valid (c : Config) : Option Error :=
  if c.ColorSpace ≠ "Y'UV" ∧ c.ColorSpace ≠ "RGB" then some .colorSpaceInvalid
  else match c.BaseImg.Image, c.RefImg.Image with
  | none, _ => some .baseImageRequired
  | some _, none => some .refImageRequired
  | some bimg, some rimg =>
    if c.BaseImg.Width = 0 then some .baseWidthZero
    else if c.BaseImg.Height = 0 then some .baseHeightZero
    else if c.RefImg.Width = 0 then some .refWidthZero
    else if c.RefImg.Height = 0 then some .refHeightZero
    else if c.BaseImg.MinX < 0 then some .baseMinXNegative
    else if c.BaseImg.MinY < 0 then some .baseMinYNegative
    else if c.RefImg.MinX < 0 then some .refMinXNegative
    else if c.RefImg.MinY < 0 then some .refMinYNegative
    else
      let actualBWidth := wrapInt64 (bimg.Bounds.Max.X - bimg.Bounds.Min.X)
      let actualBHeight := wrapInt64 (bimg.Bounds.Max.Y - bimg.Bounds.Min.Y)
      let actualRWidth := wrapInt64 (rimg.Bounds.Max.X - rimg.Bounds.Min.X)
      let actualRHeight := wrapInt64 (rimg.Bounds.Max.Y - rimg.Bounds.Min.Y)
      if wrapInt64 (c.BaseImg.MinX + c.BaseImg.Width) > actualBWidth then some .baseWidthExceeded
      else if wrapInt64 (c.BaseImg.MinY + c.BaseImg.Height) > actualBHeight then
        some .baseHeightExceeded
      else if wrapInt64 (c.RefImg.MinX + c.RefImg.Width) > actualRWidth then
        some .refWidthExceeded
      else if wrapInt64 (c.RefImg.MinY + c.RefImg.Height) > actualRHeight then
        some .refHeightExceeded
      else none

/-! ## Colour model (`compare_colors.go`) -/

/-- The BT.601 weight `WR = float64(0.299)`. -/
def WR : F64 := F64.ofRat (299 / 1000)

/-- The BT.601 weight `WG = float64(0.587)`. -/
def WG : F64 := F64.ofRat (587 / 1000)

/-- The BT.601 weight `WB = float64(0.114)`. -/
def WB : F64 := F64.ofRat (114 / 1000)

/-- Embedding of `toNRGBA`: an alpha-premultiplied reading to straight colour. The products
`r*0xFFFF` are `uint32` products. -/
def toNRGBA (r g b a : UInt32) : F64 × F64 × F64 × F64 :=
  let d := F64.ofInt a.toNat
  if F64.eq d (F64.fin 0) then
    (F64.fin 0, F64.fin 0, F64.fin 0, F64.fin 0)
  else
    (F64.div (F64.ofInt (wrapUint32 (r.toNat * 0xFFFF))) d,
     F64.div (F64.ofInt (wrapUint32 (g.toNat * 0xFFFF))) d,
     F64.div (F64.ofInt (wrapUint32 (b.toNat * 0xFFFF))) d,
     d)

/-- Embedding of `toYUV`. -/
def toYUV (r g b : F64) : F64 × F64 × F64 :=
  let yPrime := F64.add (F64.add (F64.mul WR r) (F64.mul WG g)) (F64.mul WB b)
  (yPrime,
   F64.mul (F64.ofRat (492 / 1000)) (F64.sub b yPrime),
   F64.mul (F64.ofRat (877 / 1000)) (F64.sub r yPrime))

/-- Embedding of `euclideanDistance`. -/
def euclideanDistance (a x b y c z : F64) : F64 :=
  F64.sqrt (F64.add (F64.add (F64.powTwo (F64.sub a x)) (F64.powTwo (F64.sub b y)))
    (F64.powTwo (F64.sub c z)))

/-! ## Pixel scanner and scoring (`compare.go`) -/

namespace Exec

/-- Sequencing: a panic ends the run. -/
def bind {α β : Type} (m : Exec α) (f : α → Exec β) : Exec β :=
  match m with
  | ret a => f a
  | panicked => panicked

end Exec

/-- A counting loop `for i := 0; i < n; i++ { body }` over a state. -/
def forRange {σ : Type} (n : Nat) (body : Nat → σ → Exec σ) (s : σ) : Exec σ :=
  (List.range n).foldl (fun acc i => acc.bind (body i)) (Exec.ret s)

/-- What the nested loops of `compareImages` carry from pixel to pixel: the
local `cumul` and the counter `r.PixelsDifferent`. -/
structure Scan where
  cumul : F64
  PixelsDifferent : Nat
  deriving DecidableEq

/-- The colour distance `d` of one pixel pair (the `switch c.ColorSpace`; `d`
keeps its zero value for any other colour space). -/
def pixelDistance (colorSpace : String) (p1 p2 : RGBA) : F64 :=
  let n1 := toNRGBA p1.r p1.g p1.b p1.a
  let n2 := toNRGBA p2.r p2.g p2.b p2.a
  if colorSpace = "RGB" then
    F64.div (euclideanDistance n1.1 n2.1 n1.2.1 n2.2.1 n1.2.2.1 n2.2.2.1) (F64.fin 113510)
  else if colorSpace = "Y'UV" then
    let yuv1 := toYUV n1.1 n1.2.1 n1.2.2.1
    let yuv2 := toYUV n2.1 n2.2.1 n2.2.2.1
    F64.div (euclideanDistance yuv1.1 yuv2.1 yuv1.2.1 yuv2.2.1 yuv1.2.2 yuv2.2.2) (F64.fin 113510)
  else F64.fin 0

/-- The coordinate `(MinX + x, MinY + y)` at which an image is read. -/
def readCoord (i : TaggedImage) (x y : Int) : Int × Int :=
  (wrapInt64 (i.MinX + x), wrapInt64 (i.MinY + y))

/-- The body of the inner loop of `compareImages` at column `x` of row `y`.
Calling `At` on a nil image panics, and so does an `alpha` outside `[0, 1]`. -/
def scanPixel (c : Config) (y x : Int) (s : Scan) : Exec Scan :=
  match c.BaseImg.Image, c.RefImg.Image with
  | some bimg, some rimg =>
    let p1 := bimg.At (readCoord c.BaseImg x y).1 (readCoord c.BaseImg x y).2
    let p2 := rimg.At (readCoord c.RefImg x y).1 (readCoord c.RefImg x y).2
    let d := pixelDistance c.ColorSpace p1 p2
    let pixels := if F64.ne d (F64.fin 0) then wrapUint64 (s.PixelsDifferent + 1)
      else s.PixelsDifferent
    let alpha := F64.div (toNRGBA p2.r p2.g p2.b p2.a).2.2.2 (F64.fin 65535)
    if F64.lt alpha (F64.fin 0) || F64.gt alpha (F64.fin 1) then Exec.panicked
    else Exec.ret { cumul := F64.add s.cumul (F64.mul d alpha), PixelsDifferent := pixels }
  | _, _ => Exec.panicked

/-- The nested loops of `compareImages`: rows `yOffset ≤ y < yCount`, columns
`0 ≤ x < c.BaseImg.Width`. -/
def scanLoop (c : Config) (yOffset yCount : Int) (s : Scan) : Exec Scan :=
  forRange (yCount - yOffset).toNat
    (fun i s => forRange c.BaseImg.Width.toNat (fun j s => scanPixel c (yOffset + i) j s) s) s

/-- The score `cumul / float64(yCount*c.BaseImg.Width) * roundingErrorFactor`,
capped at `1.0`. -/
def finalScore (cumul : F64) (yCount width : Int) : F64 :=
  let score := F64.mul (F64.div cumul (F64.ofInt (wrapInt64 (yCount * width)))) (F64.fin (5 / 4))
  if F64.gt score (F64.fin 1) then F64.fin 1 else score

/-- Embedding of `compareImages`. The returned error is always nil. -/
def compareImages (fmtDuration : Int → String) (c : Config) (r : Result)
    (yOffset yCount : Int) : Exec (Option Error × Result) :=
  (scanLoop c yOffset yCount { cumul := F64.fin 0, PixelsDifferent := 0 }).bind fun s =>
    Exec.ret (none,
      { r with
        PixelsDifferent := s.PixelsDifferent
        Timeout := false
        Config := c.String fmtDuration
        Score := finalScore s.cumul yCount c.BaseImg.Width })

/-- The score before the cap: `cumul / float64(yCount*c.BaseImg.Width) *
roundingErrorFactor`, as line 120 of `compare.go` assigns it to `r.Score`. -/
def rawScore (cumul : F64) (yCount width : Int) : F64 :=
  F64.mul (F64.div cumul (F64.ofInt (wrapInt64 (yCount * width)))) (F64.fin (5 / 4))

/-- How far the scanning goroutine of `Compare` has got in `compareImages` at the
moment `Compare` returns on the timer's message. The goroutine shares the
result with its caller, is not waited for, and writes to it in program order:
the counter `r.PixelsDifferent` inside the loops, then `r.Timeout = false`,
`r.Config` (the string the caller has stored already), `r.Score` and, for a
score above one, `r.Score = 1.0`. From `wroteTimeout` on, `last` tells whether
its `r.Timeout = false` came after the caller's `r.Timeout = true`. -/
inductive ScanProgress where
  /-- It has not written to the result yet. -/
  | notStarted
  /-- It is inside the loops, the counter holding `pixels`. -/
  | inLoops (pixels : Nat)
  /-- It has left the loops and assigned `r.Timeout` and `r.Config`. -/
  | wroteTimeout (last : Bool)
  /-- It has also assigned the uncapped score to `r.Score`. -/
  | wroteScore (last : Bool)
  /-- It has run `compareImages` to its end. -/
  | finished (last : Bool)
  deriving DecidableEq

/-- Whether the scanning goroutine has left the loops of `compareImages`. -/
def ScanProgress.pastLoops : ScanProgress → Bool
  | .wroteTimeout _ => true
  | .wroteScore _ => true
  | .finished _ => true
  | _ => false

/-- Whether the scanning goroutine has assigned `r.Timeout = false` after the
caller's `r.Timeout = true`. -/
def ScanProgress.timeoutLast : ScanProgress → Bool
  | .wroteTimeout last => last
  | .wroteScore last => last
  | .finished last => last
  | _ => false

/-- What `Compare` takes from its environment: the rendering of durations, the
wall-clock time `time.Now().Sub(beforeTime)` it measures, and, when a timeout
is set, which goroutine's message arrives first on the channel and, for the
timer's, how far the scanning goroutine has got with its writes to the shared
result. -/
structure Env where
  fmtDuration : Int → String
  elapsed : Int
  timerFirst : Bool
  scanProgress : ScanProgress

/-- Embedding of `Compare`. The pre-wait sleep changes no state. On the timer's
message the result is what the caller and the scanning goroutine have written
to it between them by the time `Compare` returns; a goroutine that has left
the loops has made every pass of them, and where a pass panics the program has
ended in that panic. -/
def Compare (env : Env) (c : Config) (r : Result) : Exec (Option Error × Result) :=
  if c.BaseImg.Width ≠ c.RefImg.Width ∨ c.BaseImg.Height ≠ c.RefImg.Height then
    if !c.NoDimensionError then
      Exec.ret (some (Error.dimensionMismatch c.BaseImg.Width c.BaseImg.Height
        c.RefImg.Width c.RefImg.Height), r)
    else
      Exec.ret (none,
        { r with
          Timeout := false
          Runtime := 0
          Config := c.String env.fmtDuration
          Score := F64.fin 1 })
  else
    match c.Valid with
    | some err => Exec.ret (some err, r)
    | none =>
      if c.Timeout > 0 then
        let r := { r with Config := c.String env.fmtDuration }
        if env.timerFirst then
          let err := Error.timeoutExceeded c.Timeout
          let r := { r with Timeout := true, Runtime := wrapInt64 (c.PreWait + c.Timeout) }
          match env.scanProgress with
          | .notStarted => Exec.ret (some err, r)
          | .inLoops pixels => Exec.ret (some err, { r with PixelsDifferent := pixels })
          | .wroteTimeout last =>
            (scanLoop c 0 c.BaseImg.Height { cumul := F64.fin 0, PixelsDifferent := 0 }).bind
              fun s => Exec.ret (some err,
                { r with PixelsDifferent := s.PixelsDifferent, Timeout := !last })
          | .wroteScore last =>
            (scanLoop c 0 c.BaseImg.Height { cumul := F64.fin 0, PixelsDifferent := 0 }).bind
              fun s => Exec.ret (some err,
                { r with
                  PixelsDifferent := s.PixelsDifferent
                  Timeout := !last
                  Score := rawScore s.cumul c.BaseImg.Height c.BaseImg.Width })
          | .finished last =>
            (scanLoop c 0 c.BaseImg.Height { cumul := F64.fin 0, PixelsDifferent := 0 }).bind
              fun s => Exec.ret (some err,
                { r with
                  PixelsDifferent := s.PixelsDifferent
                  Timeout := !last
                  Score := finalScore s.cumul c.BaseImg.Height c.BaseImg.Width })
        else
          (compareImages env.fmtDuration c r 0 c.BaseImg.Height).bind fun t =>
            match t.1 with
            | some err => Exec.ret (some err, t.2)
            | none => Exec.ret (none, { t.2 with Timeout := false, Runtime := env.elapsed })
      else
        let r := { r with Config := c.String env.fmtDuration }
        (compareImages env.fmtDuration c r 0 c.BaseImg.Height).bind fun t =>
          Exec.ret (t.1, { t.2 with Runtime := env.elapsed })

/-! ## Duration specifiers (`parseDurationSpecifier` of `in_read_config.go`) -/

/-- A byte of a Go string. -/
abbrev Byte := Fin 256

/-- The ASCII white space of `strings.TrimSpace`: tab, line feed, vertical tab,
form feed, carriage return, space. -/
def isAsciiSpace (b : Byte) : Bool :=
  b = 9 || b = 10 || b = 11 || b = 12 || b = 13 || b = 32

/-- The test `'0' <= b && b <= '9'`. -/
def isDigit (b : Byte) : Bool := decide (48 ≤ b.val) && decide (b.val ≤ 57)

/-- What Go's `strings` package does to a string that holds a byte outside
ASCII, where it consults its Unicode tables. -/
structure UnicodeTables where
  trimSpace : List Byte → List Byte
  toLower : List Byte → List Byte

/-- Go `strings.TrimSpace`. -/
def TrimSpace (u : UnicodeTables) (s : List Byte) : List Byte :=
  if s.all (fun b => decide (b.val < 128)) then
    ((s.dropWhile isAsciiSpace).reverse.dropWhile isAsciiSpace).reverse
  else u.trimSpace s

/-- Go `strings.ToLower`. -/
def ToLower (u : UnicodeTables) (s : List Byte) : List Byte :=
  if s.all (fun b => decide (b.val < 128)) then
    s.map (fun b => if 65 ≤ b.val ∧ b.val ≤ 90 then b + 32 else b)
  else u.toLower s

/-- The value of a string of decimal digits. -/
def decimalValue (s : List Byte) : Nat :=
  s.foldl (fun n b => n * 10 + (b.val - 48)) 0

/-- Go `strconv.Atoi` on a 64-bit platform: an optional sign and one or more
decimal digits, the value within the range of `int`; `none` is an error. -/
def Atoi (s : List Byte) : Option Int :=
  let neg : Bool := s.head? = some 45
  let body : List Byte := if s.head? = some 45 ∨ s.head? = some 43 then s.tail else s
  if body = [] then none
  else if body.all isDigit then
    if neg then
      (if decimalValue body ≤ 2 ^ 63 then some (-(decimalValue body : Int)) else none)
    else
      (if decimalValue body < 2 ^ 63 then some (decimalValue body : Int) else none)
  else none

/-- Embedding of `time.Millisecond`, in nanoseconds. -/
def Millisecond : Int := 1000000

/-- Embedding of `time.Second`. -/
def Second : Int := 1000 * Millisecond

/-- Embedding of `time.Minute`. -/
def Minute : Int := 60 * Second

/-- Embedding of `time.Hour`. -/
def Hour : Int := 60 * Minute

/-- The body of `parseDurationSpecifier` once `s` has been replaced by
`strings.ToLower(strings.TrimSpace(s))`: the duration and the error (`none` is
nil). `s[end]` and `s[len(s)-1]` are the last byte, `s[:end]` the prefix. -/
def parseNormalized (s : List Byte) : Int × Option Error :=
  if s = [] then (0, some (Error.invalidDuration s))
  else
    let last : Byte := s.getD (s.length - 1) 0
    let stop : Nat := if isDigit last then s.length - 1 + 1 else s.length - 1
    match Atoi (s.take stop) with
    | none => (0, some (Error.invalidDuration s))
    | some val =>
      if isDigit last then (wrapInt64 (val * Second), none)
      else if last = 105 then (wrapInt64 (val * Millisecond), none)
      else if last = 115 then (wrapInt64 (val * Second), none)
      else if last = 109 then (wrapInt64 (val * Minute), none)
      else if last = 104 then (wrapInt64 (val * Hour), none)
      else (0, some (Error.invalidDuration s))

/-- Embedding of `parseDurationSpecifier`. -/
def parseDurationSpecifier (u : UnicodeTables) (s : List Byte) : Int × Option Error :=
  parseNormalized (ToLower u (TrimSpace u s))

/-- One of the unit letters `i`, `s`, `m`, `h`. -/
def isUnit (b : Byte) : Bool := b = 105 || b = 115 || b = 109 || b = 104

/-- The format the usage text gives for a duration, with the unit optional:
one or more decimal digits, optionally followed by exactly one unit letter. -/
def unsignedSpecifier (t : List Byte) : Bool :=
  let body := if (t.getLast?.map isUnit) = some true then t.dropLast else t
  !body.isEmpty && body.all isDigit

/-- An unsigned specifier, optionally preceded by one sign `+` or `-`. -/
def signedSpecifier (t : List Byte) : Bool :=
  unsignedSpecifier (if t.head? = some 45 ∨ t.head? = some 43 then t.tail else t)

/-- Unicode tables that leave every string alone. -/
def asciiTables : UnicodeTables := { trimSpace := id, toLower := id }

/-- The string "-5s". -/
def minusFiveSeconds : List Byte := [45, 53, 115]

/-- The string "5x". -/
def fiveX : List Byte := [53, 120]

/-! ## Concrete inputs used to exercise the theorems -/

/-- An image of the given size, anchored at the origin, every pixel reading `p`. -/
def uniformImage (p : RGBA) (w h : Int) : Image :=
  { Bounds := { Min := { X := 0, Y := 0 }, Max := { X := w, Y := h } }, At := fun _ _ => p }

/-- A tagged image covering a whole uniform image. -/
def uniformTagged (p : RGBA) (w h : Int) : TaggedImage :=
  { Image := some (uniformImage p w h), Width := w, Height := h, MinX := 0, MinY := 0,
    Format := "png", Source := "uniform.png" }

/-- A configuration comparing two uniform images, no timeout and no pre-wait. -/
def uniformConfig (colorSpace : String) (noDimErr : Bool) (p1 : RGBA) (w1 h1 : Int)
    (p2 : RGBA) (w2 h2 : Int) : Config :=
  { ColorSpace := colorSpace, Timeout := 0, PreWait := 0, AdmissibleDiffPixel := 0,
    NoDimensionError := noDimErr, BaseImg := uniformTagged p1 w1 h1,
    RefImg := uniformTagged p2 w2 h2 }

/-- An environment: durations print as their nanosecond count, the measured
time is 7 ns, the scan wins any race. -/
def sampleEnv : Env :=
  { fmtDuration := fun d => toString d ++ "ns", elapsed := 7, timerFirst := false,
    scanProgress := ScanProgress.notStarted }

/-- A result holding values no run of `Compare` writes together. -/
def staleResult : Result :=
  { Config := "stale", Runtime := 99, PixelsDifferent := 5, Timeout := true,
    Score := F64.fin (1 / 2) }

/-- Opaque black. -/
def black : RGBA := { r := 0, g := 0, b := 0, a := 65535 }

/-- Opaque white. -/
def white : RGBA := { r := 65535, g := 65535, b := 65535, a := 65535 }

/-- A configuration with an unknown colour space whose images differ in width,
with `NoDimensionError` set. -/
def invalidMismatchConfig : Config := uniformConfig "CMYK" true black 2 2 white 3 2

/-- A configuration over two 1×1 images that asks for a comparison rectangle of
width `-1`. -/
def negativeWidthConfig : Config :=
  { ColorSpace := "RGB", Timeout := 0, PreWait := 0, AdmissibleDiffPixel := 0,
    NoDimensionError := false,
    BaseImg := { uniformTagged black 1 1 with Width := -1 },
    RefImg := { uniformTagged black 1 1 with Width := -1 } }

/-! ## Vocabulary of the proofs about rounding -/

/-- The value binary64 rounding gives a rational, overflow aside: the sign is
kept and the magnitude rounded. -/
def roundVal (x : ℚ) : ℚ := if x < 0 then -roundMag (-x) else roundMag x

/-- The float `x` is finite and its value lies between `lo` and `hi`. -/
def F64.Within (lo hi : ℚ) (x : F64) : Prop :=
  x.isFinite = true ∧ lo ≤ x.toRat ∧ x.toRat ≤ hi

/-! ## The scan in the words of the specification -/

/-- Position `(x, y)` of the comparison rectangle is one the scanner visits:
`0 ≤ x < Width`, `0 ≤ y < Height`. -/
def Config.Scanned (c : Config) (x y : Int) : Prop :=
  0 ≤ x ∧ x < c.BaseImg.Width ∧ 0 ≤ y ∧ y < c.BaseImg.Height

/-- The base image's reading at position `(x, y)` of the comparison rectangle. -/
def baseReading (c : Config) (bimg : Image) (x y : Int) : RGBA :=
  bimg.At (readCoord c.BaseImg x y).1 (readCoord c.BaseImg x y).2

/-- The reference image's reading at position `(x, y)` of the comparison
rectangle. -/
def refReading (c : Config) (rimg : Image) (x y : Int) : RGBA :=
  rimg.At (readCoord c.RefImg x y).1 (readCoord c.RefImg x y).2

/-- The weight of a reference reading: its alpha, normalised by 65535. -/
def alphaWeight (p : RGBA) : F64 :=
  F64.div (toNRGBA p.r p.g p.b p.a).2.2.2 (F64.fin 65535)

/-- The alpha-weighted distance of the pixel pair at position `(x, y)`. -/
def weightedDistance (c : Config) (bimg rimg : Image) (x y : Int) : F64 :=
  F64.mul (pixelDistance c.ColorSpace (baseReading c bimg x y) (refReading c rimg x y))
    (alphaWeight (refReading c rimg x y))

/-- The running sum of the specification: the alpha-weighted distances of all
positions `[0, Width) × [0, Height)`, added up row by row. -/
def weightedSum (c : Config) (bimg rimg : Image) : F64 :=
  (List.range c.BaseImg.Height.toNat).foldl
    (fun acc (y : Nat) => (List.range c.BaseImg.Width.toNat).foldl
      (fun acc (x : Nat) => F64.add acc (weightedDistance c bimg rimg (x : Int) (y : Int))) acc)
    (F64.fin 0)

/-- The score of the specification:
`clamp((sum / (height × width)) × 1.25, upperBound = 1.0)`. -/
def specScore (c : Config) (bimg rimg : Image) : F64 :=
  let v := F64.mul (F64.div (weightedSum c bimg rimg)
    (F64.ofInt (c.BaseImg.Height * c.BaseImg.Width))) (F64.fin (5 / 4))
  if F64.lt (F64.fin 1) v then F64.fin 1 else v

/-- One pass of the scanner's loop body when it does not panic. -/
def scanStep (c : Config) (bimg rimg : Image) (y x : Int) (s : Scan) : Scan :=
  { cumul := F64.add s.cumul (weightedDistance c bimg rimg x y)
    PixelsDifferent :=
      if F64.ne (pixelDistance c.ColorSpace (baseReading c bimg x y) (refReading c rimg x y))
          (F64.fin 0) then wrapUint64 (s.PixelsDifferent + 1)
      else s.PixelsDifferent }

/-- Two identical readings `p` with alpha reading 65536, one above the 16-bit
range of Go's colour model. -/
def overRangeAlpha : RGBA := { r := 1, g := 2, b := 3, a := 65536 }

/-- A fully transparent reading. -/
def transparent : RGBA := { r := 0, g := 0, b := 0, a := 0 }

/-- A configuration comparing two uniform images of `2^32 × 2^32` pixels, whose
pixel count `2^64` wraps to zero in 64-bit arithmetic. -/
def hugeConfig (colorSpace : String) (p1 p2 : RGBA) : Config :=
  uniformConfig colorSpace false p1 (2 ^ 32) (2 ^ 32) p2 (2 ^ 32) (2 ^ 32)

/-- All four channel readings are within the 16-bit range `0..65535` of Go's
colour model. -/
def RGBA.InRange (p : RGBA) : Prop :=
  p.r.toNat ≤ 65535 ∧ p.g.toNat ≤ 65535 ∧ p.b.toNat ≤ 65535 ∧ p.a.toNat ≤ 65535

instance (p : RGBA) : Decidable p.InRange := by
  unfold RGBA.InRange
  infer_instance

/-- A premultiplied reading: semi-transparent, colour below alpha. -/
def tinted : RGBA := { r := 100, g := 200, b := 300, a := 4000 }

/-- A configuration comparing an opaque black image with an opaque white one
in RGB, both `3·2^26` pixels wide and `2^26` pixels high: `3·2^52` pixels. -/
def stallConfig : Config :=
  uniformConfig "RGB" false black (3 * 2 ^ 26) (2 ^ 26) white (3 * 2 ^ 26) (2 ^ 26)

/-- The exact value of the float distance between opaque black and opaque
white in RGB, `sqrt(3 * 65535^2) / 113510` after rounding. -/
def blackWhiteDistance : ℚ := 9007195261294845 / 9007199254740992

/-! ## Inputs for the timeout race, the allowance, the bounds and the decoder -/

/-- An environment in which the timer's message is the first one received, the
scanning goroutine having run `compareImages` to its end and assigned
`r.Timeout = false` before the caller assigns `r.Timeout = true`. -/
def timerEnv : Env :=
  { fmtDuration := fun d => toString d ++ "ns", elapsed := 7, timerFirst := true,
    scanProgress := ScanProgress.finished false }

/-- An environment in which the timer's message is the first one received and
the scanning goroutine, at the end of `compareImages`, assigns
`r.Timeout = false` after the caller has assigned `r.Timeout = true`. -/
def raceEnv : Env :=
  { fmtDuration := fun d => toString d ++ "ns", elapsed := 7, timerFirst := true,
    scanProgress := ScanProgress.finished true }

/-- Two 1×1 images with the alpha reading 65536, compared with a timeout of
50 ms. -/
def overRangeTimeoutConfig : Config :=
  { uniformConfig "RGB" false overRangeAlpha 1 1 overRangeAlpha 1 1 with
    Timeout := 50 * Millisecond }

/-- Two opaque black 2×2 images compared with a timeout of 50 ms after a
pre-wait of 20 ms. -/
def timeoutConfig : Config :=
  { uniformConfig "RGB" false black 2 2 black 2 2 with
    Timeout := 50 * Millisecond, PreWait := 20 * Millisecond }

/-- An opaque black pixel compared with an opaque white one in RGB, one
differing pixel being admissible. -/
def allowanceConfig : Config :=
  { uniformConfig "RGB" false black 1 1 white 1 1 with AdmissibleDiffPixel := 1 }

/-- Go's `Point.In`: the point `(x, y)` lies in the rectangle, whose `Min` is
inclusive and whose `Max` is exclusive. -/
def Rectangle.Contains (r : Rectangle) (x y : Int) : Prop :=
  r.Min.X ≤ x ∧ x < r.Max.X ∧ r.Min.Y ≤ y ∧ y < r.Max.Y

instance (r : Rectangle) (x y : Int) : Decidable (r.Contains x y) := by
  unfold Rectangle.Contains
  infer_instance

/-- A black 2×2 image whose bounds are `[10, 12) × [0, 2)`, such as
`SubImage` returns. -/
def shiftedImage : Image :=
  { Bounds := { Min := { X := 10, Y := 0 }, Max := { X := 12, Y := 2 } }, At := fun _ _ => black }

/-- A tagged image over `shiftedImage` with a 2×2 comparison rectangle and
both offsets zero. -/
def shiftedTagged : TaggedImage :=
  { Image := some shiftedImage, Width := 2, Height := 2, MinX := 0, MinY := 0,
    Format := "png", Source := "shifted.png" }

/-- A configuration comparing `shiftedImage` with itself. -/
def shiftedConfig : Config :=
  { ColorSpace := "RGB", Timeout := 0, PreWait := 0, AdmissibleDiffPixel := 0,
    NoDimensionError := false, BaseImg := shiftedTagged, RefImg := shiftedTagged }

/-- A decoder that reads every file as a black 2×2 PNG anchored at the origin. -/
def originDecode : String → Except Error (Image × String) :=
  fun _ => .ok (uniformImage black 2 2, "png")

/-- A decoder that reads every file as `shiftedImage`. -/
def shiftedDecode : String → Except Error (Image × String) :=
  fun _ => .ok (shiftedImage, "png")

/-- The zero value of `TaggedImage`. -/
def zeroTagged : TaggedImage :=
  { Image := none, Width := 0, Height := 0, MinX := 0, MinY := 0, Format := "", Source := "" }

/-- A tagged image that was given the offsets `(4, 7)` before an image is
loaded into it. -/
def staleTagged : TaggedImage := { zeroTagged with MinX := 4, MinY := 7 }

/-! ## The base image's alpha -/

/-- The straight colour the scanner takes from a reading: the first three
results of `toNRGBA`. For the base image the fourth result is dropped. -/
def straightColour (p : RGBA) : F64 × F64 × F64 :=
  ((toNRGBA p.r p.g p.b p.a).1, (toNRGBA p.r p.g p.b p.a).2.1, (toNRGBA p.r p.g p.b p.a).2.2.1)

/-- The configuration `c` with the readings of its base image replaced by
`pixels`; the bounds of the image and all else stay as they are. -/
def Config.withBasePixels (c : Config) (pixels : Int → Int → RGBA) : Config :=
  { c with
    BaseImg := { c.BaseImg with
      Image := c.BaseImg.Image.map fun img => { img with At := pixels } } }

/-- An opaque dark grey reading. -/
def greySolid : RGBA := { r := 100, g := 100, b := 100, a := 65535 }

/-- The reading `greySolid` with its alpha lowered to 200. -/
def greyFaint : RGBA := { greySolid with a := 200 }

/-- A reading with other channel values than `greyFaint` and the same straight
colour, `32767.5` in each channel. -/
def greyFainter : RGBA := { r := 50, g := 50, b := 50, a := 100 }

/-- A 1×1 comparison in RGB of the reading `greySolid` with itself. -/
def greyConfig : Config := uniformConfig "RGB" false greySolid 1 1 greySolid 1 1

/-! # Theorems -/

/-! ## Binary64 rounding -/

theorem pow2_eq (e : Int) : pow2 e = (2 : ℚ) ^ e := by
  unfold pow2
  split
  · rename_i h
    obtain ⟨n, rfl⟩ := Int.eq_ofNat_of_zero_le h
    simp [zpow_natCast]
  · rename_i h
    obtain ⟨n, rfl⟩ : ∃ n : Nat, e = -(n : Int) := ⟨(-e).toNat, by omega⟩
    simp [zpow_neg, zpow_natCast]

theorem pow2_pos (e : Int) : 0 < pow2 e := by
  rw [pow2_eq]; exact zpow_pos (by norm_num) e

theorem log2Fuel_spec : ∀ (fuel n : Nat), n ≤ fuel → 1 ≤ n →
    2 ^ log2Fuel fuel n ≤ n ∧ n < 2 ^ (log2Fuel fuel n + 1)
  | 0, n, h, h1 => by omega
  | fuel + 1, n, h, h1 => by
    unfold log2Fuel
    split
    · rename_i h2
      simp
      omega
    · rename_i h2
      have ih := log2Fuel_spec fuel (n / 2) (by omega) (by omega)
      generalize log2Fuel fuel (n / 2) = k at ih
      simp only [pow_succ] at ih ⊢
      generalize 2 ^ k = a at ih ⊢
      omega

theorem natLog2_spec (n : Nat) (h : 1 ≤ n) : 2 ^ natLog2 n ≤ n ∧ n < 2 ^ (natLog2 n + 1) :=
  log2Fuel_spec n n (le_refl n) h

theorem ilog2_spec (x : ℚ) (hx : 0 < x) :
    (2 : ℚ) ^ ilog2 x ≤ x ∧ x < (2 : ℚ) ^ (ilog2 x + 1) := by
  have hnum : 0 < x.num := Rat.num_pos.mpr hx
  have hp : 1 ≤ x.num.natAbs := by omega
  have hq : 1 ≤ x.den := x.den_pos
  obtain ⟨hp1, hp2⟩ := natLog2_spec _ hp
  obtain ⟨hq1, hq2⟩ := natLog2_spec _ hq
  have hxe : x = (x.num.natAbs : ℚ) / (x.den : ℚ) := by
    rw [Nat.cast_natAbs, abs_of_pos hnum, Rat.num_div_den]
  have hqpos : (0 : ℚ) < (x.den : ℚ) := by exact_mod_cast hq
  have hp1' : (2 : ℚ) ^ (natLog2 x.num.natAbs : ℤ) ≤ (x.num.natAbs : ℚ) := by
    rw [zpow_natCast]; exact_mod_cast hp1
  have hp2' : (x.num.natAbs : ℚ) < (2 : ℚ) ^ ((natLog2 x.num.natAbs : ℤ) + 1) := by
    have : ((natLog2 x.num.natAbs : ℤ) + 1) = ((natLog2 x.num.natAbs + 1 : ℕ) : ℤ) := by
      push_cast; ring
    rw [this, zpow_natCast]; exact_mod_cast hp2
  have hq1' : (2 : ℚ) ^ (natLog2 x.den : ℤ) ≤ (x.den : ℚ) := by
    rw [zpow_natCast]; exact_mod_cast hq1
  have hq2' : (x.den : ℚ) < (2 : ℚ) ^ ((natLog2 x.den : ℤ) + 1) := by
    have : ((natLog2 x.den : ℤ) + 1) = ((natLog2 x.den + 1 : ℕ) : ℤ) := by
      push_cast; ring
    rw [this, zpow_natCast]; exact_mod_cast hq2
  have two_ne : (2 : ℚ) ≠ 0 := by norm_num
  set lp : ℤ := (natLog2 x.num.natAbs : ℤ) with hlp
  set lq : ℤ := (natLog2 x.den : ℤ) with hlq
  have hup : x < (2 : ℚ) ^ (lp - lq + 1) := by
    rw [hxe, div_lt_iff₀ hqpos]
    calc (x.num.natAbs : ℚ) < (2 : ℚ) ^ (lp + 1) := hp2'
      _ = (2 : ℚ) ^ (lp - lq + 1) * (2 : ℚ) ^ lq := by
          rw [← zpow_add₀ two_ne]; congr 1; ring
      _ ≤ (2 : ℚ) ^ (lp - lq + 1) * (x.den : ℚ) :=
          mul_le_mul_of_nonneg_left hq1' (zpow_pos (by norm_num) _).le
  have hlow : (2 : ℚ) ^ (lp - lq - 1) ≤ x := by
    rw [hxe, le_div_iff₀ hqpos]
    calc (2 : ℚ) ^ (lp - lq - 1) * (x.den : ℚ)
        ≤ (2 : ℚ) ^ (lp - lq - 1) * (2 : ℚ) ^ (lq + 1) :=
          mul_le_mul_of_nonneg_left hq2'.le (zpow_pos (by norm_num) _).le
      _ = (2 : ℚ) ^ lp := by
          rw [← zpow_add₀ two_ne]; congr 1; ring
      _ ≤ (x.num.natAbs : ℚ) := hp1'
  unfold ilog2
  simp only [← hlp, ← hlq, pow2_eq]
  split
  · rename_i h
    exact ⟨h, hup⟩
  · rename_i h
    refine ⟨hlow, ?_⟩
    have : lp - lq - 1 + 1 = lp - lq := by ring
    rw [this]
    exact not_le.mp h

theorem ilog2_unique (x : ℚ) (k : ℤ) (h1 : (2 : ℚ) ^ k ≤ x) (h2 : x < (2 : ℚ) ^ (k + 1)) :
    ilog2 x = k := by
  have hx : 0 < x := lt_of_lt_of_le (zpow_pos (by norm_num) k) h1
  obtain ⟨h3, h4⟩ := ilog2_spec x hx
  have a1 : ilog2 x < k + 1 :=
    (zpow_lt_zpow_iff_right₀ (by norm_num : (1 : ℚ) < 2)).mp (lt_of_le_of_lt h3 h2)
  have a2 : k < ilog2 x + 1 :=
    (zpow_lt_zpow_iff_right₀ (by norm_num : (1 : ℚ) < 2)).mp (lt_of_le_of_lt h1 h4)
  omega

theorem ilog2_mono (x y : ℚ) (hx : 0 < x) (hxy : x ≤ y) : ilog2 x ≤ ilog2 y := by
  obtain ⟨h1, _⟩ := ilog2_spec x hx
  obtain ⟨_, h4⟩ := ilog2_spec y (lt_of_lt_of_le hx hxy)
  have : ilog2 x < ilog2 y + 1 :=
    (zpow_lt_zpow_iff_right₀ (by norm_num : (1 : ℚ) < 2)).mp
      (lt_of_le_of_lt (le_trans h1 hxy) h4)
  omega

theorem ilog2_lt_of_lt_pow (x : ℚ) (k : ℤ) (hx : 0 < x) (h : x < (2 : ℚ) ^ k) : ilog2 x < k := by
  obtain ⟨h1, _⟩ := ilog2_spec x hx
  exact (zpow_lt_zpow_iff_right₀ (by norm_num : (1 : ℚ) < 2)).mp (lt_of_le_of_lt h1 h)

theorem ilog2_ge_of_pow_le (x : ℚ) (k : ℤ) (h : (2 : ℚ) ^ k ≤ x) : k ≤ ilog2 x := by
  have hx : 0 < x := lt_of_lt_of_le (zpow_pos (by norm_num) k) h
  obtain ⟨_, h2⟩ := ilog2_spec x hx
  have : k < ilog2 x + 1 :=
    (zpow_lt_zpow_iff_right₀ (by norm_num : (1 : ℚ) < 2)).mp (lt_of_le_of_lt h h2)
  omega
theorem rne_cases (q : ℚ) : rne q = ⌊q⌋ ∨ rne q = ⌊q⌋ + 1 := by
  unfold rne
  dsimp only
  split
  · exact Or.inl rfl
  · split
    · exact Or.inr rfl
    · split
      · exact Or.inl rfl
      · exact Or.inr rfl

theorem rne_intCast (n : ℤ) : rne (n : ℚ) = n := by
  unfold rne
  dsimp only
  rw [Int.floor_intCast, if_pos (by norm_num)]

theorem rne_abs_sub_le (q : ℚ) : |((rne q : ℤ) : ℚ) - q| ≤ 1 / 2 := by
  have h1 : ((⌊q⌋ : ℤ) : ℚ) ≤ q := Int.floor_le q
  have h2 : q < ((⌊q⌋ : ℤ) : ℚ) + 1 := Int.lt_floor_add_one q
  unfold rne
  dsimp only
  split
  · rename_i h
    rw [abs_le]; constructor <;> linarith
  · rename_i h
    split
    · rename_i h'
      rw [abs_le]; push_cast; constructor <;> linarith
    · rename_i h'
      have he : q - ((⌊q⌋ : ℤ) : ℚ) = 1 / 2 := le_antisymm (not_lt.mp h') (not_lt.mp h)
      split
      · rw [abs_le]; constructor <;> linarith
      · rw [abs_le]; push_cast; constructor <;> linarith

theorem rne_mono (a b : ℚ) (hab : a ≤ b) : rne a ≤ rne b := by
  have hf : ⌊a⌋ ≤ ⌊b⌋ := Int.floor_mono hab
  rcases lt_or_eq_of_le hf with hlt | heq
  · rcases rne_cases a with ha | ha <;> rcases rne_cases b with hb | hb <;> omega
  · unfold rne
    dsimp only
    rw [← heq]
    have hr : a - ((⌊a⌋ : ℤ) : ℚ) ≤ b - ((⌊a⌋ : ℤ) : ℚ) := by linarith
    split
    · split
      · exact le_refl _
      · split
        · omega
        · split <;> omega
    · rename_i h1
      split
      · rename_i h2
        have hb1 : ¬ (b - ((⌊a⌋ : ℤ) : ℚ) < 1 / 2) := by
          intro hc; linarith
        have hb2 : (1 : ℚ) / 2 < b - ((⌊a⌋ : ℤ) : ℚ) := by linarith
        rw [if_neg hb1, if_pos hb2]
      · rename_i h2
        have hb1 : ¬ (b - ((⌊a⌋ : ℤ) : ℚ) < 1 / 2) := by
          intro hc; linarith
        rw [if_neg hb1]
        split_ifs <;> omega

theorem rne_le_of_le_int (q : ℚ) (n : ℤ) (h : q ≤ (n : ℚ)) : rne q ≤ n := by
  have := rne_mono q n h
  rwa [rne_intCast] at this

theorem rne_ge_of_int_le (q : ℚ) (n : ℤ) (h : (n : ℚ) ≤ q) : n ≤ rne q := by
  have := rne_mono n q h
  rwa [rne_intCast] at this

theorem quantum_ge (x : ℚ) : -1074 ≤ quantum x := le_max_right _ _

theorem quantum_ge_ilog2 (x : ℚ) : ilog2 x - 52 ≤ quantum x := le_max_left _ _

theorem quantum_mono (x y : ℚ) (hx : 0 < x) (hxy : x ≤ y) : quantum x ≤ quantum y := by
  unfold quantum
  have := ilog2_mono x y hx hxy
  exact max_le_max (by omega) (le_refl _)

theorem two_zpow_pos (e : ℤ) : (0 : ℚ) < (2 : ℚ) ^ e := zpow_pos (by norm_num) e

theorem roundMag_eq (x : ℚ) :
    roundMag x = ((rne (x / (2 : ℚ) ^ quantum x) : ℤ) : ℚ) * (2 : ℚ) ^ quantum x := by
  unfold roundMag
  rw [pow2_eq]

theorem roundMag_nonneg (x : ℚ) (hx : 0 ≤ x) : 0 ≤ roundMag x := by
  rw [roundMag_eq]
  apply mul_nonneg _ (two_zpow_pos _).le
  have : (0 : ℤ) ≤ rne (x / (2 : ℚ) ^ quantum x) :=
    rne_ge_of_int_le _ 0 (by simpa using div_nonneg hx (two_zpow_pos _).le)
  exact_mod_cast this

theorem roundMag_mono (x y : ℚ) (hx : 0 < x) (hxy : x ≤ y) : roundMag x ≤ roundMag y := by
  have hy : 0 < y := lt_of_lt_of_le hx hxy
  have hq := quantum_mono x y hx hxy
  rw [roundMag_eq, roundMag_eq]
  rcases lt_or_eq_of_le hq with hlt | heq
  · have hey : quantum y = ilog2 y - 52 := by
      unfold quantum at hlt ⊢
      have := quantum_ge x
      unfold quantum at this
      rw [max_eq_left]
      by_contra hc
      rw [max_eq_right (by omega)] at hlt
      omega
    have two_ne : (2 : ℚ) ≠ 0 := by norm_num
    have hxlt : x / (2 : ℚ) ^ quantum x ≤ (((2 : ℤ) ^ 53 : ℤ) : ℚ) := by
      rw [div_le_iff₀ (two_zpow_pos _)]
      have h1 := (ilog2_spec x hx).2
      have h2 : (2 : ℚ) ^ (ilog2 x + 1) ≤ (2 : ℚ) ^ (53 + quantum x) :=
        zpow_le_zpow_right₀ (by norm_num) (by have := quantum_ge_ilog2 x; omega)
      have h3 : (((2 : ℤ) ^ 53 : ℤ) : ℚ) * (2 : ℚ) ^ quantum x = (2 : ℚ) ^ (53 + quantum x) := by
        rw [zpow_add₀ two_ne]; norm_num
      rw [h3]; linarith
    have hyge : (((2 : ℤ) ^ 52 : ℤ) : ℚ) ≤ y / (2 : ℚ) ^ quantum y := by
      rw [le_div_iff₀ (two_zpow_pos _)]
      have h1 := (ilog2_spec y hy).1
      have h3 : (((2 : ℤ) ^ 52 : ℤ) : ℚ) * (2 : ℚ) ^ quantum y = (2 : ℚ) ^ (ilog2 y) := by
        rw [hey]
        have : ilog2 y = 52 + (ilog2 y - 52) := by ring
        conv_rhs => rw [this, zpow_add₀ two_ne]
        norm_num
      rw [h3]; exact h1
    have hrx := rne_le_of_le_int _ _ hxlt
    have hry := rne_ge_of_int_le _ _ hyge
    have hrx' : ((rne (x / (2 : ℚ) ^ quantum x) : ℤ) : ℚ) ≤ (2 : ℚ) ^ (53 : ℤ) := by
      have : ((rne (x / (2 : ℚ) ^ quantum x) : ℤ) : ℚ) ≤ (((2 : ℤ) ^ 53 : ℤ) : ℚ) := by
        exact_mod_cast hrx
      calc _ ≤ (((2 : ℤ) ^ 53 : ℤ) : ℚ) := this
        _ = (2 : ℚ) ^ (53 : ℤ) := by norm_num
    have hry' : (2 : ℚ) ^ (52 : ℤ) ≤ ((rne (y / (2 : ℚ) ^ quantum y) : ℤ) : ℚ) := by
      have : (((2 : ℤ) ^ 52 : ℤ) : ℚ) ≤ ((rne (y / (2 : ℚ) ^ quantum y) : ℤ) : ℚ) := by
        exact_mod_cast hry
      calc (2 : ℚ) ^ (52 : ℤ) = (((2 : ℤ) ^ 52 : ℤ) : ℚ) := by norm_num
        _ ≤ _ := this
    calc ((rne (x / (2 : ℚ) ^ quantum x) : ℤ) : ℚ) * (2 : ℚ) ^ quantum x
        ≤ (2 : ℚ) ^ (53 : ℤ) * (2 : ℚ) ^ quantum x :=
          mul_le_mul_of_nonneg_right hrx' (two_zpow_pos _).le
      _ = (2 : ℚ) ^ (53 + quantum x) := by rw [zpow_add₀ two_ne]
      _ ≤ (2 : ℚ) ^ (52 + quantum y) := zpow_le_zpow_right₀ (by norm_num) (by omega)
      _ = (2 : ℚ) ^ (52 : ℤ) * (2 : ℚ) ^ quantum y := by rw [zpow_add₀ two_ne]
      _ ≤ ((rne (y / (2 : ℚ) ^ quantum y) : ℤ) : ℚ) * (2 : ℚ) ^ quantum y :=
          mul_le_mul_of_nonneg_right hry' (two_zpow_pos _).le
  · rw [← heq]
    apply mul_le_mul_of_nonneg_right _ (two_zpow_pos _).le
    have : rne (x / (2 : ℚ) ^ quantum x) ≤ rne (y / (2 : ℚ) ^ quantum x) :=
      rne_mono _ _ (div_le_div_of_nonneg_right hxy (two_zpow_pos _).le)
    exact_mod_cast this

/-- A multiple `m * 2 ^ e` of a power of two with `m < 2 ^ 53` and `e ≥ -1074`
is representable: rounding leaves it alone. -/
theorem roundMag_representable (m : ℕ) (e : ℤ) (hm0 : 0 < m) (hm : m < 2 ^ 53)
    (he : -1074 ≤ e) : roundMag ((m : ℚ) * (2 : ℚ) ^ e) = (m : ℚ) * (2 : ℚ) ^ e := by
  have two_ne : (2 : ℚ) ≠ 0 := by norm_num
  have hxpos : (0 : ℚ) < (m : ℚ) * (2 : ℚ) ^ e :=
    mul_pos (by exact_mod_cast hm0) (two_zpow_pos e)
  have hlt : (m : ℚ) * (2 : ℚ) ^ e < (2 : ℚ) ^ (53 + e) := by
    rw [zpow_add₀ two_ne]
    apply mul_lt_mul_of_pos_right _ (two_zpow_pos e)
    have : (m : ℚ) < ((2 ^ 53 : ℕ) : ℚ) := by exact_mod_cast hm
    calc (m : ℚ) < ((2 ^ 53 : ℕ) : ℚ) := this
      _ = (2 : ℚ) ^ (53 : ℤ) := by norm_num
  have hil : ilog2 ((m : ℚ) * (2 : ℚ) ^ e) < 53 + e := ilog2_lt_of_lt_pow _ _ hxpos hlt
  have hq : quantum ((m : ℚ) * (2 : ℚ) ^ e) ≤ e := by
    unfold quantum
    exact max_le (by omega) he
  rw [roundMag_eq]
  obtain ⟨d, hd⟩ : ∃ d : ℕ, e = quantum ((m : ℚ) * (2 : ℚ) ^ e) + (d : ℤ) :=
    ⟨(e - quantum ((m : ℚ) * (2 : ℚ) ^ e)).toNat, by omega⟩
  have hdiv : (m : ℚ) * (2 : ℚ) ^ e / (2 : ℚ) ^ quantum ((m : ℚ) * (2 : ℚ) ^ e)
      = (((m * 2 ^ d : ℕ) : ℤ) : ℚ) := by
    rw [div_eq_iff (two_zpow_pos _).ne']
    conv_lhs => rw [hd]
    rw [zpow_add₀ two_ne, zpow_natCast]
    push_cast
    ring
  rw [hdiv, rne_intCast, ← hdiv]
  field_simp

theorem roundMag_two_zpow (k : ℤ) (hk : -1074 ≤ k) : roundMag ((2 : ℚ) ^ k) = (2 : ℚ) ^ k := by
  have := roundMag_representable 1 k (by norm_num) (by norm_num) hk
  simpa using this

/-- Rounding never crosses a power of two from below. -/
theorem roundMag_le_two_zpow (x : ℚ) (k : ℤ) (hx : 0 < x) (hk : -1074 ≤ k)
    (h : x ≤ (2 : ℚ) ^ k) : roundMag x ≤ (2 : ℚ) ^ k := by
  have := roundMag_mono x _ hx h
  rwa [roundMag_two_zpow k hk] at this

/-- Rounding never crosses a power of two from above. -/
theorem two_zpow_le_roundMag (x : ℚ) (k : ℤ) (hk : -1074 ≤ k)
    (h : (2 : ℚ) ^ k ≤ x) : (2 : ℚ) ^ k ≤ roundMag x := by
  have := roundMag_mono _ x (two_zpow_pos k) h
  rwa [roundMag_two_zpow k hk] at this

/-- The rounding error is at most half a unit in the last place. -/
theorem roundMag_abs_sub_le (x : ℚ) :
    |roundMag x - x| ≤ (2 : ℚ) ^ quantum x / 2 := by
  rw [roundMag_eq]
  have h := rne_abs_sub_le (x / (2 : ℚ) ^ quantum x)
  have hp := two_zpow_pos (quantum x)
  have : ((rne (x / (2 : ℚ) ^ quantum x) : ℤ) : ℚ) * (2 : ℚ) ^ quantum x - x
      = (((rne (x / (2 : ℚ) ^ quantum x) : ℤ) : ℚ) - x / (2 : ℚ) ^ quantum x)
        * (2 : ℚ) ^ quantum x := by
    field_simp
  rw [this, abs_mul, abs_of_pos hp]
  calc |((rne (x / (2 : ℚ) ^ quantum x) : ℤ) : ℚ) - x / (2 : ℚ) ^ quantum x| * (2 : ℚ) ^ quantum x
      ≤ 1 / 2 * (2 : ℚ) ^ quantum x := mul_le_mul_of_nonneg_right h hp.le
    _ = (2 : ℚ) ^ quantum x / 2 := by ring
theorem roundMag_zero : roundMag 0 = 0 := by
  rw [roundMag_eq]
  simp only [zero_div]
  have : rne (0 : ℚ) = 0 := by
    have := rne_intCast 0
    simpa using this
  rw [this]; simp

theorem roundVal_zero : roundVal 0 = 0 := by
  unfold roundVal
  simp [roundMag_zero]

theorem roundVal_of_nonneg (x : ℚ) (h : 0 ≤ x) : roundVal x = roundMag x := by
  unfold roundVal
  rw [if_neg (not_lt.mpr h)]

theorem roundVal_of_neg (x : ℚ) (h : x < 0) : roundVal x = -roundMag (-x) := by
  unfold roundVal
  rw [if_pos h]

theorem roundVal_nonneg (x : ℚ) (h : 0 ≤ x) : 0 ≤ roundVal x := by
  rw [roundVal_of_nonneg x h]; exact roundMag_nonneg x h

theorem roundVal_nonpos (x : ℚ) (h : x ≤ 0) : roundVal x ≤ 0 := by
  rcases lt_or_eq_of_le h with h1 | h1
  · rw [roundVal_of_neg x h1]
    have := roundMag_nonneg (-x) (by linarith)
    linarith
  · rw [h1, roundVal_zero]

/-- Rounding is monotone. -/
theorem roundVal_mono (x y : ℚ) (hxy : x ≤ y) : roundVal x ≤ roundVal y := by
  rcases lt_or_le x 0 with hx | hx
  · rcases lt_or_le y 0 with hy | hy
    · rw [roundVal_of_neg x hx, roundVal_of_neg y hy]
      have := roundMag_mono (-y) (-x) (by linarith) (by linarith)
      linarith
    · exact le_trans (roundVal_nonpos x hx.le) (roundVal_nonneg y hy)
  · have hy : 0 ≤ y := le_trans hx hxy
    rw [roundVal_of_nonneg x hx, roundVal_of_nonneg y hy]
    rcases lt_or_eq_of_le hx with h0 | h0
    · exact roundMag_mono x y h0 hxy
    · rw [← h0, roundMag_zero]; exact roundMag_nonneg y hy

theorem roundVal_two_zpow (k : ℤ) (hk : -1074 ≤ k) : roundVal ((2 : ℚ) ^ k) = (2 : ℚ) ^ k := by
  rw [roundVal_of_nonneg _ (two_zpow_pos k).le, roundMag_two_zpow k hk]

theorem roundVal_neg_two_zpow (k : ℤ) (hk : -1074 ≤ k) :
    roundVal (-(2 : ℚ) ^ k) = -(2 : ℚ) ^ k := by
  rw [roundVal_of_neg _ (by have := two_zpow_pos k; linarith), neg_neg, roundMag_two_zpow k hk]

/-- A natural number below `2 ^ 53` is representable. -/
theorem roundVal_natCast (n : ℕ) (h : n < 2 ^ 53) : roundVal (n : ℚ) = (n : ℚ) := by
  rcases Nat.eq_zero_or_pos n with h0 | h0
  · rw [h0]; simpa using roundVal_zero
  · rw [roundVal_of_nonneg _ (by positivity)]
    have := roundMag_representable n 0 h0 h (by norm_num)
    simpa using this

theorem abs_roundVal_le (x : ℚ) (k : ℤ) (hk : -1074 ≤ k) (h : |x| ≤ (2 : ℚ) ^ k) :
    |roundVal x| ≤ (2 : ℚ) ^ k := by
  rw [abs_le] at h ⊢
  constructor
  · have := roundVal_mono _ _ h.1
    rwa [roundVal_neg_two_zpow k hk] at this
  · have := roundVal_mono _ _ h.2
    rwa [roundVal_two_zpow k hk] at this

theorem roundMag_abs_eq (x : ℚ) : roundMag |x| = |roundVal x| := by
  rcases lt_or_le x 0 with hx | hx
  · rw [roundVal_of_neg x hx, abs_of_neg hx, abs_neg,
      abs_of_nonneg (roundMag_nonneg _ (by linarith))]
  · rw [roundVal_of_nonneg x hx, abs_of_nonneg hx, abs_of_nonneg (roundMag_nonneg _ hx)]

namespace F64

theorem isFinite_signedZero (s : Bool) : (signedZero s).isFinite = true := by
  cases s <;> rfl

theorem toRat_signedZero (s : Bool) : (signedZero s).toRat = 0 := by
  cases s <;> rfl

/-- Below the overflow threshold `round` yields the finite float of value
`roundVal x`. -/
theorem round_finite (x : ℚ) (h : |x| ≤ (2 : ℚ) ^ (1023 : ℤ)) :
    (round x).isFinite = true ∧ (round x).toRat = roundVal x := by
  unfold round
  split
  · rename_i h0
    rw [h0, roundVal_zero]
    exact ⟨rfl, rfl⟩
  · rename_i h0
    dsimp only
    have hb : |roundVal x| ≤ (2 : ℚ) ^ (1023 : ℤ) := abs_roundVal_le x 1023 (by norm_num) h
    have hlt : ¬ (pow2 1024 ≤ roundMag |x|) := by
      rw [pow2_eq, roundMag_abs_eq, not_le]
      calc |roundVal x| ≤ (2 : ℚ) ^ (1023 : ℤ) := hb
        _ < (2 : ℚ) ^ (1024 : ℤ) := zpow_lt_zpow_right₀ (by norm_num) (by norm_num)
    rw [if_neg hlt]
    split
    · rename_i hz
      refine ⟨isFinite_signedZero _, ?_⟩
      rw [toRat_signedZero]
      rw [roundMag_abs_eq] at hz
      exact (abs_eq_zero.mp hz).symm
    · split
      · rename_i hneg
        refine ⟨rfl, ?_⟩
        show -roundMag |x| = roundVal x
        rw [roundVal_of_neg x hneg, abs_of_neg hneg]
      · rename_i hneg
        refine ⟨rfl, ?_⟩
        show roundMag |x| = roundVal x
        rw [roundVal_of_nonneg x (not_lt.mp hneg), abs_of_nonneg (not_lt.mp hneg)]

/-- Rounding a value between two representable bounds stays between them. -/
theorem round_within (x L H : ℚ) (hL : roundVal L = L) (hH : roundVal H = H)
    (hLfin : -(2 : ℚ) ^ (1023 : ℤ) ≤ L) (hHfin : H ≤ (2 : ℚ) ^ (1023 : ℤ))
    (h1 : L ≤ x) (h2 : x ≤ H) : Within L H (round x) := by
  have hx : |x| ≤ (2 : ℚ) ^ (1023 : ℤ) := by
    rw [abs_le]; constructor <;> linarith
  obtain ⟨hf, hv⟩ := round_finite x hx
  refine ⟨hf, ?_, ?_⟩
  · rw [hv, ← hL]; exact roundVal_mono _ _ h1
  · rw [hv, ← hH]; exact roundVal_mono _ _ h2

theorem Within.mono {lo hi lo' hi' : ℚ} {x : F64} (h : Within lo hi x)
    (h1 : lo' ≤ lo) (h2 : hi ≤ hi') : Within lo' hi' x :=
  ⟨h.1, le_trans h1 h.2.1, le_trans h.2.2 h2⟩

/-- A finite float of non-zero value is `fin` of its value. -/
theorem eq_fin_of_toRat_ne_zero (x : F64) (h : x.toRat ≠ 0) : x = fin x.toRat := by
  cases x with
  | fin q => rfl
  | negZero => exact absurd rfl h
  | inf s => exact absurd rfl h
  | nan => exact absurd rfl h

/-- Subtraction `x - x` is `+0` for every finite `x`. -/
theorem sub_self_of_finite (x : F64) (h : x.isFinite = true) : sub x x = fin 0 := by
  cases x with
  | fin q =>
    by_cases hq : q = 0
    · subst hq
      simp [sub, neg, add]
    · simp [sub, neg, add, hq, round]
  | negZero => simp [sub, neg, add]
  | inf s => exact absurd h Bool.false_ne_true
  | nan => exact absurd h Bool.false_ne_true


theorem Within.le_zero_of_negZero {lo hi : ℚ} (h : Within lo hi negZero) : lo ≤ 0 ∧ 0 ≤ hi :=
  ⟨h.2.1, h.2.2⟩

/-- Bounds on a sum from bounds on its terms. -/
theorem add_within {a b : F64} {la ha lb hb L H : ℚ}
    (hA : Within la ha a) (hB : Within lb hb b)
    (hLr : roundVal L = L) (hHr : roundVal H = H)
    (hLfin : -(2 : ℚ) ^ (1023 : ℤ) ≤ L) (hHfin : H ≤ (2 : ℚ) ^ (1023 : ℤ))
    (hL : L ≤ la + lb) (hH : ha + hb ≤ H) : Within L H (add a b) := by
  obtain ⟨fa, la', ha'⟩ := hA
  obtain ⟨fb, lb', hb'⟩ := hB
  cases a with
  | fin p =>
    cases b with
    | fin q =>
      simp only [toRat] at la' ha' lb' hb'
      exact round_within (p + q) L H hLr hHr hLfin hHfin (by linarith) (by linarith)
    | negZero =>
      simp only [toRat] at la' ha' lb' hb'
      exact ⟨rfl, by simp only [add, toRat]; linarith, by simp only [add, toRat]; linarith⟩
    | inf s => exact absurd fb Bool.false_ne_true
    | nan => exact absurd fb Bool.false_ne_true
  | negZero =>
    cases b with
    | fin q =>
      simp only [toRat] at la' ha' lb' hb'
      exact ⟨rfl, by simp only [add, toRat]; linarith, by simp only [add, toRat]; linarith⟩
    | negZero =>
      simp only [toRat] at la' ha' lb' hb'
      exact ⟨rfl, by simp only [add, toRat]; linarith, by simp only [add, toRat]; linarith⟩
    | inf s => exact absurd fb Bool.false_ne_true
    | nan => exact absurd fb Bool.false_ne_true
  | inf s => exact absurd fa Bool.false_ne_true
  | nan => exact absurd fa Bool.false_ne_true

theorem neg_within {a : F64} {lo hi : ℚ} (hA : Within lo hi a) : Within (-hi) (-lo) (neg a) := by
  obtain ⟨fa, la', ha'⟩ := hA
  cases a with
  | fin p =>
    simp only [toRat] at la' ha'
    by_cases hp : p = 0
    · subst hp
      simp only [neg, if_true]
      exact ⟨rfl, by simp only [toRat]; linarith, by simp only [toRat]; linarith⟩
    · simp only [neg, if_neg hp]
      exact ⟨rfl, by simp only [toRat]; linarith, by simp only [toRat]; linarith⟩
  | negZero =>
    simp only [toRat] at la' ha'
    exact ⟨rfl, by simp only [neg, toRat]; linarith, by simp only [neg, toRat]; linarith⟩
  | inf s => exact absurd fa Bool.false_ne_true
  | nan => exact absurd fa Bool.false_ne_true

/-- Bounds on a difference from bounds on its terms. -/
theorem sub_within {a b : F64} {la ha lb hb L H : ℚ}
    (hA : Within la ha a) (hB : Within lb hb b)
    (hLr : roundVal L = L) (hHr : roundVal H = H)
    (hLfin : -(2 : ℚ) ^ (1023 : ℤ) ≤ L) (hHfin : H ≤ (2 : ℚ) ^ (1023 : ℤ))
    (hL : L ≤ la - hb) (hH : ha - lb ≤ H) : Within L H (sub a b) :=
  add_within hA (neg_within hB) hLr hHr hLfin hHfin (by linarith) (by linarith)

theorem isZero_iff_of_finite (x : F64) (h : x.isFinite = true) :
    x.isZero = true ↔ x.toRat = 0 := by
  cases x with
  | fin p => simp [isZero, toRat]
  | negZero => simp [isZero, toRat]
  | inf s => exact absurd h Bool.false_ne_true
  | nan => exact absurd h Bool.false_ne_true

/-- The product of two finite floats is the rounded exact product. -/
theorem mul_finite (a b : F64) (fa : a.isFinite = true) (fb : b.isFinite = true)
    (h : |a.toRat * b.toRat| ≤ (2 : ℚ) ^ (1023 : ℤ)) :
    (mul a b).isFinite = true ∧ (mul a b).toRat = roundVal (a.toRat * b.toRat) := by
  have key : mul a b = if a.toRat * b.toRat = 0 then signedZero (xor a.isNeg b.isNeg)
      else round (a.toRat * b.toRat) := by
    cases a <;> cases b <;> first
      | rfl
      | exact absurd fa Bool.false_ne_true
      | exact absurd fb Bool.false_ne_true
  rw [key]
  split
  · rename_i h0
    rw [h0, roundVal_zero]
    exact ⟨isFinite_signedZero _, toRat_signedZero _⟩
  · exact round_finite _ h

/-- The quotient of two finite floats, the divisor not zero, is the rounded
exact quotient. -/
theorem div_finite (a b : F64) (fa : a.isFinite = true) (fb : b.isFinite = true)
    (hb : b.toRat ≠ 0) (h : |a.toRat / b.toRat| ≤ (2 : ℚ) ^ (1023 : ℤ)) :
    (div a b).isFinite = true ∧ (div a b).toRat = roundVal (a.toRat / b.toRat) := by
  have hbz : b.isZero = false := by
    cases hz : b.isZero
    · rfl
    · exact absurd ((isZero_iff_of_finite b fb).mp hz) hb
  have key : div a b = if a.isZero then signedZero (xor a.isNeg b.isNeg)
      else round (a.toRat / b.toRat) := by
    cases a <;> cases b <;> first
      | exact absurd fa Bool.false_ne_true
      | exact absurd fb Bool.false_ne_true
      | (simp only [div]; rw [hbz]; simp)
  rw [key]
  split
  · rename_i h0
    have : a.toRat = 0 := (isZero_iff_of_finite a fa).mp h0
    rw [this, zero_div, roundVal_zero]
    exact ⟨isFinite_signedZero _, toRat_signedZero _⟩
  · exact round_finite _ h

/-- Bounds on a product from bounds on the exact product. -/
theorem mul_within {a b : F64} {L H : ℚ} (fa : a.isFinite = true) (fb : b.isFinite = true)
    (hLr : roundVal L = L) (hHr : roundVal H = H)
    (hLfin : -(2 : ℚ) ^ (1023 : ℤ) ≤ L) (hHfin : H ≤ (2 : ℚ) ^ (1023 : ℤ))
    (hL : L ≤ a.toRat * b.toRat) (hH : a.toRat * b.toRat ≤ H) : Within L H (mul a b) := by
  obtain ⟨hf, hv⟩ := mul_finite a b fa fb (by rw [abs_le]; constructor <;> linarith)
  refine ⟨hf, ?_, ?_⟩
  · rw [hv, ← hLr]; exact roundVal_mono _ _ hL
  · rw [hv, ← hHr]; exact roundVal_mono _ _ hH

/-- Bounds on a quotient from bounds on the exact quotient. -/
theorem div_within {a b : F64} {L H : ℚ} (fa : a.isFinite = true) (fb : b.isFinite = true)
    (hb : b.toRat ≠ 0)
    (hLr : roundVal L = L) (hHr : roundVal H = H)
    (hLfin : -(2 : ℚ) ^ (1023 : ℤ) ≤ L) (hHfin : H ≤ (2 : ℚ) ^ (1023 : ℤ))
    (hL : L ≤ a.toRat / b.toRat) (hH : a.toRat / b.toRat ≤ H) : Within L H (div a b) := by
  obtain ⟨hf, hv⟩ := div_finite a b fa fb hb (by rw [abs_le]; constructor <;> linarith)
  refine ⟨hf, ?_, ?_⟩
  · rw [hv, ← hLr]; exact roundVal_mono _ _ hL
  · rw [hv, ← hHr]; exact roundVal_mono _ _ hH

/-- A natural number below `2 ^ 53` converts exactly. -/
theorem ofInt_natCast (n : ℕ) (h : n < 2 ^ 53) : ofInt (n : ℤ) = fin (n : ℚ) := by
  unfold ofInt
  rcases Nat.eq_zero_or_pos n with h0 | h0
  · subst h0
    simp [round]
  · have hpos : (0 : ℚ) < ((n : ℤ) : ℚ) := by exact_mod_cast h0
    have hv : roundMag |((n : ℤ) : ℚ)| = (n : ℚ) := by
      rw [abs_of_pos hpos]
      have := roundVal_natCast n h
      rw [roundVal_of_nonneg _ (by positivity)] at this
      exact_mod_cast this
    unfold round
    rw [if_neg hpos.ne']
    dsimp only
    rw [hv]
    have h1 : ¬ (pow2 1024 ≤ (n : ℚ)) := by
      rw [pow2_eq, not_le]
      have : (n : ℚ) < ((2 ^ 53 : ℕ) : ℚ) := by exact_mod_cast h
      calc (n : ℚ) < ((2 ^ 53 : ℕ) : ℚ) := this
        _ = (2 : ℚ) ^ (53 : ℤ) := by norm_num
        _ < (2 : ℚ) ^ (1024 : ℤ) := zpow_lt_zpow_right₀ (by norm_num) (by norm_num)
    have h2 : ¬ ((n : ℚ) = 0) := by exact_mod_cast h0.ne'
    have h3 : ¬ (((n : ℤ) : ℚ) < 0) := not_lt.mpr hpos.le
    rw [if_neg h1, if_neg h2, if_neg h3]


theorem isqrtAux_sq_le : ∀ (k x : ℕ), isqrtAux k x * isqrtAux k x ≤ x
  | 0, x => by simp [isqrtAux]
  | k + 1, x => by
    have ih := isqrtAux_sq_le k (x / 4)
    unfold isqrtAux
    dsimp only
    split
    · assumption
    · generalize isqrtAux k (x / 4) = r at ih
      have : 2 * r * (2 * r) = 4 * (r * r) := by ring
      rw [this]
      omega

theorem isqrt_sq_le (x : ℕ) : isqrt x * isqrt x ≤ x := isqrtAux_sq_le _ x

theorem sqrtRound_nonneg (q : ℚ) : 0 ≤ sqrtRound q := by
  unfold sqrtRound
  dsimp only
  exact mul_nonneg (Nat.cast_nonneg _) (pow2_pos _).le

/-- The rounded square root of a value up to `4 ^ k` is at most `2 ^ k`. -/
theorem sqrtRound_le (q : ℚ) (k : ℤ) (hq : 0 < q) (hk : -1022 ≤ k)
    (h : q ≤ (2 : ℚ) ^ (2 * k)) : sqrtRound q ≤ (2 : ℚ) ^ k := by
  have two_ne : (2 : ℚ) ≠ 0 := by norm_num
  have hL : ilog2 q ≤ 2 * k := by
    have h1 := (ilog2_spec q hq).1
    exact (zpow_le_zpow_iff_right₀ (by norm_num : (1 : ℚ) < 2)).mp (le_trans h1 h)
  set e : ℤ := max (ilog2 q / 2 - 52) (-1074) with he
  have hek : e ≤ k - 52 := by
    rw [he]
    apply max_le <;> omega
  obtain ⟨D, hD⟩ : ∃ D : ℕ, k = e + (D : ℤ) := ⟨(k - e).toNat, by omega⟩
  set z : ℚ := q / pow2 (2 * e) with hz
  have hzpos : 0 < z := div_pos hq (pow2_pos _)
  have hzle : z ≤ ((2 ^ D : ℕ) : ℚ) * ((2 ^ D : ℕ) : ℚ) := by
    rw [hz, pow2_eq, div_le_iff₀ (two_zpow_pos _)]
    have : ((2 ^ D : ℕ) : ℚ) * ((2 ^ D : ℕ) : ℚ) * (2 : ℚ) ^ (2 * e) = (2 : ℚ) ^ (2 * k) := by
      push_cast
      rw [← zpow_natCast, ← zpow_add₀ two_ne, ← zpow_add₀ two_ne]
      congr 1
      omega
    rw [this]; exact h
  set n : ℕ := isqrt (⌊z⌋.toNat) with hn
  have hnz : ((n * n : ℕ) : ℚ) ≤ z := by
    have h1 : n * n ≤ ⌊z⌋.toNat := isqrt_sq_le _
    have h2 : (0 : ℤ) ≤ ⌊z⌋ := Int.floor_nonneg.mpr hzpos.le
    have h3 : ((⌊z⌋.toNat : ℕ) : ℚ) = ((⌊z⌋ : ℤ) : ℚ) := by
      have : ((⌊z⌋.toNat : ℕ) : ℤ) = ⌊z⌋ := Int.toNat_of_nonneg h2
      exact_mod_cast this
    calc ((n * n : ℕ) : ℚ) ≤ ((⌊z⌋.toNat : ℕ) : ℚ) := by exact_mod_cast h1
      _ = ((⌊z⌋ : ℤ) : ℚ) := h3
      _ ≤ z := Int.floor_le z
  have hnN : n ≤ 2 ^ D := by
    by_contra hc
    have hc' : 2 ^ D + 1 ≤ n := by omega
    have : ((2 ^ D : ℕ) : ℚ) * ((2 ^ D : ℕ) : ℚ) < ((n * n : ℕ) : ℚ) := by
      have h1 : (2 ^ D) * (2 ^ D) < n * n := Nat.mul_self_lt_mul_self (by omega)
      exact_mod_cast h1
    linarith
  have hmN : ∀ m : ℕ, (m = n ∨ (m = n + 1 ∧ ¬ (z < ((n : ℚ) + 1 / 2) * ((n : ℚ) + 1 / 2)))) →
      (m : ℚ) * pow2 e ≤ (2 : ℚ) ^ k := by
    intro m hm
    have hmle : m ≤ 2 ^ D := by
      rcases hm with h1 | ⟨h1, h2⟩
      · omega
      · by_contra hc
        have hnD : n = 2 ^ D := by omega
        apply h2
        calc z ≤ ((2 ^ D : ℕ) : ℚ) * ((2 ^ D : ℕ) : ℚ) := hzle
          _ = (n : ℚ) * (n : ℚ) := by rw [hnD]
          _ < ((n : ℚ) + 1 / 2) * ((n : ℚ) + 1 / 2) := by nlinarith [Nat.cast_nonneg (α := ℚ) n]
    rw [pow2_eq]
    calc (m : ℚ) * (2 : ℚ) ^ e ≤ ((2 ^ D : ℕ) : ℚ) * (2 : ℚ) ^ e :=
          mul_le_mul_of_nonneg_right (by exact_mod_cast hmle) (two_zpow_pos _).le
      _ = (2 : ℚ) ^ k := by
          push_cast
          rw [← zpow_natCast, ← zpow_add₀ two_ne]
          congr 1
          omega
  unfold sqrtRound
  dsimp only
  simp only [← he, ← hz, ← hn]
  apply hmN
  split
  · exact Or.inl rfl
  · rename_i h1
    split
    · exact Or.inr ⟨rfl, h1⟩
    · split
      · exact Or.inl rfl
      · exact Or.inr ⟨rfl, h1⟩

/-- Bounds on a square root. -/
theorem sqrt_within {x : F64} {k : ℤ} (hk : -1022 ≤ k)
    (hx : Within 0 ((2 : ℚ) ^ (2 * k)) x) : Within 0 ((2 : ℚ) ^ k) (sqrt x) := by
  obtain ⟨fx, lx, hx'⟩ := hx
  cases x with
  | fin q =>
    simp only [toRat] at lx hx'
    simp only [sqrt]
    rw [if_neg (not_lt.mpr lx)]
    split
    · exact ⟨rfl, le_refl _, (two_zpow_pos _).le⟩
    · rename_i h0
      exact ⟨rfl, sqrtRound_nonneg q,
        sqrtRound_le q k (lt_of_le_of_ne lx (Ne.symm h0)) hk hx'⟩
  | negZero => exact ⟨rfl, le_refl _, (two_zpow_pos _).le⟩
  | inf s => exact absurd fx Bool.false_ne_true
  | nan => exact absurd fx Bool.false_ne_true


theorem eq_fin_of_within_pos {x : F64} {lo hi : ℚ} (h : Within lo hi x) (hlo : 0 < lo) :
    x = fin x.toRat :=
  eq_fin_of_toRat_ne_zero x (lt_of_lt_of_le hlo h.2.1).ne'

theorem lt_fin_fin (a b : ℚ) : lt (fin a) (fin b) = decide (a < b) := rfl

/-- Bounds on `math.Pow(x, 2)`: non-negative and at most `2 ^ (2k+2)` for
`|x| ≤ 2 ^ k`. -/
theorem powTwo_within {x : F64} {k : ℤ} (hk1 : -500 ≤ k) (hk2 : k ≤ 500)
    (hx : Within (-(2 : ℚ) ^ k) ((2 : ℚ) ^ k) x) :
    Within 0 ((2 : ℚ) ^ (2 * k + 2)) (powTwo x) := by
  have two_ne : (2 : ℚ) ≠ 0 := by norm_num
  have hzero : Within 0 ((2 : ℚ) ^ (2 * k + 2)) (fin 0) :=
    ⟨rfl, le_refl _, (two_zpow_pos _).le⟩
  obtain ⟨fx, lx, ux⟩ := hx
  cases x with
  | inf s => exact absurd fx Bool.false_ne_true
  | nan => exact absurd fx Bool.false_ne_true
  | negZero => exact hzero
  | fin q =>
    simp only [toRat] at lx ux
    by_cases hq0 : q = 0
    · simp only [powTwo, if_pos hq0]
      exact hzero
    by_cases hq1 : q = 1
    · simp only [powTwo, if_neg hq0, if_pos hq1]
      refine ⟨rfl, by simp [toRat], ?_⟩
      simp only [toRat]
      have hk0 : 0 ≤ k := by
        by_contra hc
        have : (2 : ℚ) ^ k < (2 : ℚ) ^ (0 : ℤ) := zpow_lt_zpow_right₀ (by norm_num) (by omega)
        rw [hq1] at ux
        simp at this
        linarith
      calc (1 : ℚ) = (2 : ℚ) ^ (0 : ℤ) := by simp
        _ ≤ (2 : ℚ) ^ (2 * k + 2) := zpow_le_zpow_right₀ (by norm_num) (by omega)
    have habs : 0 < |q| := abs_pos.mpr hq0
    have hqk : |q| ≤ (2 : ℚ) ^ k := abs_le.mpr ⟨lx, ux⟩
    obtain ⟨hs1, hs2⟩ := ilog2_spec |q| habs
    set E : ℤ := ilog2 |q| + 1 with hE
    have hEk : E ≤ k + 1 := by
      have : ilog2 |q| ≤ k :=
        (zpow_le_zpow_iff_right₀ (by norm_num : (1 : ℚ) < 2)).mp (le_trans hs1 hqk)
      omega
    set m : ℚ := q / pow2 E with hm
    have hmabs : |m| = |q| / (2 : ℚ) ^ E := by
      rw [hm, pow2_eq, abs_div, abs_of_pos (two_zpow_pos E)]
    have hm1 : |m| < 1 := by
      rw [hmabs, div_lt_one (two_zpow_pos E)]
      exact hs2
    have hm2 : 1 / 2 ≤ |m| := by
      rw [hmabs, le_div_iff₀ (two_zpow_pos E)]
      have : (1 : ℚ) / 2 * (2 : ℚ) ^ E = (2 : ℚ) ^ (ilog2 |q|) := by
        rw [hE, zpow_add₀ two_ne]; simp; ring
      rw [this]; exact hs1
    have hmm : m * m = |m| * |m| := (abs_mul_abs_self m).symm
    have hsq1 : (2 : ℚ) ^ (-2 : ℤ) ≤ m * m := by
      rw [hmm]
      have : (2 : ℚ) ^ (-2 : ℤ) = 1 / 2 * (1 / 2) := by norm_num
      rw [this]
      exact mul_le_mul hm2 hm2 (by norm_num) (abs_nonneg m)
    have hsq2 : m * m ≤ (2 : ℚ) ^ (0 : ℤ) := by
      rw [hmm]
      simp only [zpow_zero]
      nlinarith [abs_nonneg m]
    have big : (2 : ℚ) ^ (0 : ℤ) ≤ (2 : ℚ) ^ (1023 : ℤ) :=
      zpow_le_zpow_right₀ (by norm_num) (by norm_num)
    have W1 : Within ((2 : ℚ) ^ (-2 : ℤ)) ((2 : ℚ) ^ (0 : ℤ)) (mul (fin m) (fin m)) :=
      mul_within rfl rfl (roundVal_two_zpow _ (by norm_num)) (roundVal_two_zpow _ (by norm_num))
        (by have := two_zpow_pos (-2); have := two_zpow_pos 1023; linarith) big hsq1 hsq2
    have hy := eq_fin_of_within_pos W1 (two_zpow_pos _)
    set y : ℚ := (mul (fin m) (fin m)).toRat with hyd
    have hy1 : (2 : ℚ) ^ (-2 : ℤ) ≤ y := W1.2.1
    have hy2 : y ≤ (2 : ℚ) ^ (0 : ℤ) := W1.2.2
    -- the renormalised fraction and its exponent
    have hnorm : ∃ (w : ℚ) (xe : ℤ), 1 / 2 ≤ w ∧ w ≤ 1 ∧ xe ≤ 2 * E ∧
        powTwo (fin q) = ldexp (mul (fin 1) (fin w)) xe := by
      by_cases hlt : y < 1 / 2
      · have W2 : Within ((2 : ℚ) ^ (-1 : ℤ)) ((2 : ℚ) ^ (0 : ℤ)) (add (fin y) (fin y)) := by
          have hYa : Within ((2 : ℚ) ^ (-2 : ℤ)) (1 / 2) (fin y) := ⟨rfl, hy1, hlt.le⟩
          refine add_within hYa hYa (roundVal_two_zpow _ (by norm_num))
            (roundVal_two_zpow _ (by norm_num)) ?_ big ?_ ?_
          · have := two_zpow_pos (-1); have := two_zpow_pos 1023; linarith
          · norm_num
          · norm_num
        have hw := eq_fin_of_within_pos W2 (two_zpow_pos _)
        refine ⟨(add (fin y) (fin y)).toRat, 2 * E - 1, ?_, ?_, by omega, ?_⟩
        · have := W2.2.1; norm_num at this; linarith
        · have := W2.2.2; simpa using this
        · simp only [powTwo, if_neg hq0, if_neg hq1, frexp]
          rw [← hw]
          simp only [← hE, ← hm]
          rw [hy, lt_fin_fin, decide_eq_true hlt]
          simp
      · refine ⟨y, 2 * E, ?_, ?_, le_refl _, ?_⟩
        · exact not_lt.mp hlt
        · simpa using hy2
        · simp only [powTwo, if_neg hq0, if_neg hq1, frexp]
          simp only [← hE, ← hm]
          rw [hy, lt_fin_fin, decide_eq_false hlt]
          simp
    obtain ⟨w, xe, hw1, hw2, hxe, hpow⟩ := hnorm
    rw [hpow]
    have W3 : Within ((2 : ℚ) ^ (-1 : ℤ)) ((2 : ℚ) ^ (0 : ℤ)) (mul (fin 1) (fin w)) :=
      mul_within rfl rfl (roundVal_two_zpow _ (by norm_num)) (roundVal_two_zpow _ (by norm_num))
        (by have := two_zpow_pos (-1); have := two_zpow_pos 1023; linarith) big
        (by simp only [toRat]; norm_num; linarith) (by simp only [toRat]; norm_num; linarith)
    have ha := eq_fin_of_within_pos W3 (two_zpow_pos _)
    set a1 : ℚ := (mul (fin 1) (fin w)).toRat with ha1
    have ha_lo : 0 < a1 := lt_of_lt_of_le (two_zpow_pos _) W3.2.1
    have ha_hi : a1 ≤ 1 := by have := W3.2.2; simpa using this
    rw [ha]
    simp only [ldexp, if_neg ha_lo.ne']
    have htop : (2 : ℚ) ^ (2 * k + 2) ≤ (2 : ℚ) ^ (1023 : ℤ) :=
      zpow_le_zpow_right₀ (by norm_num) (by omega)
    refine round_within _ 0 _ roundVal_zero (roundVal_two_zpow _ (by omega))
      (by have := two_zpow_pos 1023; linarith) htop ?_ ?_
    · exact mul_nonneg ha_lo.le (pow2_pos _).le
    · rw [pow2_eq]
      calc a1 * (2 : ℚ) ^ xe ≤ 1 * (2 : ℚ) ^ xe :=
            mul_le_mul_of_nonneg_right ha_hi (two_zpow_pos _).le
        _ = (2 : ℚ) ^ xe := one_mul _
        _ ≤ (2 : ℚ) ^ (2 * k + 2) := zpow_le_zpow_right₀ (by norm_num) (by omega)

theorem powTwo_zero : powTwo (fin 0) = fin 0 := by
  simp [powTwo]

end F64

/-! ## Bounds along the colour pipeline -/

theorem two_zpow_le_big (k : ℤ) (hk : k ≤ 1023) : (2 : ℚ) ^ k ≤ (2 : ℚ) ^ (1023 : ℤ) :=
  zpow_le_zpow_right₀ (by norm_num) hk

theorem neg_big_le_neg_two_zpow (k : ℤ) (hk : k ≤ 1023) :
    -(2 : ℚ) ^ (1023 : ℤ) ≤ -(2 : ℚ) ^ k := by
  have := two_zpow_le_big k hk
  linarith

theorem neg_big_le_zero : -(2 : ℚ) ^ (1023 : ℤ) ≤ 0 := by
  have := two_zpow_pos 1023
  linarith

theorem uint32_lt (a : UInt32) : a.toNat < 2 ^ 32 := a.val.isLt

theorem wrapUint32_lt (n : ℕ) : wrapUint32 n < 2 ^ 32 := by
  unfold wrapUint32
  exact Nat.mod_lt _ (by norm_num)

/-- A colour channel of `toNRGBA`, `float64(n) / float64(a)` with `n` and `a`
32-bit and `a` not zero, lies in `[0, 2^32]`. -/
theorem channel_within (n a : ℕ) (hn : n < 2 ^ 32) (ha : a < 2 ^ 32) (ha0 : a ≠ 0) :
    F64.Within 0 ((2 : ℚ) ^ (32 : ℤ)) (F64.div (F64.ofInt (n : ℤ)) (F64.ofInt (a : ℤ))) := by
  rw [F64.ofInt_natCast n (by omega), F64.ofInt_natCast a (by omega)]
  have hapos : (1 : ℚ) ≤ (a : ℚ) := by
    have : 1 ≤ a := Nat.one_le_iff_ne_zero.mpr ha0
    exact_mod_cast this
  have hn' : (n : ℚ) ≤ (2 : ℚ) ^ (32 : ℤ) := by
    have : (n : ℚ) ≤ ((2 ^ 32 : ℕ) : ℚ) := by exact_mod_cast hn.le
    calc (n : ℚ) ≤ ((2 ^ 32 : ℕ) : ℚ) := this
      _ = (2 : ℚ) ^ (32 : ℤ) := by norm_num
  refine F64.div_within rfl rfl ?_ roundVal_zero (roundVal_two_zpow _ (by norm_num))
    neg_big_le_zero (two_zpow_le_big _ (by norm_num)) ?_ ?_
  · simp only [F64.toRat]; linarith
  · simp only [F64.toRat]; exact div_nonneg (Nat.cast_nonneg _) (by linarith)
  · simp only [F64.toRat]
    rw [div_le_iff₀ (by linarith)]
    calc (n : ℚ) ≤ (2 : ℚ) ^ (32 : ℤ) := hn'
      _ = (2 : ℚ) ^ (32 : ℤ) * 1 := (mul_one _).symm
      _ ≤ (2 : ℚ) ^ (32 : ℤ) * (a : ℚ) :=
          mul_le_mul_of_nonneg_left hapos (two_zpow_pos _).le

theorem eq_fin_zero (a : ℕ) : F64.eq (F64.fin (a : ℚ)) (F64.fin 0) = decide (a = 0) := by
  simp [F64.eq, F64.toRat]

/-- The alpha component of `toNRGBA` is the alpha reading itself. -/
theorem toNRGBA_alpha (r g b a : UInt32) :
    (toNRGBA r g b a).2.2.2 = F64.fin (a.toNat : ℚ) := by
  unfold toNRGBA
  dsimp only
  rw [F64.ofInt_natCast _ (by have := uint32_lt a; omega), eq_fin_zero]
  by_cases h : a.toNat = 0
  · rw [decide_eq_true h, if_pos rfl, h]
    simp
  · rw [decide_eq_false h, if_neg (by simp)]

/-- A reading with alpha zero converts to four zeros. -/
theorem toNRGBA_transparent (r g b a : UInt32) (h : a.toNat = 0) :
    toNRGBA r g b a = (F64.fin 0, F64.fin 0, F64.fin 0, F64.fin 0) := by
  unfold toNRGBA
  dsimp only
  rw [F64.ofInt_natCast _ (by have := uint32_lt a; omega), eq_fin_zero, decide_eq_true h,
    if_pos rfl]

/-- The colour components of `toNRGBA` lie in `[0, 2^32]`. -/
theorem toNRGBA_within (r g b a : UInt32) :
    F64.Within 0 ((2 : ℚ) ^ (32 : ℤ)) (toNRGBA r g b a).1 ∧
    F64.Within 0 ((2 : ℚ) ^ (32 : ℤ)) (toNRGBA r g b a).2.1 ∧
    F64.Within 0 ((2 : ℚ) ^ (32 : ℤ)) (toNRGBA r g b a).2.2.1 := by
  have hz : F64.Within 0 ((2 : ℚ) ^ (32 : ℤ)) (F64.fin 0) :=
    ⟨rfl, le_refl _, (two_zpow_pos _).le⟩
  by_cases h : a.toNat = 0
  · rw [toNRGBA_transparent r g b a h]
    exact ⟨hz, hz, hz⟩
  · have hne : ¬ (F64.eq (F64.ofInt (a.toNat : ℤ)) (F64.fin 0) = true) := by
      rw [F64.ofInt_natCast _ (by have := uint32_lt a; omega), eq_fin_zero, decide_eq_false h]
      simp
    unfold toNRGBA
    dsimp only
    rw [if_neg hne]
    exact ⟨channel_within _ _ (wrapUint32_lt _) (uint32_lt a) h,
      channel_within _ _ (wrapUint32_lt _) (uint32_lt a) h,
      channel_within _ _ (wrapUint32_lt _) (uint32_lt a) h⟩

/-- A decimal constant between 0 and 1 converts to a float between 0 and 1. -/
theorem ofRat_unit_within (q : ℚ) (h0 : 0 ≤ q) (h1 : q ≤ 1) :
    F64.Within 0 1 (F64.ofRat q) := by
  have := F64.round_within q 0 ((2 : ℚ) ^ (0 : ℤ)) roundVal_zero
    (roundVal_two_zpow _ (by norm_num)) neg_big_le_zero (two_zpow_le_big _ (by norm_num)) h0
    (by simpa using h1)
  simpa [F64.ofRat] using this

/-- The product of a float in `[0, 1]` and a float of magnitude at most
`2 ^ k` has magnitude at most `2 ^ k`. -/
theorem mul_unit_within {c x : F64} {k : ℤ} (hk1 : -1074 ≤ k) (hk2 : k ≤ 1023)
    (hc : F64.Within 0 1 c) (hx : F64.Within (-(2 : ℚ) ^ k) ((2 : ℚ) ^ k) x) :
    F64.Within (-(2 : ℚ) ^ k) ((2 : ℚ) ^ k) (F64.mul c x) := by
  obtain ⟨fc, c0, c1⟩ := hc
  obtain ⟨fx, x0, x1⟩ := hx
  have hp := two_zpow_pos k
  refine F64.mul_within fc fx (roundVal_neg_two_zpow k hk1) (roundVal_two_zpow k hk1)
    (neg_big_le_neg_two_zpow k hk2) (two_zpow_le_big k hk2) ?_ ?_
  · nlinarith
  · nlinarith

/-- The product of a float in `[0, 1]` and a float in `[0, 2 ^ k]` lies in
`[0, 2 ^ k]`. -/
theorem mul_unit_within_nonneg {c x : F64} {k : ℤ} (hk1 : -1074 ≤ k) (hk2 : k ≤ 1023)
    (hc : F64.Within 0 1 c) (hx : F64.Within 0 ((2 : ℚ) ^ k) x) :
    F64.Within 0 ((2 : ℚ) ^ k) (F64.mul c x) := by
  obtain ⟨fc, c0, c1⟩ := hc
  obtain ⟨fx, x0, x1⟩ := hx
  have hp := two_zpow_pos k
  refine F64.mul_within fc fx roundVal_zero (roundVal_two_zpow k hk1)
    neg_big_le_zero (two_zpow_le_big k hk2) ?_ ?_
  · exact mul_nonneg c0 x0
  · nlinarith

/-- Widening a symmetric bound. -/
theorem within_abs_mono {x : F64} {lo hi : ℚ} {k : ℤ} (h : F64.Within lo hi x)
    (h1 : -(2 : ℚ) ^ k ≤ lo) (h2 : hi ≤ (2 : ℚ) ^ k) :
    F64.Within (-(2 : ℚ) ^ k) ((2 : ℚ) ^ k) x := h.mono h1 h2

theorem two_zpow_mono {a b : ℤ} (h : a ≤ b) : (2 : ℚ) ^ a ≤ (2 : ℚ) ^ b :=
  zpow_le_zpow_right₀ (by norm_num) h

theorem two_zpow_succ (k : ℤ) : (2 : ℚ) ^ (k + 1) = (2 : ℚ) ^ k + (2 : ℚ) ^ k := by
  rw [zpow_add₀ (by norm_num : (2 : ℚ) ≠ 0)]; ring

/-- The sum of two floats of magnitude at most `2 ^ k` has magnitude at most
`2 ^ (k+1)`. -/
theorem add_abs_within {a b : F64} {k : ℤ} (hk1 : -1074 ≤ k) (hk2 : k + 1 ≤ 1023)
    (ha : F64.Within (-(2 : ℚ) ^ k) ((2 : ℚ) ^ k) a)
    (hb : F64.Within (-(2 : ℚ) ^ k) ((2 : ℚ) ^ k) b) :
    F64.Within (-(2 : ℚ) ^ (k + 1)) ((2 : ℚ) ^ (k + 1)) (F64.add a b) :=
  F64.add_within ha hb (roundVal_neg_two_zpow _ (by omega)) (roundVal_two_zpow _ (by omega))
    (neg_big_le_neg_two_zpow _ hk2) (two_zpow_le_big _ hk2)
    (by rw [two_zpow_succ]; linarith) (by rw [two_zpow_succ])

/-- The difference of two floats of magnitude at most `2 ^ k` has magnitude at
most `2 ^ (k+1)`. -/
theorem sub_abs_within {a b : F64} {k : ℤ} (hk1 : -1074 ≤ k) (hk2 : k + 1 ≤ 1023)
    (ha : F64.Within (-(2 : ℚ) ^ k) ((2 : ℚ) ^ k) a)
    (hb : F64.Within (-(2 : ℚ) ^ k) ((2 : ℚ) ^ k) b) :
    F64.Within (-(2 : ℚ) ^ (k + 1)) ((2 : ℚ) ^ (k + 1)) (F64.sub a b) :=
  F64.sub_within ha hb (roundVal_neg_two_zpow _ (by omega)) (roundVal_two_zpow _ (by omega))
    (neg_big_le_neg_two_zpow _ hk2) (two_zpow_le_big _ hk2)
    (by rw [two_zpow_succ]; linarith) (by rw [two_zpow_succ]; linarith)

/-- The sum of two floats in `[0, 2 ^ k]` lies in `[0, 2 ^ (k+1)]`. -/
theorem add_nonneg_within {a b : F64} {k : ℤ} (hk1 : -1074 ≤ k) (hk2 : k + 1 ≤ 1023)
    (ha : F64.Within 0 ((2 : ℚ) ^ k) a) (hb : F64.Within 0 ((2 : ℚ) ^ k) b) :
    F64.Within 0 ((2 : ℚ) ^ (k + 1)) (F64.add a b) :=
  F64.add_within ha hb roundVal_zero (roundVal_two_zpow _ (by omega))
    neg_big_le_zero (two_zpow_le_big _ hk2) (by norm_num) (by rw [two_zpow_succ])

theorem WR_within : F64.Within 0 1 WR := ofRat_unit_within _ (by norm_num) (by norm_num)

theorem WG_within : F64.Within 0 1 WG := ofRat_unit_within _ (by norm_num) (by norm_num)

theorem WB_within : F64.Within 0 1 WB := ofRat_unit_within _ (by norm_num) (by norm_num)

/-- The components of `toYUV` of colour channels in `[0, 2^32]` have magnitude
at most `2 ^ 35`. -/
theorem toYUV_within {r g b : F64} (hr : F64.Within 0 ((2 : ℚ) ^ (32 : ℤ)) r)
    (hg : F64.Within 0 ((2 : ℚ) ^ (32 : ℤ)) g) (hb : F64.Within 0 ((2 : ℚ) ^ (32 : ℤ)) b) :
    F64.Within (-(2 : ℚ) ^ (35 : ℤ)) ((2 : ℚ) ^ (35 : ℤ)) (toYUV r g b).1 ∧
    F64.Within (-(2 : ℚ) ^ (35 : ℤ)) ((2 : ℚ) ^ (35 : ℤ)) (toYUV r g b).2.1 ∧
    F64.Within (-(2 : ℚ) ^ (35 : ℤ)) ((2 : ℚ) ^ (35 : ℤ)) (toYUV r g b).2.2 := by
  have neg32 : -(2 : ℚ) ^ (32 : ℤ) ≤ 0 := by have := two_zpow_pos 32; linarith
  have hr' := within_abs_mono hr neg32 (le_refl _)
  have hg' := within_abs_mono hg neg32 (le_refl _)
  have hb' := within_abs_mono hb neg32 (le_refl _)
  have h1 := mul_unit_within (by norm_num) (by norm_num) WR_within hr'
  have h2 := mul_unit_within (by norm_num) (by norm_num) WG_within hg'
  have h3 := mul_unit_within (by norm_num) (by norm_num) WB_within hb'
  have h12 := add_abs_within (by norm_num) (by norm_num) h1 h2
  have h3' : F64.Within (-(2 : ℚ) ^ ((32 : ℤ) + 1)) ((2 : ℚ) ^ ((32 : ℤ) + 1)) (F64.mul WB b) :=
    h3.mono (by have := two_zpow_mono (show (32 : ℤ) ≤ 32 + 1 by norm_num); linarith)
      (two_zpow_mono (by norm_num))
  have hy := add_abs_within (by norm_num) (by norm_num) h12 h3'
  have hb34 : F64.Within (-(2 : ℚ) ^ ((32 : ℤ) + 1 + 1)) ((2 : ℚ) ^ ((32 : ℤ) + 1 + 1)) b :=
    hb'.mono (by have := two_zpow_mono (show (32 : ℤ) ≤ 32 + 1 + 1 by norm_num); linarith)
      (two_zpow_mono (by norm_num))
  have hr34 : F64.Within (-(2 : ℚ) ^ ((32 : ℤ) + 1 + 1)) ((2 : ℚ) ^ ((32 : ℤ) + 1 + 1)) r :=
    hr'.mono (by have := two_zpow_mono (show (32 : ℤ) ≤ 32 + 1 + 1 by norm_num); linarith)
      (two_zpow_mono (by norm_num))
  have hu := sub_abs_within (by norm_num) (by norm_num) hb34 hy
  have hv := sub_abs_within (by norm_num) (by norm_num) hr34 hy
  have hu' := mul_unit_within (by norm_num) (by norm_num)
    (ofRat_unit_within (492 / 1000) (by norm_num) (by norm_num)) hu
  have hv' := mul_unit_within (by norm_num) (by norm_num)
    (ofRat_unit_within (877 / 1000) (by norm_num) (by norm_num)) hv
  have e35 : (32 : ℤ) + 1 + 1 + 1 = 35 := by norm_num
  rw [e35] at hu' hv'
  refine ⟨?_, hu', hv'⟩
  exact hy.mono (by have := two_zpow_mono (show (32 : ℤ) + 1 + 1 ≤ 35 by norm_num); linarith)
    (two_zpow_mono (by norm_num))

/-- The distance of two triples of magnitude at most `2 ^ 35` lies in
`[0, 2^38]`. -/
theorem euclideanDistance_within {a x b y c z : F64}
    (ha : F64.Within (-(2 : ℚ) ^ (35 : ℤ)) ((2 : ℚ) ^ (35 : ℤ)) a)
    (hx : F64.Within (-(2 : ℚ) ^ (35 : ℤ)) ((2 : ℚ) ^ (35 : ℤ)) x)
    (hb : F64.Within (-(2 : ℚ) ^ (35 : ℤ)) ((2 : ℚ) ^ (35 : ℤ)) b)
    (hy : F64.Within (-(2 : ℚ) ^ (35 : ℤ)) ((2 : ℚ) ^ (35 : ℤ)) y)
    (hc : F64.Within (-(2 : ℚ) ^ (35 : ℤ)) ((2 : ℚ) ^ (35 : ℤ)) c)
    (hz : F64.Within (-(2 : ℚ) ^ (35 : ℤ)) ((2 : ℚ) ^ (35 : ℤ)) z) :
    F64.Within 0 ((2 : ℚ) ^ (38 : ℤ)) (euclideanDistance a x b y c z) := by
  have d1 := F64.powTwo_within (by norm_num) (by norm_num)
    (sub_abs_within (by norm_num) (by norm_num) ha hx)
  have d2 := F64.powTwo_within (by norm_num) (by norm_num)
    (sub_abs_within (by norm_num) (by norm_num) hb hy)
  have d3 := F64.powTwo_within (by norm_num) (by norm_num)
    (sub_abs_within (by norm_num) (by norm_num) hc hz)
  have s12 := add_nonneg_within (by norm_num) (by norm_num) d1 d2
  have d3' : F64.Within 0 ((2 : ℚ) ^ (2 * ((35 : ℤ) + 1) + 2 + 1)) (F64.powTwo (F64.sub c z)) :=
    d3.mono (le_refl _) (two_zpow_mono (by norm_num))
  have s := add_nonneg_within (by norm_num) (by norm_num) s12 d3'
  have e : 2 * ((35 : ℤ) + 1) + 2 + 1 + 1 = 2 * 38 := by norm_num
  rw [e] at s
  exact F64.sqrt_within (by norm_num) s

/-- The colour distance of any two readings, in any colour space, is a finite
float in `[0, 2^38]`. -/
theorem pixelDistance_within (colorSpace : String) (p1 p2 : RGBA) :
    F64.Within 0 ((2 : ℚ) ^ (38 : ℤ)) (pixelDistance colorSpace p1 p2) := by
  obtain ⟨a1, b1, c1⟩ := toNRGBA_within p1.r p1.g p1.b p1.a
  obtain ⟨a2, b2, c2⟩ := toNRGBA_within p2.r p2.g p2.b p2.a
  have neg : -(2 : ℚ) ^ (35 : ℤ) ≤ 0 := by have := two_zpow_pos 35; linarith
  have up : (2 : ℚ) ^ (32 : ℤ) ≤ (2 : ℚ) ^ (35 : ℤ) := two_zpow_mono (by norm_num)
  have hdiv : ∀ v : F64, F64.Within 0 ((2 : ℚ) ^ (38 : ℤ)) v →
      F64.Within 0 ((2 : ℚ) ^ (38 : ℤ)) (F64.div v (F64.fin 113510)) := by
    intro v hv
    refine F64.div_within hv.1 rfl (by simp [F64.toRat]) roundVal_zero
      (roundVal_two_zpow _ (by norm_num)) neg_big_le_zero (two_zpow_le_big _ (by norm_num)) ?_ ?_
    · show (0 : ℚ) ≤ v.toRat / 113510
      exact div_nonneg hv.2.1 (by norm_num)
    · show v.toRat / 113510 ≤ (2 : ℚ) ^ (38 : ℤ)
      rw [div_le_iff₀ (by norm_num)]
      have := hv.2.2
      have := hv.2.1
      have := two_zpow_pos 38
      nlinarith
  unfold pixelDistance
  dsimp only
  split
  · exact hdiv _ (euclideanDistance_within (a1.mono neg up) (a2.mono neg up) (b1.mono neg up)
      (b2.mono neg up) (c1.mono neg up) (c2.mono neg up))
  · split
    · obtain ⟨y1, u1, v1⟩ := toYUV_within a1 b1 c1
      obtain ⟨y2, u2, v2⟩ := toYUV_within a2 b2 c2
      exact hdiv _ (euclideanDistance_within y1 y2 u1 u2 v1 v2)
    · exact ⟨rfl, le_refl _, (two_zpow_pos _).le⟩

/-! ## The scan loops -/

theorem forRange_zero {σ : Type} (body : ℕ → σ → Exec σ) (s : σ) :
    forRange 0 body s = Exec.ret s := rfl

theorem forRange_succ {σ : Type} (n : ℕ) (body : ℕ → σ → Exec σ) (s : σ) :
    forRange (n + 1) body s = (forRange n body s).bind (body n) := by
  unfold forRange
  rw [List.range_succ, List.foldl_append]
  rfl

/-- A counting loop whose body never panics under an invariant `P` and acts
there as the pure step `f` is the fold of `f`, and keeps `P`. -/
theorem forRange_eq_foldl {σ : Type} (P : σ → Prop) (f : σ → ℕ → σ) (n : ℕ)
    (body : ℕ → σ → Exec σ) (s : σ) (h0 : P s)
    (hstep : ∀ i s, i < n → P s → body i s = Exec.ret (f s i) ∧ P (f s i)) :
    forRange n body s = Exec.ret ((List.range n).foldl f s) ∧ P ((List.range n).foldl f s) := by
  induction n with
  | zero => exact ⟨rfl, h0⟩
  | succ n ih =>
    obtain ⟨h1, h2⟩ := ih (fun i s hi hs => hstep i s (by omega) hs)
    obtain ⟨h3, h4⟩ := hstep n _ (by omega) h2
    rw [forRange_succ, h1, List.range_succ, List.foldl_append]
    exact ⟨h3, h4⟩

/-- The weight of a reading whose alpha is within 16 bits lies in `[0, 1]`. -/
theorem alphaWeight_within (p : RGBA) (h : p.a.toNat ≤ 65535) :
    F64.Within 0 1 (alphaWeight p) := by
  unfold alphaWeight
  rw [toNRGBA_alpha]
  have hq : ((p.a.toNat : ℕ) : ℚ) ≤ 65535 := by exact_mod_cast h
  have := F64.div_within (a := F64.fin (p.a.toNat : ℚ)) (b := F64.fin 65535)
    (L := 0) (H := (2 : ℚ) ^ (0 : ℤ)) rfl rfl (by simp [F64.toRat]) roundVal_zero
    (roundVal_two_zpow _ (by norm_num)) neg_big_le_zero (two_zpow_le_big _ (by norm_num))
    (by simp only [F64.toRat]; exact div_nonneg (Nat.cast_nonneg _) (by norm_num))
    (by simp only [F64.toRat, zpow_zero]; rw [div_le_one (by norm_num)]; exact hq)
  simpa using this

/-- The weight of a fully transparent reading is `+0`. -/
theorem alphaWeight_transparent (p : RGBA) (h : p.a.toNat = 0) :
    alphaWeight p = F64.fin 0 := by
  unfold alphaWeight
  rw [toNRGBA_alpha, h]
  simp [F64.div, F64.isZero, F64.signedZero, F64.isNeg]

/-- A weight in `[0, 1]` passes the scanner's range check. -/
theorem alpha_check_of_within {w : F64} (h : F64.Within 0 1 w) :
    (F64.lt w (F64.fin 0) || F64.gt w (F64.fin 1)) = false := by
  obtain ⟨fw, w0, w1⟩ := h
  cases w with
  | fin q =>
    simp only [F64.toRat] at w0 w1
    simp [F64.lt, F64.gt, F64.toRat, not_lt.mpr w0, not_lt.mpr w1]
  | negZero => simp [F64.lt, F64.gt, F64.toRat]
  | inf s => exact absurd fw Bool.false_ne_true
  | nan => exact absurd fw Bool.false_ne_true

/-- The loop body does not panic, and is `scanStep`, when both images are
present and the reference weight passes the range check. -/
theorem scanPixel_eq (c : Config) (bimg rimg : Image) (y x : Int) (s : Scan)
    (hb : c.BaseImg.Image = some bimg) (hr : c.RefImg.Image = some rimg)
    (hw : F64.Within 0 1 (alphaWeight (refReading c rimg x y))) :
    scanPixel c y x s = Exec.ret (scanStep c bimg rimg y x s) := by
  have hchk := alpha_check_of_within hw
  unfold alphaWeight refReading at hchk
  unfold scanPixel
  rw [hb, hr]
  dsimp only
  rw [hchk]
  rfl

/-- The weighted distance of a pixel pair is a finite float in `[0, 2^38]`
when the reference weight lies in `[0, 1]`. -/
theorem weightedDistance_within (c : Config) (bimg rimg : Image) (x y : Int)
    (hw : F64.Within 0 1 (alphaWeight (refReading c rimg x y))) :
    F64.Within 0 ((2 : ℚ) ^ (38 : ℤ)) (weightedDistance c bimg rimg x y) := by
  unfold weightedDistance
  have hd := pixelDistance_within c.ColorSpace (baseReading c bimg x y) (refReading c rimg x y)
  obtain ⟨fd, d0, d1⟩ := hd
  obtain ⟨fw, w0, w1⟩ := hw
  refine F64.mul_within fd fw roundVal_zero (roundVal_two_zpow _ (by norm_num))
    neg_big_le_zero (two_zpow_le_big _ (by norm_num)) (mul_nonneg d0 w0) ?_
  have := two_zpow_pos 38
  nlinarith

theorem roundVal_stall :
    roundVal ((2 : ℚ) ^ (100 : ℤ) + (2 : ℚ) ^ (38 : ℤ)) = (2 : ℚ) ^ (100 : ℤ) := by
  decide!

/-- The running sum never leaves `[0, 2^100]`: a term of at most `2^38` added
to `2^100` is rounded away. -/
theorem add_stall {a t : F64} (ha : F64.Within 0 ((2 : ℚ) ^ (100 : ℤ)) a)
    (ht : F64.Within 0 ((2 : ℚ) ^ (38 : ℤ)) t) :
    F64.Within 0 ((2 : ℚ) ^ (100 : ℤ)) (F64.add a t) := by
  obtain ⟨fa, a0, a1⟩ := ha
  obtain ⟨ft, t0, t1⟩ := ht
  have h38 : (2 : ℚ) ^ (38 : ℤ) ≤ (2 : ℚ) ^ (100 : ℤ) := two_zpow_mono (by norm_num)
  cases a with
  | fin p =>
    cases t with
    | fin q =>
      simp only [F64.toRat] at a0 a1 t0 t1
      have hsum : |p + q| ≤ (2 : ℚ) ^ (1023 : ℤ) := by
        rw [abs_of_nonneg (by linarith)]
        have : (2 : ℚ) ^ (100 : ℤ) + (2 : ℚ) ^ (100 : ℤ) ≤ (2 : ℚ) ^ (1023 : ℤ) := by
          rw [← two_zpow_succ]; exact two_zpow_mono (by norm_num)
        linarith
      obtain ⟨hf, hv⟩ := F64.round_finite (p + q) hsum
      refine ⟨hf, ?_, ?_⟩
      · show 0 ≤ (F64.round (p + q)).toRat
        rw [hv]; exact roundVal_nonneg _ (by linarith)
      · show (F64.round (p + q)).toRat ≤ _
        rw [hv, ← roundVal_stall]
        exact roundVal_mono _ _ (by linarith)
    | negZero => exact ⟨rfl, a0, a1⟩
    | inf s => exact absurd ft Bool.false_ne_true
    | nan => exact absurd ft Bool.false_ne_true
  | negZero =>
    cases t with
    | fin q =>
      simp only [F64.toRat] at t0 t1
      exact ⟨rfl, t0, le_trans t1 h38⟩
    | negZero => exact ⟨rfl, le_refl _, (two_zpow_pos _).le⟩
    | inf s => exact absurd ft Bool.false_ne_true
    | nan => exact absurd ft Bool.false_ne_true
  | inf s => exact absurd fa Bool.false_ne_true
  | nan => exact absurd fa Bool.false_ne_true

theorem foldl_cumul (c : Config) (bimg rimg : Image) (y : Int) (l : List ℕ) (s : Scan) :
    (l.foldl (fun s (j : ℕ) => scanStep c bimg rimg y j s) s).cumul
      = l.foldl (fun acc (x : ℕ) => F64.add acc (weightedDistance c bimg rimg x y)) s.cumul := by
  induction l generalizing s with
  | nil => rfl
  | cons a t ih =>
    simp only [List.foldl_cons]
    rw [ih]
    rfl

theorem foldl_rows_cumul (c : Config) (bimg rimg : Image) (w : ℕ) (l : List ℕ) (s : Scan) :
    (l.foldl (fun s (i : ℕ) =>
        (List.range w).foldl (fun s (j : ℕ) => scanStep c bimg rimg i j s) s) s).cumul
      = l.foldl (fun acc (y : ℕ) => (List.range w).foldl
          (fun acc (x : ℕ) => F64.add acc (weightedDistance c bimg rimg x y)) acc) s.cumul := by
  induction l generalizing s with
  | nil => rfl
  | cons a t ih =>
    simp only [List.foldl_cons]
    rw [ih, foldl_cumul]

/-- The scanner's nested loops: when both images are present and every
scanned reference reading has a weight in `[0, 1]`, the scan does not panic,
its sum is the specification's `weightedSum`, and the sum is a finite float in
`[0, 2^100]`. -/
theorem scanLoop_spec (c : Config) (bimg rimg : Image)
    (hb : c.BaseImg.Image = some bimg) (hr : c.RefImg.Image = some rimg)
    (hw : ∀ x y : Int, c.Scanned x y → F64.Within 0 1 (alphaWeight (refReading c rimg x y))) :
    ∃ s : Scan, scanLoop c 0 c.BaseImg.Height { cumul := F64.fin 0, PixelsDifferent := 0 }
        = Exec.ret s ∧
      s.cumul = weightedSum c bimg rimg ∧ F64.Within 0 ((2 : ℚ) ^ (100 : ℤ)) s.cumul := by
  have hrow : ∀ (i : ℕ) (s : Scan), i < c.BaseImg.Height.toNat →
      F64.Within 0 ((2 : ℚ) ^ (100 : ℤ)) s.cumul →
      forRange c.BaseImg.Width.toNat (fun j s => scanPixel c ((0 : Int) + i) j s) s
        = Exec.ret ((List.range c.BaseImg.Width.toNat).foldl
            (fun s (j : ℕ) => scanStep c bimg rimg i j s) s) ∧
      F64.Within 0 ((2 : ℚ) ^ (100 : ℤ)) ((List.range c.BaseImg.Width.toNat).foldl
            (fun s (j : ℕ) => scanStep c bimg rimg i j s) s).cumul := by
    intro i s hi hs
    refine forRange_eq_foldl (fun s => F64.Within 0 ((2 : ℚ) ^ (100 : ℤ)) s.cumul)
      (fun s (j : ℕ) => scanStep c bimg rimg i j s) _ _ s hs ?_
    intro j s' hj hs'
    have hsc : c.Scanned j i := ⟨by omega, by omega, by omega, by omega⟩
    have hwj := hw j i hsc
    rw [zero_add]
    refine ⟨scanPixel_eq c bimg rimg i j s' hb hr hwj, ?_⟩
    exact add_stall hs' (weightedDistance_within c bimg rimg j i hwj)
  have hz : F64.Within 0 ((2 : ℚ) ^ (100 : ℤ)) (F64.fin 0) :=
    ⟨rfl, le_refl _, (two_zpow_pos _).le⟩
  obtain ⟨h1, h2⟩ := forRange_eq_foldl (fun s => F64.Within 0 ((2 : ℚ) ^ (100 : ℤ)) s.cumul)
    (fun s (i : ℕ) => (List.range c.BaseImg.Width.toNat).foldl
      (fun s (j : ℕ) => scanStep c bimg rimg i j s) s)
    c.BaseImg.Height.toNat
    (fun i s => forRange c.BaseImg.Width.toNat (fun j s => scanPixel c ((0 : Int) + i) j s) s)
    { cumul := F64.fin 0, PixelsDifferent := 0 } hz hrow
  refine ⟨_, ?_, ?_, h2⟩
  · unfold scanLoop
    rw [sub_zero]
    exact h1
  · rw [foldl_rows_cumul]
    unfold weightedSum
    rfl
/-! ## From the scan to the result of `Compare` -/

/-- Running `Compare` on a valid configuration with equal dimensions and no timeout,
when the scan ends in the state `s`. -/
theorem Compare_of_scan (env : Env) (c : Config) (r : Result) (s : Scan)
    (hv : c.Valid = none) (hW : c.BaseImg.Width = c.RefImg.Width)
    (hH : c.BaseImg.Height = c.RefImg.Height) (hT : c.Timeout = 0)
    (hs : scanLoop c 0 c.BaseImg.Height { cumul := F64.fin 0, PixelsDifferent := 0 }
      = Exec.ret s) :
    Compare env c r = Exec.ret (none,
      Result.mk (c.String env.fmtDuration) env.elapsed s.PixelsDifferent false
        (finalScore s.cumul c.BaseImg.Height c.BaseImg.Width)) := by
  have hdim : ¬ (c.BaseImg.Width ≠ c.RefImg.Width ∨ c.BaseImg.Height ≠ c.RefImg.Height) := by
    rintro (h | h)
    · exact h hW
    · exact h hH
  unfold Compare
  rw [if_neg hdim, hv]
  dsimp only
  rw [if_neg (by rw [hT]; decide)]
  unfold compareImages
  rw [hs]
  rfl

/-- Running `Compare` panics when the scan does. -/
theorem Compare_of_scan_panic (env : Env) (c : Config) (r : Result)
    (hv : c.Valid = none) (hW : c.BaseImg.Width = c.RefImg.Width)
    (hH : c.BaseImg.Height = c.RefImg.Height) (hT : c.Timeout = 0)
    (hs : scanLoop c 0 c.BaseImg.Height { cumul := F64.fin 0, PixelsDifferent := 0 }
      = Exec.panicked) :
    Compare env c r = Exec.panicked := by
  have hdim : ¬ (c.BaseImg.Width ≠ c.RefImg.Width ∨ c.BaseImg.Height ≠ c.RefImg.Height) := by
    rintro (h | h)
    · exact h hW
    · exact h hH
  unfold Compare
  rw [if_neg hdim, hv]
  dsimp only
  rw [if_neg (by rw [hT]; decide)]
  unfold compareImages
  rw [hs]
  rfl

/-- The scanner's loops under an invariant `P` of the loop body. -/
theorem scanLoop_invariant (c : Config) (bimg rimg : Image) (P : Scan → Prop)
    (hb : c.BaseImg.Image = some bimg) (hr : c.RefImg.Image = some rimg)
    (hw : ∀ x y : Int, c.Scanned x y → F64.Within 0 1 (alphaWeight (refReading c rimg x y)))
    (s0 : Scan) (h0 : P s0)
    (hP : ∀ (x y : Int) (s : Scan), c.Scanned x y → P s → P (scanStep c bimg rimg y x s)) :
    ∃ s : Scan, scanLoop c 0 c.BaseImg.Height s0 = Exec.ret s ∧ P s := by
  have hrow : ∀ (i : ℕ) (s : Scan), i < c.BaseImg.Height.toNat → P s →
      forRange c.BaseImg.Width.toNat (fun j s => scanPixel c ((0 : Int) + i) j s) s
        = Exec.ret ((List.range c.BaseImg.Width.toNat).foldl
            (fun s (j : ℕ) => scanStep c bimg rimg i j s) s) ∧
      P ((List.range c.BaseImg.Width.toNat).foldl
            (fun s (j : ℕ) => scanStep c bimg rimg i j s) s) := by
    intro i s hi hs
    refine forRange_eq_foldl P (fun s (j : ℕ) => scanStep c bimg rimg i j s) _ _ s hs ?_
    intro j s' hj hs'
    have hsc : c.Scanned j i := ⟨by omega, by omega, by omega, by omega⟩
    rw [zero_add]
    exact ⟨scanPixel_eq c bimg rimg i j s' hb hr (hw j i hsc), hP j i s' hsc hs'⟩
  obtain ⟨h1, h2⟩ := forRange_eq_foldl P
    (fun s (i : ℕ) => (List.range c.BaseImg.Width.toNat).foldl
      (fun s (j : ℕ) => scanStep c bimg rimg i j s) s)
    c.BaseImg.Height.toNat
    (fun i s => forRange c.BaseImg.Width.toNat (fun j s => scanPixel c ((0 : Int) + i) j s) s)
    s0 h0 hrow
  refine ⟨_, ?_, h2⟩
  unfold scanLoop
  rw [sub_zero]
  exact h1

/-- Adding a zero to `+0` gives `+0`. -/
theorem add_zero_of_toRat_zero (t : F64) (ft : t.isFinite = true) (ht : t.toRat = 0) :
    F64.add (F64.fin 0) t = F64.fin 0 := by
  cases t with
  | fin q =>
    simp only [F64.toRat] at ht
    subst ht
    simp [F64.add, F64.round]
  | negZero => rfl
  | inf s => exact absurd ft Bool.false_ne_true
  | nan => exact absurd ft Bool.false_ne_true

/-- A product with a zero factor, both factors finite, is a zero. -/
theorem mul_toRat_zero (a b : F64) (fa : a.isFinite = true) (fb : b.isFinite = true)
    (h : a.toRat = 0 ∨ b.toRat = 0) :
    (F64.mul a b).isFinite = true ∧ (F64.mul a b).toRat = 0 := by
  have hz : a.toRat * b.toRat = 0 := by
    rcases h with h | h <;> rw [h] <;> simp
  obtain ⟨hf, hv⟩ := F64.mul_finite a b fa fb (by rw [hz]; simpa using (two_zpow_pos 1023).le)
  exact ⟨hf, by rw [hv, hz, roundVal_zero]⟩

theorem add_fin_zero : F64.add (F64.fin 0) (F64.fin 0) = F64.fin 0 := by
  simp [F64.add, F64.round]

theorem sqrt_fin_zero : F64.sqrt (F64.fin 0) = F64.fin 0 := by
  simp [F64.sqrt]

theorem div_zero_113510 : F64.div (F64.fin 0) (F64.fin 113510) = F64.fin 0 := by
  simp [F64.div, F64.isZero, F64.signedZero, F64.isNeg]

/-- The distance of a triple to itself is `+0`. -/
theorem euclideanDistance_self (a b c : F64) (fa : a.isFinite = true) (fb : b.isFinite = true)
    (fc : c.isFinite = true) : euclideanDistance a a b b c c = F64.fin 0 := by
  unfold euclideanDistance
  rw [F64.sub_self_of_finite a fa, F64.sub_self_of_finite b fb, F64.sub_self_of_finite c fc,
    F64.powTwo_zero, add_fin_zero, add_fin_zero, sqrt_fin_zero]

/-- The colour distance of a reading to itself is `+0` in every colour space. -/
theorem pixelDistance_self (colorSpace : String) (p : RGBA) :
    pixelDistance colorSpace p p = F64.fin 0 := by
  obtain ⟨a1, b1, c1⟩ := toNRGBA_within p.r p.g p.b p.a
  unfold pixelDistance
  dsimp only
  split
  · rw [euclideanDistance_self _ _ _ a1.1 b1.1 c1.1, div_zero_113510]
  · split
    · obtain ⟨y1, u1, v1⟩ := toYUV_within a1 b1 c1
      rw [euclideanDistance_self _ _ _ y1.1 u1.1 v1.1, div_zero_113510]
    · rfl

/-- A scan step over two equal readings leaves a zero sum and a zero counter
as they are. -/
theorem scanStep_same (c : Config) (bimg rimg : Image) (x y : Int) (s : Scan)
    (hsame : baseReading c bimg x y = refReading c rimg x y)
    (hw : F64.Within 0 1 (alphaWeight (refReading c rimg x y)))
    (hs : s.cumul = F64.fin 0 ∧ s.PixelsDifferent = 0) :
    (scanStep c bimg rimg y x s).cumul = F64.fin 0 ∧
      (scanStep c bimg rimg y x s).PixelsDifferent = 0 := by
  have hd : pixelDistance c.ColorSpace (baseReading c bimg x y) (refReading c rimg x y)
      = F64.fin 0 := by
    rw [hsame]; exact pixelDistance_self _ _
  unfold scanStep weightedDistance
  dsimp only
  rw [hd, hs.1, hs.2]
  obtain ⟨hf, hz⟩ := mul_toRat_zero (F64.fin 0) _ rfl hw.1 (Or.inl rfl)
  exact ⟨add_zero_of_toRat_zero _ hf hz, by simp [F64.ne, F64.eq, F64.toRat]⟩

/-- A scan step at a fully transparent reference pixel leaves a zero sum as
it is. -/
theorem scanStep_transparent (c : Config) (bimg rimg : Image) (x y : Int) (s : Scan)
    (ht : (refReading c rimg x y).a.toNat = 0) (hs : s.cumul = F64.fin 0) :
    (scanStep c bimg rimg y x s).cumul = F64.fin 0 := by
  have hd := pixelDistance_within c.ColorSpace (baseReading c bimg x y) (refReading c rimg x y)
  unfold scanStep weightedDistance
  dsimp only
  rw [hs, alphaWeight_transparent _ ht]
  obtain ⟨hf, hz⟩ := mul_toRat_zero _ (F64.fin 0) hd.1 rfl (Or.inr rfl)
  exact add_zero_of_toRat_zero _ hf hz

theorem wrapInt64_range (i : Int) : -(2 ^ 63) ≤ wrapInt64 i ∧ wrapInt64 i < 2 ^ 63 := by
  unfold wrapInt64
  omega

/-- The conversion of a non-zero 64-bit integer is a finite float of the same
sign and of magnitude at least 1. -/
theorem ofInt_int64 (n : Int) (h1 : -(2 ^ 63) ≤ n) (h2 : n < 2 ^ 63) :
    (F64.ofInt n).isFinite = true ∧ (0 < n → 1 ≤ (F64.ofInt n).toRat) ∧
      (n < 0 → (F64.ofInt n).toRat ≤ -1) := by
  have hq1 : -((2 : ℚ) ^ (63 : ℤ)) ≤ (n : ℚ) := by
    have : ((-(2 ^ 63) : ℤ) : ℚ) ≤ (n : ℚ) := by exact_mod_cast h1
    calc -((2 : ℚ) ^ (63 : ℤ)) = ((-(2 ^ 63) : ℤ) : ℚ) := by norm_num
      _ ≤ (n : ℚ) := this
  have hq2 : (n : ℚ) ≤ (2 : ℚ) ^ (63 : ℤ) := by
    have : (n : ℚ) ≤ (((2 ^ 63) : ℤ) : ℚ) := by exact_mod_cast h2.le
    calc (n : ℚ) ≤ (((2 ^ 63) : ℤ) : ℚ) := this
      _ = (2 : ℚ) ^ (63 : ℤ) := by norm_num
  have h63 := two_zpow_le_big 63 (by norm_num)
  obtain ⟨hf, hv⟩ := F64.round_finite (n : ℚ) (by rw [abs_le]; constructor <;> linarith)
  refine ⟨hf, ?_, ?_⟩
  · intro hpos
    show 1 ≤ (F64.round (n : ℚ)).toRat
    rw [hv]
    have h1' : (1 : ℚ) ≤ (n : ℚ) := by exact_mod_cast hpos
    have := roundVal_mono _ _ h1'
    rwa [show (1 : ℚ) = (2 : ℚ) ^ (0 : ℤ) by simp, roundVal_two_zpow 0 (by norm_num),
      zpow_zero] at this
  · intro hneg
    show (F64.round (n : ℚ)).toRat ≤ -1
    rw [hv]
    have h1' : (n : ℚ) ≤ -1 := by
      have : n ≤ -1 := by omega
      exact_mod_cast this
    have := roundVal_mono _ _ h1'
    rwa [show (-1 : ℚ) = -(2 : ℚ) ^ (0 : ℤ) by simp, roundVal_neg_two_zpow 0 (by norm_num),
      zpow_zero] at this

/-- The score computed from a zero sum compares equal to zero as soon as the
pixel count, as the 64-bit `int` the code computes, is not zero. -/
theorem finalScore_zero (h w : Int) (hn : wrapInt64 (h * w) ≠ 0) :
    F64.eq (finalScore (F64.fin 0) h w) (F64.fin 0) = true := by
  obtain ⟨r1, r2⟩ := wrapInt64_range (h * w)
  obtain ⟨hf, hpos, hneg⟩ := ofInt_int64 _ r1 r2
  have hb : (F64.ofInt (wrapInt64 (h * w))).toRat ≠ 0 := by
    rcases lt_or_gt_of_ne hn with hlt | hgt
    · have := hneg hlt; linarith
    · have := hpos hgt; linarith
  obtain ⟨f1, v1⟩ := F64.div_finite (F64.fin 0) _ rfl hf hb
    (by simp only [F64.toRat, zero_div, abs_zero]; exact (two_zpow_pos _).le)
  have v1' : (F64.div (F64.fin 0) (F64.ofInt (wrapInt64 (h * w)))).toRat = 0 := by
    rw [v1]; simp only [F64.toRat, zero_div]; exact roundVal_zero
  obtain ⟨f2, v2⟩ := mul_toRat_zero _ (F64.fin (5 / 4)) f1 rfl (Or.inl v1')
  unfold finalScore
  dsimp only
  generalize F64.mul (F64.div (F64.fin 0) (F64.ofInt (wrapInt64 (h * w)))) (F64.fin (5 / 4))
    = v at f2 v2
  have h10 : ¬ ((1 : ℚ) < 0) := by norm_num
  cases v with
  | fin q =>
    simp only [F64.toRat] at v2
    subst v2
    simp [F64.gt, F64.lt, F64.eq, F64.toRat, h10]
  | negZero => simp [F64.gt, F64.lt, F64.eq, F64.toRat, h10]
  | inf s => exact absurd f2 Bool.false_ne_true
  | nan => exact absurd f2 Bool.false_ne_true

/-- Capping at `1.0` puts a finite non-negative float between 0 and 1. -/
theorem clamp_bounds (v : F64) (B : ℚ) (hv : F64.Within 0 B v) :
    F64.le (F64.fin 0) (if F64.gt v (F64.fin 1) then F64.fin 1 else v) = true ∧
    F64.le (if F64.gt v (F64.fin 1) then F64.fin 1 else v) (F64.fin 1) = true := by
  obtain ⟨fv, v0, _⟩ := hv
  have h10 : ¬ ((1 : ℚ) < 0) := by norm_num
  cases v with
  | fin q =>
    simp only [F64.toRat] at v0
    by_cases h : (1 : ℚ) < q
    · simp [F64.gt, F64.lt, F64.le, F64.eq, F64.toRat, h]
    · have h' : q ≤ 1 := not_lt.mp h
      simp only [F64.gt, F64.lt, F64.le, F64.eq, F64.toRat, h, decide_False,
        Bool.false_eq_true, if_false, Bool.or_eq_true, decide_eq_true_eq]
      exact ⟨le_iff_lt_or_eq.mp v0, le_iff_lt_or_eq.mp h'⟩
  | negZero => simp [F64.gt, F64.lt, F64.le, F64.eq, F64.toRat, h10]
  | inf s => exact absurd fv Bool.false_ne_true
  | nan => exact absurd fv Bool.false_ne_true

/-- The score lies between 0 and 1 when the sum is a finite float in
`[0, 2^100]`, the divisor a non-zero 64-bit integer, and the sum zero should
the divisor be negative. -/
theorem finalScore_bounds (cumul : F64) (h w : Int)
    (hc : F64.Within 0 ((2 : ℚ) ^ (100 : ℤ)) cumul) (hn : wrapInt64 (h * w) ≠ 0)
    (hneg : wrapInt64 (h * w) < 0 → cumul.toRat = 0) :
    F64.le (F64.fin 0) (finalScore cumul h w) = true ∧
    F64.le (finalScore cumul h w) (F64.fin 1) = true := by
  obtain ⟨r1, r2⟩ := wrapInt64_range (h * w)
  obtain ⟨hf, hpos, hng⟩ := ofInt_int64 _ r1 r2
  obtain ⟨fc, c0, c1⟩ := hc
  have hb : (F64.ofInt (wrapInt64 (h * w))).toRat ≠ 0 := by
    rcases lt_or_gt_of_ne hn with hlt | hgt
    · have := hng hlt; linarith
    · have := hpos hgt; linarith
  have hq : 0 ≤ cumul.toRat / (F64.ofInt (wrapInt64 (h * w))).toRat ∧
      cumul.toRat / (F64.ofInt (wrapInt64 (h * w))).toRat ≤ (2 : ℚ) ^ (100 : ℤ) := by
    rcases lt_or_gt_of_ne hn with hlt | hgt
    · rw [hneg hlt, zero_div]
      exact ⟨le_refl _, (two_zpow_pos _).le⟩
    · have hge := hpos hgt
      refine ⟨div_nonneg c0 (by linarith), ?_⟩
      rw [div_le_iff₀ (by linarith)]
      have := two_zpow_pos 100
      nlinarith
  have W1 : F64.Within 0 ((2 : ℚ) ^ (100 : ℤ))
      (F64.div cumul (F64.ofInt (wrapInt64 (h * w)))) :=
    F64.div_within fc hf hb roundVal_zero (roundVal_two_zpow _ (by norm_num))
      neg_big_le_zero (two_zpow_le_big _ (by norm_num)) hq.1 hq.2
  have W2 : F64.Within 0 ((2 : ℚ) ^ (101 : ℤ))
      (F64.mul (F64.div cumul (F64.ofInt (wrapInt64 (h * w)))) (F64.fin (5 / 4))) := by
    refine F64.mul_within W1.1 rfl roundVal_zero (roundVal_two_zpow _ (by norm_num))
      neg_big_le_zero (two_zpow_le_big _ (by norm_num)) ?_ ?_
    · show 0 ≤ (F64.div cumul (F64.ofInt (wrapInt64 (h * w)))).toRat * (5 / 4)
      exact mul_nonneg W1.2.1 (by norm_num)
    · show (F64.div cumul (F64.ofInt (wrapInt64 (h * w)))).toRat * (5 / 4) ≤ _
      have e : (2 : ℚ) ^ (101 : ℤ) = (2 : ℚ) ^ (100 : ℤ) + (2 : ℚ) ^ (100 : ℤ) :=
        two_zpow_succ 100
      have := W1.2.2
      have := W1.2.1
      rw [e]
      linarith
  unfold finalScore
  exact clamp_bounds _ _ W2

/-! ## Dimension mismatch and validation in `Compare` -/

/-- C1: when the base and the reference image differ in width or in height
and `NoDimensionError` is set, `Compare` returns a nil error and leaves the
result with `Score = 1.0`, `Timeout = false` and `Runtime = 0`, whatever the
result held before. -/
theorem Compare_dimension_mismatch_tolerated (env : Env) (c : Config) (r : Result)
    (hdim : c.BaseImg.Width ≠ c.RefImg.Width ∨ c.BaseImg.Height ≠ c.RefImg.Height)
    (hflag : c.NoDimensionError = true) :
    ∃ r' : Result, Compare env c r = Exec.ret (none, r') ∧
      r'.Score = F64.fin 1 ∧ r'.Timeout = false ∧ r'.Runtime = 0 := by
  have h : Compare env c r = Exec.ret (none,
      Result.mk (c.String env.fmtDuration) 0 r.PixelsDifferent false (F64.fin 1)) := by
    unfold Compare
    rw [if_pos hdim]
    simp [hflag]
  exact ⟨_, h, rfl, rfl, rfl⟩

/-- Witness of C1: a 2×2 base against a 3×2 reference with the flag set. -/
theorem Compare_dimension_mismatch_tolerated_witness :
    ∃ r' : Result,
      Compare sampleEnv (uniformConfig "RGB" true black 2 2 white 3 2) staleResult
        = Exec.ret (none, r') ∧
      r'.Score = F64.fin 1 ∧ r'.Timeout = false ∧ r'.Runtime = 0 :=
  Compare_dimension_mismatch_tolerated sampleEnv
    (uniformConfig "RGB" true black 2 2 white 3 2) staleResult
    (Or.inl (by decide)) rfl

/-- The error exit of `Compare` on a dimension mismatch. -/
theorem Compare_dimension_mismatch_error_aux (env : Env) (c : Config) (r : Result)
    (hdim : c.BaseImg.Width ≠ c.RefImg.Width ∨ c.BaseImg.Height ≠ c.RefImg.Height)
    (hflag : c.NoDimensionError = false) :
    Compare env c r = Exec.ret (some (Error.dimensionMismatch c.BaseImg.Width c.BaseImg.Height
      c.RefImg.Width c.RefImg.Height), r) := by
  unfold Compare
  rw [if_pos hdim]
  simp [hflag]

/-- C2: when the base and the reference image differ in width or in height
and `NoDimensionError` is not set, `Compare` returns a non-nil error (the
dimension mismatch) and the result is exactly what it was before the call. -/
theorem Compare_dimension_mismatch_error (env : Env) (c : Config) (r : Result)
    (hdim : c.BaseImg.Width ≠ c.RefImg.Width ∨ c.BaseImg.Height ≠ c.RefImg.Height)
    (hflag : c.NoDimensionError = false) :
    Compare env c r = Exec.ret (some (Error.dimensionMismatch c.BaseImg.Width c.BaseImg.Height
      c.RefImg.Width c.RefImg.Height), r) :=
  Compare_dimension_mismatch_error_aux env c r hdim hflag

/-- Witness of C2: a 2×2 base against a 2×5 reference with the flag unset. -/
theorem Compare_dimension_mismatch_error_witness :
    Compare sampleEnv (uniformConfig "RGB" false black 2 2 white 2 5) staleResult
      = Exec.ret (some (Error.dimensionMismatch 2 2 2 5), staleResult) :=
  Compare_dimension_mismatch_error sampleEnv
    (uniformConfig "RGB" false black 2 2 white 2 5) staleResult
    (Or.inr (by decide)) rfl

/-- What a nil result of `Config.Valid` guarantees: a known colour space, two
non-nil images, non-zero widths and heights, non-negative offsets, and the four
bounds checks in 64-bit arithmetic. -/
theorem Valid_none (c : Config) (h : c.Valid = none) :
    (c.ColorSpace = "Y'UV" ∨ c.ColorSpace = "RGB") ∧
    ∃ bimg rimg, c.BaseImg.Image = some bimg ∧ c.RefImg.Image = some rimg ∧
      c.BaseImg.Width ≠ 0 ∧ c.BaseImg.Height ≠ 0 ∧ c.RefImg.Width ≠ 0 ∧ c.RefImg.Height ≠ 0 ∧
      0 ≤ c.BaseImg.MinX ∧ 0 ≤ c.BaseImg.MinY ∧ 0 ≤ c.RefImg.MinX ∧ 0 ≤ c.RefImg.MinY ∧
      wrapInt64 (c.BaseImg.MinX + c.BaseImg.Width)
        ≤ wrapInt64 (bimg.Bounds.Max.X - bimg.Bounds.Min.X) ∧
      wrapInt64 (c.BaseImg.MinY + c.BaseImg.Height)
        ≤ wrapInt64 (bimg.Bounds.Max.Y - bimg.Bounds.Min.Y) ∧
      wrapInt64 (c.RefImg.MinX + c.RefImg.Width)
        ≤ wrapInt64 (rimg.Bounds.Max.X - rimg.Bounds.Min.X) ∧
      wrapInt64 (c.RefImg.MinY + c.RefImg.Height)
        ≤ wrapInt64 (rimg.Bounds.Max.Y - rimg.Bounds.Min.Y) := by
  unfold Config.Valid at h
  by_cases hcs : c.ColorSpace ≠ "Y'UV" ∧ c.ColorSpace ≠ "RGB"
  · rw [if_pos hcs] at h
    exact absurd h (Option.some_ne_none _)
  rw [if_neg hcs] at h
  refine ⟨by by_contra hne; exact hcs (not_or.mp hne), ?_⟩
  cases hb : c.BaseImg.Image with
  | none =>
    rw [hb] at h
    exact absurd h (Option.some_ne_none _)
  | some bimg =>
    cases hr : c.RefImg.Image with
    | none =>
      rw [hb, hr] at h
      exact absurd h (Option.some_ne_none _)
    | some rimg =>
      rw [hb, hr] at h
      refine ⟨bimg, rimg, rfl, rfl, ?_⟩
      dsimp only at h
      by_cases h1 : c.BaseImg.Width = 0
      · rw [if_pos h1] at h; exact absurd h (Option.some_ne_none _)
      rw [if_neg h1] at h
      by_cases h2 : c.BaseImg.Height = 0
      · rw [if_pos h2] at h; exact absurd h (Option.some_ne_none _)
      rw [if_neg h2] at h
      by_cases h3 : c.RefImg.Width = 0
      · rw [if_pos h3] at h; exact absurd h (Option.some_ne_none _)
      rw [if_neg h3] at h
      by_cases h4 : c.RefImg.Height = 0
      · rw [if_pos h4] at h; exact absurd h (Option.some_ne_none _)
      rw [if_neg h4] at h
      by_cases h5 : c.BaseImg.MinX < 0
      · rw [if_pos h5] at h; exact absurd h (Option.some_ne_none _)
      rw [if_neg h5] at h
      by_cases h6 : c.BaseImg.MinY < 0
      · rw [if_pos h6] at h; exact absurd h (Option.some_ne_none _)
      rw [if_neg h6] at h
      by_cases h7 : c.RefImg.MinX < 0
      · rw [if_pos h7] at h; exact absurd h (Option.some_ne_none _)
      rw [if_neg h7] at h
      by_cases h8 : c.RefImg.MinY < 0
      · rw [if_pos h8] at h; exact absurd h (Option.some_ne_none _)
      rw [if_neg h8] at h
      by_cases h9 : wrapInt64 (c.BaseImg.MinX + c.BaseImg.Width)
          > wrapInt64 (bimg.Bounds.Max.X - bimg.Bounds.Min.X)
      · rw [if_pos h9] at h; exact absurd h (Option.some_ne_none _)
      rw [if_neg h9] at h
      by_cases h10 : wrapInt64 (c.BaseImg.MinY + c.BaseImg.Height)
          > wrapInt64 (bimg.Bounds.Max.Y - bimg.Bounds.Min.Y)
      · rw [if_pos h10] at h; exact absurd h (Option.some_ne_none _)
      rw [if_neg h10] at h
      by_cases h11 : wrapInt64 (c.RefImg.MinX + c.RefImg.Width)
          > wrapInt64 (rimg.Bounds.Max.X - rimg.Bounds.Min.X)
      · rw [if_pos h11] at h; exact absurd h (Option.some_ne_none _)
      rw [if_neg h11] at h
      by_cases h12 : wrapInt64 (c.RefImg.MinY + c.RefImg.Height)
          > wrapInt64 (rimg.Bounds.Max.Y - rimg.Bounds.Min.Y)
      · rw [if_pos h12] at h; exact absurd h (Option.some_ne_none _)
      exact ⟨h1, h2, h3, h4, not_lt.mp h5, not_lt.mp h6, not_lt.mp h7, not_lt.mp h8,
        not_lt.mp h9, not_lt.mp h10, not_lt.mp h11, not_lt.mp h12⟩

/-- C9, evaluated at its failing input: `Config.Valid` returns nil for a
configuration whose base and reference widths are `-1`, so a nil result does
not make the widths strictly positive. -/
theorem Valid_accepts_negative_width :
    negativeWidthConfig.Valid = none ∧ negativeWidthConfig.BaseImg.Width = -1 ∧
      negativeWidthConfig.RefImg.Width = -1 := by
  refine ⟨?_, rfl, rfl⟩
  decide

/-- C10 as stated fails: a configuration that `Config.Valid` rejects (unknown
colour space) but whose images differ in width, with `NoDimensionError` set,
gets a nil error and the score `1.0` from `Compare`. -/
theorem Compare_skips_validation_on_tolerated_mismatch :
    invalidMismatchConfig.Valid = some Error.colorSpaceInvalid ∧
    ∃ r' : Result, Compare sampleEnv invalidMismatchConfig staleResult = Exec.ret (none, r') ∧
      r'.Score = F64.fin 1 := by
  refine ⟨by decide, ?_⟩
  have h : Compare sampleEnv invalidMismatchConfig staleResult = Exec.ret (none,
      Result.mk (invalidMismatchConfig.String sampleEnv.fmtDuration) 0 5 false (F64.fin 1)) := by
    unfold Compare
    rw [if_pos (Or.inl (by decide))]
    rfl
  exact ⟨_, h, rfl⟩

/-- C10, amended: when `Config.Valid` returns an error and `Compare` does not
take its tolerated-mismatch exit (the dimensions differ and `NoDimensionError`
is set), `Compare` returns a non-nil error and leaves the result untouched;
with equal dimensions the error is the validation error itself. -/
theorem Compare_surfaces_validation_error (env : Env) (c : Config) (r : Result) (err : Error)
    (hv : c.Valid = some err)
    (hexit : ¬ ((c.BaseImg.Width ≠ c.RefImg.Width ∨ c.BaseImg.Height ≠ c.RefImg.Height) ∧
      c.NoDimensionError = true)) :
    ∃ e : Error, Compare env c r = Exec.ret (some e, r) ∧
      ((c.BaseImg.Width = c.RefImg.Width ∧ c.BaseImg.Height = c.RefImg.Height) → e = err) := by
  by_cases hdim : c.BaseImg.Width ≠ c.RefImg.Width ∨ c.BaseImg.Height ≠ c.RefImg.Height
  · have hflag : c.NoDimensionError = false := by
      cases hf : c.NoDimensionError
      · rfl
      · exact absurd ⟨hdim, hf⟩ hexit
    refine ⟨_, Compare_dimension_mismatch_error_aux env c r hdim hflag, ?_⟩
    rintro ⟨hw, hh⟩
    rcases hdim with h | h
    · exact absurd hw h
    · exact absurd hh h
  · refine ⟨err, ?_, fun _ => rfl⟩
    unfold Compare
    rw [if_neg hdim, hv]

/-- Witness of C10 (amended): two 2×2 images and an unknown colour space. -/
theorem Compare_surfaces_validation_error_witness :
    ∃ e : Error,
      Compare sampleEnv (uniformConfig "CMYK" true black 2 2 white 2 2) staleResult
        = Exec.ret (some e, staleResult) ∧
      (((uniformConfig "CMYK" true black 2 2 white 2 2).BaseImg.Width
          = (uniformConfig "CMYK" true black 2 2 white 2 2).RefImg.Width ∧
        (uniformConfig "CMYK" true black 2 2 white 2 2).BaseImg.Height
          = (uniformConfig "CMYK" true black 2 2 white 2 2).RefImg.Height) →
        e = Error.colorSpaceInvalid) :=
  Compare_surfaces_validation_error sampleEnv (uniformConfig "CMYK" true black 2 2 white 2 2)
    staleResult Error.colorSpaceInvalid (by decide) (by decide)

/-! ## Duration specifiers -/

/-- A value within the range of `int64` is its own wrap-around. -/
theorem wrapInt64_of_range (i : Int) (h1 : -(2 ^ 63) ≤ i) (h2 : i < 2 ^ 63) :
    wrapInt64 i = i := by
  unfold wrapInt64
  omega

/-- A digit is an ASCII byte that is neither white space, nor an upper-case
letter, nor a sign, nor a unit letter. -/
theorem isDigit_facts : ∀ b : Byte, isDigit b = true →
    b.val < 128 ∧ isAsciiSpace b = false ∧ ¬ (65 ≤ b.val ∧ b.val ≤ 90) ∧
    b ≠ 45 ∧ b ≠ 43 ∧ isUnit b = false := by
  decide!

/-- A unit letter is an ASCII byte that is neither white space, nor an
upper-case letter, nor a digit. -/
theorem isUnit_facts : ∀ b : Byte, isUnit b = true →
    b.val < 128 ∧ isAsciiSpace b = false ∧ ¬ (65 ≤ b.val ∧ b.val ≤ 90) ∧ isDigit b = false := by
  decide!

/-- The function `dropWhile` leaves a list alone when its head fails the test. -/
theorem dropWhile_of_head {α : Type} (p : α → Bool) (l : List α)
    (h : ∀ a ∈ l.head?, p a = false) : l.dropWhile p = l := by
  cases l with
  | nil => rfl
  | cons a t =>
    have : p a = false := h a (by simp)
    simp [List.dropWhile, this]

/-- The function `strings.TrimSpace` leaves an ASCII string alone when neither end is white
space. -/
theorem TrimSpace_of_clean (u : UnicodeTables) (s : List Byte)
    (hascii : ∀ b ∈ s, b.val < 128)
    (hhead : ∀ a ∈ s.head?, isAsciiSpace a = false)
    (hlast : ∀ a ∈ s.getLast?, isAsciiSpace a = false) : TrimSpace u s = s := by
  unfold TrimSpace
  rw [if_pos (by simpa [List.all_eq_true] using hascii)]
  rw [dropWhile_of_head _ s hhead,
    dropWhile_of_head _ s.reverse (by rwa [List.head?_reverse]), List.reverse_reverse]

/-- The function `strings.ToLower` leaves an ASCII string without upper-case letters alone. -/
theorem ToLower_of_clean (u : UnicodeTables) (s : List Byte)
    (hascii : ∀ b ∈ s, b.val < 128)
    (hlow : ∀ b ∈ s, ¬ (65 ≤ b.val ∧ b.val ≤ 90)) : ToLower u s = s := by
  unfold ToLower
  rw [if_pos (by simpa [List.all_eq_true] using hascii)]
  calc s.map (fun b => if 65 ≤ b.val ∧ b.val ≤ 90 then b + 32 else b)
      = s.map id := List.map_congr_left (fun b hb => if_neg (hlow b hb))
    _ = s := List.map_id s

/-- The function `strconv.Atoi` on a non-empty string of digits whose value fits an `int`. -/
theorem Atoi_digits (ds : List Byte) (hne : ds ≠ []) (hd : ∀ b ∈ ds, isDigit b = true)
    (hfit : decimalValue ds < 2 ^ 63) : Atoi ds = some (decimalValue ds : Int) := by
  obtain ⟨a, t, rfl⟩ := List.exists_cons_of_ne_nil hne
  have ha := isDigit_facts a (hd a (by simp))
  have hsign : ¬ ((a :: t).head? = some (45 : Byte) ∨ (a :: t).head? = some (43 : Byte)) := by
    simp only [List.head?_cons, Option.some.injEq]
    rintro (h | h)
    · exact ha.2.2.2.1 h
    · exact ha.2.2.2.2.1 h
  have hneg : decide ((a :: t).head? = some (45 : Byte)) = false := by
    simp only [List.head?_cons, Option.some.injEq, decide_eq_false_iff_not]
    exact ha.2.2.2.1
  have hall : (a :: t).all isDigit = true := by
    rw [List.all_eq_true]; exact hd
  unfold Atoi
  dsimp only
  rw [if_neg hsign, if_neg hne, if_pos hall, hneg, if_neg (by decide), if_pos hfit]

/-- The last byte of `l ++ [c]`, read as `s[len(s)-1]`. -/
theorem getD_last_concat (l : List Byte) (c : Byte) :
    (l ++ [c]).getD ((l ++ [c]).length - 1) 0 = c := by
  simp [List.getD_eq_getElem?_getD]

/-- The function `parseNormalized` on digits followed by one non-digit byte `c`. -/
theorem parseNormalized_concat (l : List Byte) (c : Byte) (hc : isDigit c = false) :
    parseNormalized (l ++ [c]) =
      match Atoi l with
      | none => (0, some (Error.invalidDuration (l ++ [c])))
      | some val =>
        if c = 105 then (wrapInt64 (val * Millisecond), none)
        else if c = 115 then (wrapInt64 (val * Second), none)
        else if c = 109 then (wrapInt64 (val * Minute), none)
        else if c = 104 then (wrapInt64 (val * Hour), none)
        else (0, some (Error.invalidDuration (l ++ [c]))) := by
  unfold parseNormalized
  rw [if_neg (by simp)]
  simp only [getD_last_concat, hc, Bool.false_eq_true, if_false]
  have ht : (l ++ [c]).take ((l ++ [c]).length - 1) = l := by
    simp
  rw [ht]

/-- The function `parseNormalized` on a string whose last byte `c` is a digit. -/
theorem parseNormalized_concat_digit (l : List Byte) (c : Byte) (hc : isDigit c = true) :
    parseNormalized (l ++ [c]) =
      match Atoi (l ++ [c]) with
      | none => (0, some (Error.invalidDuration (l ++ [c])))
      | some val => (wrapInt64 (val * Second), none) := by
  unfold parseNormalized
  rw [if_neg (by simp)]
  simp only [getD_last_concat, hc, if_true]
  have ht : (l ++ [c]).take ((l ++ [c]).length - 1 + 1) = l ++ [c] := by
    simp
  rw [ht]

/-- Normalisation leaves digits followed by a unit letter alone. -/
theorem normalize_digits_unit (u : UnicodeTables) (ds : List Byte) (c : Byte)
    (hd : ∀ b ∈ ds, isDigit b = true) (hc : isUnit c = true) :
    ToLower u (TrimSpace u (ds ++ [c])) = ds ++ [c] := by
  have hc' := isUnit_facts c hc
  have hall : ∀ b ∈ ds ++ [c], b.val < 128 ∧ isAsciiSpace b = false ∧
      ¬ (65 ≤ b.val ∧ b.val ≤ 90) := by
    intro b hb
    rcases List.mem_append.mp hb with h | h
    · have := isDigit_facts b (hd b h)
      exact ⟨this.1, this.2.1, this.2.2.1⟩
    · rw [List.mem_singleton.mp h]
      exact ⟨hc'.1, hc'.2.1, hc'.2.2.1⟩
  have htrim : TrimSpace u (ds ++ [c]) = ds ++ [c] := by
    apply TrimSpace_of_clean u _ (fun b hb => (hall b hb).1)
    · intro a ha
      exact (hall a (List.mem_of_mem_head? ha)).2.1
    · intro a ha
      exact (hall a (List.mem_of_mem_getLast? ha)).2.1
  rw [htrim]
  exact ToLower_of_clean u _ (fun b hb => (hall b hb).1) (fun b hb => (hall b hb).2.2)

/-- Normalisation leaves a string of digits alone. -/
theorem normalize_digits (u : UnicodeTables) (ds : List Byte)
    (hd : ∀ b ∈ ds, isDigit b = true) : ToLower u (TrimSpace u ds) = ds := by
  have hall : ∀ b ∈ ds, b.val < 128 ∧ isAsciiSpace b = false ∧
      ¬ (65 ≤ b.val ∧ b.val ≤ 90) := by
    intro b hb
    have := isDigit_facts b (hd b hb)
    exact ⟨this.1, this.2.1, this.2.2.1⟩
  have htrim : TrimSpace u ds = ds := by
    apply TrimSpace_of_clean u _ (fun b hb => (hall b hb).1)
    · intro a ha
      exact (hall a (List.mem_of_mem_head? ha)).2.1
    · intro a ha
      exact (hall a (List.mem_of_mem_getLast? ha)).2.1
  rw [htrim]
  exact ToLower_of_clean u _ (fun b hb => (hall b hb).1) (fun b hb => (hall b hb).2.2)

/-- Digits followed by a unit letter: the value times the unit `k`, when that
fits 64 bits. -/
theorem parse_digits_unit (u : UnicodeTables) (ds : List Byte) (c : Byte) (k : Int)
    (hne : ds ≠ []) (hd : ∀ b ∈ ds, isDigit b = true) (hc : isUnit c = true)
    (hk1 : 1 ≤ k) (hfit : (decimalValue ds : Int) * k < 2 ^ 63)
    (hunit : ∀ val : Int,
      (if c = 105 then (wrapInt64 (val * Millisecond), (none : Option Error))
        else if c = 115 then (wrapInt64 (val * Second), none)
        else if c = 109 then (wrapInt64 (val * Minute), none)
        else if c = 104 then (wrapInt64 (val * Hour), none)
        else (0, some (Error.invalidDuration (ds ++ [c])))) = (wrapInt64 (val * k), none)) :
    parseDurationSpecifier u (ds ++ [c]) = ((decimalValue ds : Int) * k, none) := by
  have hv0 : (0 : Int) ≤ (decimalValue ds : Int) := Int.natCast_nonneg _
  have hvfit : decimalValue ds < 2 ^ 63 := by
    have : (decimalValue ds : Int) < 2 ^ 63 := by nlinarith
    exact_mod_cast this
  unfold parseDurationSpecifier
  rw [normalize_digits_unit u ds c hd hc,
    parseNormalized_concat ds c (isUnit_facts c hc).2.2.2, Atoi_digits ds hne hd hvfit]
  simp only
  rw [hunit, wrapInt64_of_range _ (by nlinarith) hfit]

/-- The loop of `strconv.Atoi` computes positional notation in base ten: the
value of a digit string is `Nat.ofDigits 10` of its digits, least significant
first. -/
theorem decimalValue_eq_ofDigits (ds : List Byte) :
    decimalValue ds = Nat.ofDigits 10 (ds.reverse.map fun b => b.val - 48) := by
  induction ds using List.reverseRecOn with
  | nil => rfl
  | append_singleton l c ih =>
    unfold decimalValue at ih ⊢
    rw [List.foldl_append, List.reverse_append]
    simp only [List.foldl_cons, List.foldl_nil, List.reverse_cons, List.reverse_nil,
      List.nil_append, List.singleton_append, List.map_cons, Nat.ofDigits_cons]
    rw [ih]
    ring

/-- A byte between `'0'` and `'9'` passes the digit test. -/
theorem isDigit_of_range (b : Byte) (h : 48 ≤ b.val ∧ b.val ≤ 57) : isDigit b = true := by
  simp [isDigit, h.1, h.2]

/-- C7: for every non-empty string `ds` of decimal digits (bytes `'0'` to
`'9'`) that denotes the number `v` in base ten, `parseDurationSpecifier`
succeeds and returns `v` milliseconds (`v · 10^6` ns) for the digits followed
by `i`, `v` seconds (`v · 10^9` ns) for `s`, `v` minutes (`v · 6·10^10` ns) for
`m`, `v` hours (`v · 3.6·10^12` ns) for `h`, and `v` seconds for the digits
alone, in each case provided the result fits a 64-bit nanosecond count. The
bytes 105, 115, 109 and 104 are the letters `i`, `s`, `m` and `h`. -/
theorem parseDurationSpecifier_digits (u : UnicodeTables) (ds : List Byte) (v : ℕ)
    (hne : ds ≠ []) (hd : ∀ b ∈ ds, 48 ≤ b.val ∧ b.val ≤ 57)
    (hv : Nat.ofDigits 10 (ds.reverse.map fun b => b.val - 48) = v) :
    ((v : Int) * 1000000 < 2 ^ 63 →
      parseDurationSpecifier u (ds ++ [105]) = ((v : Int) * 1000000, none)) ∧
    ((v : Int) * 1000000000 < 2 ^ 63 →
      parseDurationSpecifier u (ds ++ [115]) = ((v : Int) * 1000000000, none)) ∧
    ((v : Int) * 60000000000 < 2 ^ 63 →
      parseDurationSpecifier u (ds ++ [109]) = ((v : Int) * 60000000000, none)) ∧
    ((v : Int) * 3600000000000 < 2 ^ 63 →
      parseDurationSpecifier u (ds ++ [104]) = ((v : Int) * 3600000000000, none)) ∧
    ((v : Int) * 1000000000 < 2 ^ 63 →
      parseDurationSpecifier u ds = ((v : Int) * 1000000000, none)) := by
  have hd' : ∀ b ∈ ds, isDigit b = true := fun b hb => isDigit_of_range b (hd b hb)
  have hval : decimalValue ds = v := by rw [decimalValue_eq_ofDigits, hv]
  have hMs : Millisecond = 1000000 := by decide
  have hS : Second = 1000000000 := by decide
  have hM : Minute = 60000000000 := by decide
  have hH : Hour = 3600000000000 := by decide
  subst hval
  refine ⟨fun h => ?_, fun h => ?_, fun h => ?_, fun h => ?_, fun h => ?_⟩
  · rw [← hMs] at h ⊢
    exact parse_digits_unit u ds 105 Millisecond hne hd' (by decide) (by decide) h
      (fun val => by simp)
  · rw [← hS] at h ⊢
    exact parse_digits_unit u ds 115 Second hne hd' (by decide) (by decide) h
      (fun val => by simp)
  · rw [← hM] at h ⊢
    exact parse_digits_unit u ds 109 Minute hne hd' (by decide) (by decide) h
      (fun val => by simp)
  · rw [← hH] at h ⊢
    exact parse_digits_unit u ds 104 Hour hne hd' (by decide) (by decide) h
      (fun val => by simp)
  · rw [← hS] at h ⊢
    have hv0 : (0 : Int) ≤ (decimalValue ds : Int) := Int.natCast_nonneg _
    have hs : (1 : Int) ≤ Second := by decide
    have hvfit : decimalValue ds < 2 ^ 63 := by
      have : (decimalValue ds : Int) < 2 ^ 63 := by nlinarith
      exact_mod_cast this
    obtain ⟨l, c, rfl⟩ : ∃ l c, ds = l ++ [c] := by
      rcases List.eq_nil_or_concat ds with h0 | ⟨l, c, h1⟩
      · exact absurd h0 hne
      · exact ⟨l, c, by rw [h1, List.concat_eq_append]⟩
    unfold parseDurationSpecifier
    rw [normalize_digits u _ hd', parseNormalized_concat_digit l c (hd' c (by simp)),
      Atoi_digits _ hne hd' hvfit]
    simp only
    rw [wrapInt64_of_range _ (by nlinarith) h]

/-- Witness of C7: the string "374" denotes 374 and parses to 374 ms, 374 s,
374 min, 374 h and 374 s with the suffixes `i`, `s`, `m`, `h` and none. -/
theorem parseDurationSpecifier_digits_witness :
    parseDurationSpecifier asciiTables [51, 55, 52, 105] = (374000000, none) ∧
    parseDurationSpecifier asciiTables [51, 55, 52, 115] = (374000000000, none) ∧
    parseDurationSpecifier asciiTables [51, 55, 52, 109] = (22440000000000, none) ∧
    parseDurationSpecifier asciiTables [51, 55, 52, 104] = (1346400000000000, none) ∧
    parseDurationSpecifier asciiTables [51, 55, 52] = (374000000000, none) :=
  have h := parseDurationSpecifier_digits asciiTables [51, 55, 52] 374 (by decide)
    (by decide!) (by decide!)
  ⟨h.1 (by decide!), h.2.1 (by decide!), h.2.2.1 (by decide!), h.2.2.2.1 (by decide!),
    h.2.2.2.2 (by decide!)⟩

/-- C8 as stated fails: "-5s" is not one or more digits optionally followed by
a unit letter, yet it parses, to minus five seconds. -/
theorem parseDurationSpecifier_accepts_sign :
    unsignedSpecifier (ToLower asciiTables (TrimSpace asciiTables minusFiveSeconds)) = false ∧
    parseDurationSpecifier asciiTables minusFiveSeconds = (-5 * Second, none) := by
  decide!

/-- When `strconv.Atoi` succeeds, its argument without its optional sign is a
non-empty string of digits. -/
theorem Atoi_some (x : List Byte) (v : Int) (h : Atoi x = some v) :
    (if x.head? = some 45 ∨ x.head? = some 43 then x.tail else x) ≠ [] ∧
    (if x.head? = some 45 ∨ x.head? = some 43 then x.tail else x).all isDigit = true := by
  unfold Atoi at h
  dsimp only at h
  by_cases h1 : (if x.head? = some 45 ∨ x.head? = some 43 then x.tail else x) = []
  · rw [if_pos h1] at h
    exact absurd h (by simp)
  · rw [if_neg h1] at h
    by_cases h2 : (if x.head? = some 45 ∨ x.head? = some 43 then x.tail else x).all isDigit = true
    · exact ⟨h1, h2⟩
    · rw [if_neg h2] at h
      exact absurd h (by simp)

/-- A non-empty string of digits is an unsigned specifier. -/
theorem unsignedSpecifier_digits (body : List Byte) (hne : body ≠ [])
    (hall : body.all isDigit = true) : unsignedSpecifier body = true := by
  have hlast : ¬ (body.getLast?.map isUnit = some true) := by
    intro h
    rcases Option.map_eq_some'.mp h with ⟨d, hd, hu⟩
    have hmem : d ∈ body := List.mem_of_mem_getLast? hd
    have := isDigit_facts d ((List.all_eq_true.mp hall) d hmem)
    rw [this.2.2.2.2.2] at hu
    exact absurd hu (by decide)
  unfold unsignedSpecifier
  dsimp only
  rw [if_neg hlast, hall]
  cases body with
  | nil => exact absurd rfl hne
  | cons a t => rfl

/-- A non-empty string of digits followed by a unit letter is an unsigned
specifier. -/
theorem unsignedSpecifier_digits_unit (body : List Byte) (c : Byte) (hne : body ≠ [])
    (hall : body.all isDigit = true) (hc : isUnit c = true) :
    unsignedSpecifier (body ++ [c]) = true := by
  unfold unsignedSpecifier
  dsimp only
  rw [List.getLast?_concat, Option.map_some', hc, if_pos rfl, List.dropLast_concat, hall]
  cases body with
  | nil => exact absurd rfl hne
  | cons a t => rfl

/-- Whatever `parseNormalized` does not reject is a signed specifier. -/
theorem parseNormalized_rejects (t : List Byte) (h : signedSpecifier t = false) :
    parseNormalized t = (0, some (Error.invalidDuration t)) := by
  rcases List.eq_nil_or_concat t with h0 | ⟨l, c, h1⟩
  · subst h0
    rfl
  · rw [List.concat_eq_append] at h1
    subst h1
    cases hdig : isDigit c with
    | true =>
      rw [parseNormalized_concat_digit l c hdig]
      cases hA : Atoi (l ++ [c]) with
      | none => rfl
      | some val =>
        exfalso
        have hb := Atoi_some _ _ hA
        have : signedSpecifier (l ++ [c]) = true := by
          unfold signedSpecifier
          exact unsignedSpecifier_digits _ hb.1 hb.2
        rw [this] at h
        exact absurd h (by decide)
    | false =>
      rw [parseNormalized_concat l c hdig]
      cases hA : Atoi l with
      | none => rfl
      | some val =>
        dsimp only
        cases hu : isUnit c with
        | true =>
          exfalso
          have hb := Atoi_some _ _ hA
          obtain ⟨a, l', rfl⟩ : ∃ a l', l = a :: l' := by
            cases l with
            | nil => exact absurd hb.1 (by simp)
            | cons a l' => exact ⟨a, l', rfl⟩
          have hstrip : (if ((a :: l') ++ [c]).head? = some 45 ∨ ((a :: l') ++ [c]).head? = some 43
              then ((a :: l') ++ [c]).tail else (a :: l') ++ [c])
              = (if (a :: l').head? = some 45 ∨ (a :: l').head? = some 43
                then (a :: l').tail else a :: l') ++ [c] := by
            simp only [List.cons_append, List.head?_cons, List.tail_cons]
            split <;> rfl
          have : signedSpecifier ((a :: l') ++ [c]) = true := by
            unfold signedSpecifier
            rw [hstrip]
            exact unsignedSpecifier_digits_unit _ c hb.1 hb.2 hu
          rw [this] at h
          exact absurd h (by decide)
        | false =>
          have hc : c ≠ 105 ∧ c ≠ 115 ∧ c ≠ 109 ∧ c ≠ 104 := by
            unfold isUnit at hu
            simp only [Bool.or_eq_false_iff, decide_eq_false_iff_not] at hu
            exact ⟨hu.1.1.1, hu.1.1.2, hu.1.2, hu.2⟩
          rw [if_neg hc.1, if_neg hc.2.1, if_neg hc.2.2.1, if_neg hc.2.2.2]

/-- C8, amended: `parseDurationSpecifier` returns a parse error and the
duration `0` for the empty string and for every string that, after trimming
and lower-casing, is not an optional sign `+` or `-`, then one or more decimal
digits, then optionally exactly one of the unit letters `i`, `s`, `m`, `h`. -/
theorem parseDurationSpecifier_rejects (u : UnicodeTables) (s : List Byte)
    (h : signedSpecifier (ToLower u (TrimSpace u s)) = false) :
    parseDurationSpecifier u s
      = (0, some (Error.invalidDuration (ToLower u (TrimSpace u s)))) := by
  unfold parseDurationSpecifier
  exact parseNormalized_rejects _ h

/-- Witness of C8 (amended): the string "5x". -/
theorem parseDurationSpecifier_rejects_witness :
    signedSpecifier (ToLower asciiTables (TrimSpace asciiTables fiveX)) = false ∧
    parseDurationSpecifier asciiTables fiveX
      = (0, some (Error.invalidDuration (ToLower asciiTables (TrimSpace asciiTables fiveX)))) :=
  ⟨by decide!, parseDurationSpecifier_rejects asciiTables fiveX (by decide!)⟩

/-- The empty string is rejected. -/
theorem parseDurationSpecifier_empty (u : UnicodeTables) :
    parseDurationSpecifier u [] = (0, some (Error.invalidDuration [])) := by
  have h1 : TrimSpace u [] = [] := TrimSpace_of_clean u [] (by simp) (by simp) (by simp)
  have h2 : ToLower u [] = [] := ToLower_of_clean u [] (by simp) (by simp)
  unfold parseDurationSpecifier
  rw [h1, h2]
  rfl

/-! ## Identical images, transparent references, and the score formula -/

/-- Running `Compare` on two images with equal readings at every scanned position,
the reference alpha within 16 bits: no error, no differing pixel, and the
score computed from a zero sum. -/
theorem Compare_identical_core (env : Env) (c : Config) (r : Result) (bimg rimg : Image)
    (hv : c.Valid = none) (hW : c.BaseImg.Width = c.RefImg.Width)
    (hH : c.BaseImg.Height = c.RefImg.Height) (hT : c.Timeout = 0)
    (hb : c.BaseImg.Image = some bimg) (hr : c.RefImg.Image = some rimg)
    (hsame : ∀ x y : Int, c.Scanned x y → baseReading c bimg x y = refReading c rimg x y)
    (hα : ∀ x y : Int, c.Scanned x y → (refReading c rimg x y).a.toNat ≤ 65535) :
    Compare env c r = Exec.ret (none,
      Result.mk (c.String env.fmtDuration) env.elapsed 0 false
        (finalScore (F64.fin 0) c.BaseImg.Height c.BaseImg.Width)) := by
  have hw : ∀ x y : Int, c.Scanned x y →
      F64.Within 0 1 (alphaWeight (refReading c rimg x y)) :=
    fun x y h => alphaWeight_within _ (hα x y h)
  obtain ⟨s, hs, hc, hp⟩ := scanLoop_invariant c bimg rimg
    (fun s => s.cumul = F64.fin 0 ∧ s.PixelsDifferent = 0) hb hr hw
    { cumul := F64.fin 0, PixelsDifferent := 0 } ⟨rfl, rfl⟩
    (fun x y s hsc hs => scanStep_same c bimg rimg x y s (hsame x y hsc) (hw x y hsc) hs)
  rw [Compare_of_scan env c r s hv hW hH hT hs, hc, hp]

/-- Running `Compare` against a reference whose alpha is zero at every scanned
position: no error, and the score computed from a zero sum. -/
theorem Compare_transparent_core (env : Env) (c : Config) (r : Result) (bimg rimg : Image)
    (hv : c.Valid = none) (hW : c.BaseImg.Width = c.RefImg.Width)
    (hH : c.BaseImg.Height = c.RefImg.Height) (hT : c.Timeout = 0)
    (hb : c.BaseImg.Image = some bimg) (hr : c.RefImg.Image = some rimg)
    (ht : ∀ x y : Int, c.Scanned x y → (refReading c rimg x y).a.toNat = 0) :
    ∃ n : Nat, Compare env c r = Exec.ret (none,
      Result.mk (c.String env.fmtDuration) env.elapsed n false
        (finalScore (F64.fin 0) c.BaseImg.Height c.BaseImg.Width)) := by
  have hw : ∀ x y : Int, c.Scanned x y →
      F64.Within 0 1 (alphaWeight (refReading c rimg x y)) :=
    fun x y h => alphaWeight_within _ (by rw [ht x y h]; norm_num)
  obtain ⟨s, hs, hc⟩ := scanLoop_invariant c bimg rimg
    (fun s => s.cumul = F64.fin 0) hb hr hw
    { cumul := F64.fin 0, PixelsDifferent := 0 } rfl
    (fun x y s hsc hs => scanStep_transparent c bimg rimg x y s (ht x y hsc) hs)
  exact ⟨s.PixelsDifferent, by rw [Compare_of_scan env c r s hv hW hH hT hs, hc]⟩

theorem finalScore_huge : finalScore (F64.fin 0) (2 ^ 32) (2 ^ 32) = F64.nan := by
  decide!

/-- A float that compares equal to zero is at most `0.01`. -/
theorem le_hundredth_of_eq_zero (v : F64) (h : F64.eq v (F64.fin 0) = true) :
    F64.le v (F64.ofRat (1 / 100)) = true := by
  have hc : F64.ofRat (1 / 100) = F64.fin (5764607523034235 / 576460752303423488) := by
    decide!
  rw [hc]
  cases v with
  | fin q =>
    have hq : q = 0 := by simpa [F64.eq, F64.toRat] using h
    subst hq
    simp [F64.le, F64.lt, F64.toRat]
  | negZero => simp [F64.le, F64.lt, F64.toRat]
  | inf s => simp [F64.eq] at h
  | nan => simp [F64.eq] at h

/-- C3, amended: for every valid configuration with no timeout whose base and
reference share their geometry and their channel readings at every scanned
position, the reference alpha readings within `0..65535` and the pixel count
`Height × Width`, as the 64-bit `int` the code computes, not zero, `Compare`
returns no error, a score equal to zero (hence at most 0.01) and no differing
pixel, in colour space RGB and in colour space Y'UV alike. -/
theorem Compare_identical (env : Env) (c : Config) (r : Result) (bimg rimg : Image)
    (hv : c.Valid = none) (hW : c.BaseImg.Width = c.RefImg.Width)
    (hH : c.BaseImg.Height = c.RefImg.Height) (hT : c.Timeout = 0)
    (hb : c.BaseImg.Image = some bimg) (hr : c.RefImg.Image = some rimg)
    (hsame : ∀ x y : Int, c.Scanned x y → baseReading c bimg x y = refReading c rimg x y)
    (hα : ∀ x y : Int, c.Scanned x y → (refReading c rimg x y).a.toNat ≤ 65535)
    (hn : wrapInt64 (c.BaseImg.Height * c.BaseImg.Width) ≠ 0) :
    ∃ r' : Result, Compare env c r = Exec.ret (none, r') ∧
      F64.eq r'.Score (F64.fin 0) = true ∧ F64.le r'.Score (F64.ofRat (1 / 100)) = true ∧
      r'.PixelsDifferent = 0 :=
  ⟨_, Compare_identical_core env c r bimg rimg hv hW hH hT hb hr hsame hα,
    finalScore_zero _ _ hn, le_hundredth_of_eq_zero _ (finalScore_zero _ _ hn), rfl⟩

/-- Witness of C3 (amended): two 2×2 images of the same semi-transparent
colour, compared in Y'UV. -/
theorem Compare_identical_witness :
    ∃ r' : Result,
      Compare sampleEnv (uniformConfig "Y'UV" false tinted 2 2 tinted 2 2) staleResult
        = Exec.ret (none, r') ∧
      F64.eq r'.Score (F64.fin 0) = true ∧ F64.le r'.Score (F64.ofRat (1 / 100)) = true ∧
      r'.PixelsDifferent = 0 :=
  Compare_identical sampleEnv (uniformConfig "Y'UV" false tinted 2 2 tinted 2 2) staleResult
    (uniformImage tinted 2 2) (uniformImage tinted 2 2) (by decide) rfl rfl rfl rfl rfl
    (fun _ _ _ => rfl) (fun _ _ _ => (show tinted.a.toNat ≤ 65535 from by decide)) (by decide)

/-- C3 as stated fails: two identical 1×1 images whose alpha reading is 65536
form a valid configuration, and `Compare` panics on it. -/
theorem Compare_identical_panics_on_alpha_overflow :
    (uniformConfig "RGB" false overRangeAlpha 1 1 overRangeAlpha 1 1).Valid = none ∧
    Compare sampleEnv (uniformConfig "RGB" false overRangeAlpha 1 1 overRangeAlpha 1 1)
      staleResult = Exec.panicked := by
  decide!

/-- C4, amended: for every valid configuration with no timeout whose reference
image has alpha zero at every scanned position, the pixel count
`Height × Width`, as the 64-bit `int` the code computes, not zero, `Compare`
returns no error and a score equal to zero, whatever the base image's pixels
are and in both colour spaces. -/
theorem Compare_transparent_reference (env : Env) (c : Config) (r : Result)
    (bimg rimg : Image)
    (hv : c.Valid = none) (hW : c.BaseImg.Width = c.RefImg.Width)
    (hH : c.BaseImg.Height = c.RefImg.Height) (hT : c.Timeout = 0)
    (hb : c.BaseImg.Image = some bimg) (hr : c.RefImg.Image = some rimg)
    (ht : ∀ x y : Int, c.Scanned x y → (refReading c rimg x y).a.toNat = 0)
    (hn : wrapInt64 (c.BaseImg.Height * c.BaseImg.Width) ≠ 0) :
    ∃ r' : Result, Compare env c r = Exec.ret (none, r') ∧
      F64.eq r'.Score (F64.fin 0) = true := by
  obtain ⟨n, h⟩ := Compare_transparent_core env c r bimg rimg hv hW hH hT hb hr ht
  exact ⟨_, h, finalScore_zero _ _ hn⟩

/-- Witness of C4 (amended): an opaque white 3×2 base against a fully
transparent reference, in RGB. -/
theorem Compare_transparent_reference_witness :
    ∃ r' : Result,
      Compare sampleEnv (uniformConfig "RGB" false white 3 2 transparent 3 2) staleResult
        = Exec.ret (none, r') ∧
      F64.eq r'.Score (F64.fin 0) = true :=
  Compare_transparent_reference sampleEnv (uniformConfig "RGB" false white 3 2 transparent 3 2)
    staleResult (uniformImage white 3 2) (uniformImage transparent 3 2) (by decide) rfl rfl rfl
    rfl rfl (fun _ _ _ => (show transparent.a.toNat = 0 from by decide)) (by decide)

/-- C4 as stated fails: with a fully transparent reference of `2^32 × 2^32`
pixels the configuration is valid, the pixel count wraps to zero, and the
score `Compare` stores is `0/0`, a NaN, which is not equal to zero. -/
theorem Compare_transparent_reference_nan :
    (hugeConfig "RGB" white transparent).Valid = none ∧
    ∃ r' : Result,
      Compare sampleEnv (hugeConfig "RGB" white transparent) staleResult
        = Exec.ret (none, r') ∧
      r'.Score = F64.nan ∧ F64.eq r'.Score (F64.fin 0) = false := by
  have hv : (hugeConfig "RGB" white transparent).Valid = none := by decide
  refine ⟨hv, ?_⟩
  obtain ⟨n, h⟩ := Compare_transparent_core sampleEnv (hugeConfig "RGB" white transparent)
    staleResult (uniformImage white (2 ^ 32) (2 ^ 32)) (uniformImage transparent (2 ^ 32) (2 ^ 32))
    hv rfl rfl rfl rfl rfl (fun _ _ _ => (show transparent.a.toNat = 0 from by decide))
  refine ⟨_, h, ?_, ?_⟩
  · exact finalScore_huge
  · show F64.eq (finalScore (F64.fin 0) (2 ^ 32) (2 ^ 32)) (F64.fin 0) = false
    rw [finalScore_huge]
    rfl

/-- Nothing is summed when the height or the width is not positive. -/
theorem weightedSum_of_nonpos (c : Config) (bimg rimg : Image)
    (h : c.BaseImg.Height ≤ 0 ∨ c.BaseImg.Width ≤ 0) : weightedSum c bimg rimg = F64.fin 0 := by
  unfold weightedSum
  rcases h with h | h
  · rw [Int.toNat_of_nonpos h]
    rfl
  · rw [Int.toNat_of_nonpos h]
    simp only [List.range_zero, List.foldl_nil]
    generalize List.range c.BaseImg.Height.toNat = l
    induction l with
    | nil => rfl
    | cons a t ih => simp [ih]

/-- Running `Compare` on a valid configuration with no timeout whose scanned reference
readings have alpha within `0..65535`: no panic, no error, and the score is
the one computed from the specification's sum, a finite float in `[0, 2^100]`. -/
theorem Compare_score_core (env : Env) (c : Config) (r : Result) (bimg rimg : Image)
    (hv : c.Valid = none) (hW : c.BaseImg.Width = c.RefImg.Width)
    (hH : c.BaseImg.Height = c.RefImg.Height) (hT : c.Timeout = 0)
    (hb : c.BaseImg.Image = some bimg) (hr : c.RefImg.Image = some rimg)
    (hα : ∀ x y : Int, c.Scanned x y → (refReading c rimg x y).a.toNat ≤ 65535) :
    F64.Within 0 ((2 : ℚ) ^ (100 : ℤ)) (weightedSum c bimg rimg) ∧
    ∃ n : Nat, Compare env c r = Exec.ret (none,
      Result.mk (c.String env.fmtDuration) env.elapsed n false
        (finalScore (weightedSum c bimg rimg) c.BaseImg.Height c.BaseImg.Width)) := by
  have hw : ∀ x y : Int, c.Scanned x y →
      F64.Within 0 1 (alphaWeight (refReading c rimg x y)) :=
    fun x y h => alphaWeight_within _ (hα x y h)
  obtain ⟨s, hs, hc, hwithin⟩ := scanLoop_spec c bimg rimg hb hr hw
  rw [hc] at hwithin
  exact ⟨hwithin, s.PixelsDifferent, by rw [Compare_of_scan env c r s hv hW hH hT hs, hc]⟩

/-- C6, amended: for every configuration accepted by `Valid` with equal
base/reference dimensions and no timeout, channel readings all in `0..65535`
and a pixel count `Height × Width` that fits a 64-bit `int`, `Compare`
completes without panic or error, the score it stores is
`min(1.0, sum / (Height × Width) × 1.25)` for the alpha-weighted distance sum,
and `0 ≤ Score ≤ 1`. -/
theorem Compare_score_formula (env : Env) (c : Config) (r : Result) (bimg rimg : Image)
    (hv : c.Valid = none) (hW : c.BaseImg.Width = c.RefImg.Width)
    (hH : c.BaseImg.Height = c.RefImg.Height) (hT : c.Timeout = 0)
    (hb : c.BaseImg.Image = some bimg) (hr : c.RefImg.Image = some rimg)
    (hrange : ∀ x y : Int, c.Scanned x y →
      (baseReading c bimg x y).InRange ∧ (refReading c rimg x y).InRange)
    (hfit : -(2 ^ 63) ≤ c.BaseImg.Height * c.BaseImg.Width ∧
      c.BaseImg.Height * c.BaseImg.Width < 2 ^ 63) :
    ∃ r' : Result, Compare env c r = Exec.ret (none, r') ∧
      r'.Score = specScore c bimg rimg ∧
      F64.le (F64.fin 0) r'.Score = true ∧ F64.le r'.Score (F64.fin 1) = true := by
  obtain ⟨hsum, n, hcmp⟩ := Compare_score_core env c r bimg rimg hv hW hH hT hb hr
    (fun x y h => (hrange x y h).2.2.2.2)
  have hwrap : wrapInt64 (c.BaseImg.Height * c.BaseImg.Width)
      = c.BaseImg.Height * c.BaseImg.Width := wrapInt64_of_range _ hfit.1 hfit.2
  obtain ⟨_, bi, ri, hbi, hri, hw0, hh0, _⟩ := Valid_none c hv
  have hn : wrapInt64 (c.BaseImg.Height * c.BaseImg.Width) ≠ 0 := by
    rw [hwrap]
    exact mul_ne_zero hh0 hw0
  have hneg : wrapInt64 (c.BaseImg.Height * c.BaseImg.Width) < 0 →
      (weightedSum c bimg rimg).toRat = 0 := by
    rw [hwrap]
    intro hlt
    have : c.BaseImg.Height ≤ 0 ∨ c.BaseImg.Width ≤ 0 := by
      by_contra hc
      rw [not_or, not_le, not_le] at hc
      have := mul_pos hc.1 hc.2
      omega
    rw [weightedSum_of_nonpos c bimg rimg this]
    rfl
  obtain ⟨b1, b2⟩ := finalScore_bounds _ _ _ hsum hn hneg
  refine ⟨_, hcmp, ?_, b1, b2⟩
  show finalScore (weightedSum c bimg rimg) c.BaseImg.Height c.BaseImg.Width
    = specScore c bimg rimg
  unfold finalScore specScore
  rw [hwrap]
  rfl

/-- Witness of C6 (amended): an opaque black 3×2 base against an opaque white
reference, in RGB. -/
theorem Compare_score_formula_witness :
    ∃ r' : Result,
      Compare sampleEnv (uniformConfig "RGB" false black 3 2 white 3 2) staleResult
        = Exec.ret (none, r') ∧
      r'.Score = specScore (uniformConfig "RGB" false black 3 2 white 3 2)
        (uniformImage black 3 2) (uniformImage white 3 2) ∧
      F64.le (F64.fin 0) r'.Score = true ∧ F64.le r'.Score (F64.fin 1) = true :=
  Compare_score_formula sampleEnv (uniformConfig "RGB" false black 3 2 white 3 2) staleResult
    (uniformImage black 3 2) (uniformImage white 3 2) (by decide) rfl rfl rfl rfl rfl
    (fun _ _ _ => (show black.InRange ∧ white.InRange from by decide))
    (by decide)

/-- C6 as stated fails: two identical opaque black images of `2^32 × 2^32`
pixels, all readings within 16 bits, form a valid configuration whose pixel
count wraps to zero; the score `Compare` stores is `0/0`, a NaN, which is not
at least zero. -/
theorem Compare_score_nan :
    (hugeConfig "RGB" black black).Valid = none ∧ black.InRange ∧
    ∃ r' : Result,
      Compare sampleEnv (hugeConfig "RGB" black black) staleResult = Exec.ret (none, r') ∧
      r'.Score = F64.nan ∧ F64.le (F64.fin 0) r'.Score = false := by
  have hv : (hugeConfig "RGB" black black).Valid = none := by decide
  have hc := Compare_identical_core sampleEnv (hugeConfig "RGB" black black) staleResult
    (uniformImage black (2 ^ 32) (2 ^ 32)) (uniformImage black (2 ^ 32) (2 ^ 32))
    hv rfl rfl rfl rfl rfl (fun _ _ _ => rfl)
    (fun _ _ _ => (show black.a.toNat ≤ 65535 from by decide))
  refine ⟨hv, by decide, _, hc, ?_, ?_⟩
  · exact finalScore_huge
  · show F64.le (F64.fin 0) (finalScore (F64.fin 0) (2 ^ 32) (2 ^ 32)) = false
    rw [finalScore_huge]
    rfl

/-! ## Opaque black against opaque white -/

/-- An indexed version of `forRange_eq_foldl`: the invariant may depend on the
number of passes made so far. -/
theorem forRange_eq_foldl_idx {σ : Type} (P : ℕ → σ → Prop) (f : σ → ℕ → σ) (n : ℕ)
    (body : ℕ → σ → Exec σ) (s : σ) (h0 : P 0 s)
    (hstep : ∀ i s, i < n → P i s → body i s = Exec.ret (f s i) ∧ P (i + 1) (f s i)) :
    forRange n body s = Exec.ret ((List.range n).foldl f s) ∧
      P n ((List.range n).foldl f s) := by
  induction n with
  | zero => exact ⟨rfl, h0⟩
  | succ n ih =>
    obtain ⟨h1, h2⟩ := ih (fun i s hi hs => hstep i s (by omega) hs)
    obtain ⟨h3, h4⟩ := hstep n _ (by omega) h2
    rw [forRange_succ, h1, List.range_succ, List.foldl_append]
    exact ⟨h3, h4⟩

/-- The scanner's loops under an invariant that counts the pixels scanned. -/
theorem scanLoop_counted (c : Config) (bimg rimg : Image) (Q : ℕ → Scan → Prop)
    (hb : c.BaseImg.Image = some bimg) (hr : c.RefImg.Image = some rimg)
    (hw : ∀ x y : Int, c.Scanned x y → F64.Within 0 1 (alphaWeight (refReading c rimg x y)))
    (s0 : Scan) (h0 : Q 0 s0)
    (hQ : ∀ (k : ℕ) (x y : Int) (s : Scan), c.Scanned x y →
      k < c.BaseImg.Height.toNat * c.BaseImg.Width.toNat → Q k s →
      Q (k + 1) (scanStep c bimg rimg y x s)) :
    ∃ s : Scan, scanLoop c 0 c.BaseImg.Height s0 = Exec.ret s ∧
      Q (c.BaseImg.Height.toNat * c.BaseImg.Width.toNat) s := by
  have hrow : ∀ (i : ℕ) (s : Scan), i < c.BaseImg.Height.toNat →
      Q (i * c.BaseImg.Width.toNat) s →
      forRange c.BaseImg.Width.toNat (fun j s => scanPixel c ((0 : Int) + i) j s) s
        = Exec.ret ((List.range c.BaseImg.Width.toNat).foldl
            (fun s (j : ℕ) => scanStep c bimg rimg i j s) s) ∧
      Q ((i + 1) * c.BaseImg.Width.toNat) ((List.range c.BaseImg.Width.toNat).foldl
            (fun s (j : ℕ) => scanStep c bimg rimg i j s) s) := by
    intro i s hi hs
    have hcount : (i + 1) * c.BaseImg.Width.toNat
        = i * c.BaseImg.Width.toNat + c.BaseImg.Width.toNat := by ring
    rw [hcount]
    refine forRange_eq_foldl_idx (fun j s => Q (i * c.BaseImg.Width.toNat + j) s)
      (fun s (j : ℕ) => scanStep c bimg rimg i j s) _ _ s hs ?_
    intro j s' hj hs'
    have hsc : c.Scanned j i := ⟨by omega, by omega, by omega, by omega⟩
    rw [zero_add]
    refine ⟨scanPixel_eq c bimg rimg i j s' hb hr (hw j i hsc), ?_⟩
    have hk : i * c.BaseImg.Width.toNat + j
        < c.BaseImg.Height.toNat * c.BaseImg.Width.toNat := by
      calc i * c.BaseImg.Width.toNat + j < i * c.BaseImg.Width.toNat + c.BaseImg.Width.toNat := by
            omega
        _ = (i + 1) * c.BaseImg.Width.toNat := by ring
        _ ≤ c.BaseImg.Height.toNat * c.BaseImg.Width.toNat :=
            Nat.mul_le_mul_right _ (by omega)
    exact hQ _ j i s' hsc hk hs'
  obtain ⟨h1, h2⟩ := forRange_eq_foldl_idx (fun i s => Q (i * c.BaseImg.Width.toNat) s)
    (fun s (i : ℕ) => (List.range c.BaseImg.Width.toNat).foldl
      (fun s (j : ℕ) => scanStep c bimg rimg i j s) s)
    c.BaseImg.Height.toNat
    (fun i s => forRange c.BaseImg.Width.toNat (fun j s => scanPixel c ((0 : Int) + i) j s) s)
    s0 (by simpa using h0) hrow
  refine ⟨_, ?_, h2⟩
  unfold scanLoop
  rw [sub_zero]
  exact h1

/-- The weighted distance between an opaque black and an opaque white reading
in RGB is the float of value `blackWhiteDistance`. -/
theorem weightedDistance_black_white :
    F64.mul (pixelDistance "RGB" black white) (alphaWeight white)
      = F64.fin blackWhiteDistance := by
  decide!

theorem blackWhiteDistance_bounds :
    (3 : ℚ) / 4 - 1 / 1000 ≤ blackWhiteDistance - 1 / 4 ∧ blackWhiteDistance + 1 / 4 ≤ 5 / 4 ∧
      0 < blackWhiteDistance := by
  unfold blackWhiteDistance
  norm_num

/-- Below `2^52` a sum is rounded by at most a quarter. -/
theorem roundMag_near (x : ℚ) (h0 : 0 < x) (h1 : x < (2 : ℚ) ^ (52 : ℤ)) :
    x - 1 / 4 ≤ roundMag x ∧ roundMag x ≤ x + 1 / 4 := by
  have hq : quantum x ≤ -1 := by
    unfold quantum
    have := ilog2_lt_of_lt_pow x 52 h0 h1
    exact max_le (by omega) (by norm_num)
  have herr := roundMag_abs_sub_le x
  have hu : (2 : ℚ) ^ quantum x / 2 ≤ 1 / 4 := by
    have : (2 : ℚ) ^ quantum x ≤ (2 : ℚ) ^ (-1 : ℤ) := two_zpow_mono hq
    have e : (2 : ℚ) ^ (-1 : ℤ) = 1 / 2 := by norm_num
    rw [e] at this
    linarith
  have := abs_le.mp (le_trans herr hu)
  constructor <;> linarith [this.1, this.2]

/-- One more opaque black/white pixel: the running sum grows by the distance,
up to a quarter. -/
theorem add_blackWhite (q : ℚ) (h0 : 0 ≤ q) (h1 : q + 1 < (2 : ℚ) ^ (52 : ℤ)) :
    ∃ q' : ℚ, F64.add (F64.fin q) (F64.fin blackWhiteDistance) = F64.fin q' ∧
      q + blackWhiteDistance - 1 / 4 ≤ q' ∧ q' ≤ q + blackWhiteDistance + 1 / 4 := by
  obtain ⟨b1, b2, b3⟩ := blackWhiteDistance_bounds
  have hx0 : 0 < q + blackWhiteDistance := by linarith
  have hx1 : q + blackWhiteDistance < (2 : ℚ) ^ (52 : ℤ) := by linarith
  obtain ⟨n1, n2⟩ := roundMag_near _ hx0 hx1
  have hbig : |q + blackWhiteDistance| ≤ (2 : ℚ) ^ (1023 : ℤ) := by
    rw [abs_of_pos hx0]
    exact le_trans hx1.le (two_zpow_mono (by norm_num))
  obtain ⟨hf, hv⟩ := F64.round_finite _ hbig
  rw [roundVal_of_nonneg _ hx0.le] at hv
  have hne : (F64.round (q + blackWhiteDistance)).toRat ≠ 0 := by
    rw [hv]; linarith
  refine ⟨roundMag (q + blackWhiteDistance), ?_, n1, n2⟩
  show F64.round (q + blackWhiteDistance) = _
  rw [F64.eq_fin_of_toRat_ne_zero _ hne, hv]

theorem ofRat_nine_tenths :
    F64.ofRat (9 / 10) = F64.fin (8106479329266893 / 9007199254740992) := by
  decide!

theorem roundVal_47_64 : roundVal (47 / 64) = 47 / 64 := by decide!

theorem roundVal_235_256 : roundVal (235 / 256) = 235 / 256 := by decide!

theorem roundVal_5_8 : roundVal (5 / 8) = 5 / 8 := by decide!

/-- Capping at `1.0` keeps a float above any bound that is at most 1. -/
theorem clamp_ge (y t : ℚ) (ht1 : t ≤ 1) (hty : t ≤ y) :
    F64.le (F64.fin t) (if F64.gt (F64.fin y) (F64.fin 1) then F64.fin 1 else F64.fin y)
      = true := by
  by_cases hgt : (1 : ℚ) < y
  · simp only [F64.gt, F64.lt, F64.toRat, hgt, decide_True, if_true, F64.le, F64.eq,
      Bool.or_eq_true, decide_eq_true_eq]
    exact le_iff_lt_or_eq.mp ht1
  · simp only [F64.gt, F64.lt, F64.toRat, hgt, decide_False, Bool.false_eq_true, if_false,
      F64.le, F64.eq, Bool.or_eq_true, decide_eq_true_eq]
    exact le_iff_lt_or_eq.mp hty

/-- The score is at least `0.9` when the running sum is at least `0.749` per
pixel (and at most `1.25`), for up to `2^51` pixels. -/
theorem finalScore_ge (q : ℚ) (h w : Int) (n : ℕ) (hn : h * w = (n : Int)) (hn0 : 0 < n)
    (hn1 : n ≤ 2 ^ 51) (hq1 : ((3 : ℚ) / 4 - 1 / 1000) * n ≤ q) (hq2 : q ≤ 5 / 4 * n) :
    F64.le (F64.ofRat (9 / 10)) (finalScore (F64.fin q) h w) = true := by
  have hnq : (0 : ℚ) < (n : ℚ) := by exact_mod_cast hn0
  have hwrap : wrapInt64 (h * w) = (n : Int) := by
    rw [hn]
    apply wrapInt64_of_range <;> omega
  have hof : F64.ofInt (wrapInt64 (h * w)) = F64.fin (n : ℚ) := by
    rw [hwrap]; exact F64.ofInt_natCast n (by omega)
  have hdiv1 : (47 : ℚ) / 64 ≤ q / n := by
    rw [le_div_iff₀ hnq]; nlinarith
  have hdiv2 : q / n ≤ (2 : ℚ) ^ (1 : ℤ) := by
    rw [div_le_iff₀ hnq]; norm_num; nlinarith
  have W1 : F64.Within (47 / 64) ((2 : ℚ) ^ (1 : ℤ)) (F64.div (F64.fin q) (F64.fin (n : ℚ))) :=
    F64.div_within rfl rfl hnq.ne' roundVal_47_64 (roundVal_two_zpow _ (by norm_num))
      (by have := two_zpow_pos 1023; linarith) (two_zpow_le_big _ (by norm_num)) hdiv1 hdiv2
  have W2 : F64.Within (235 / 256) ((2 : ℚ) ^ (2 : ℤ))
      (F64.mul (F64.div (F64.fin q) (F64.fin (n : ℚ))) (F64.fin (5 / 4))) := by
    refine F64.mul_within W1.1 rfl roundVal_235_256 (roundVal_two_zpow _ (by norm_num))
      (by have := two_zpow_pos 1023; linarith) (two_zpow_le_big _ (by norm_num)) ?_ ?_
    · show (235 : ℚ) / 256 ≤ (F64.div (F64.fin q) (F64.fin (n : ℚ))).toRat * (5 / 4)
      have := W1.2.1
      linarith
    · show (F64.div (F64.fin q) (F64.fin (n : ℚ))).toRat * (5 / 4) ≤ (2 : ℚ) ^ (2 : ℤ)
      have := W1.2.2
      norm_num at this ⊢
      linarith
  obtain ⟨y, hy, hlo⟩ : ∃ y : ℚ,
      F64.mul (F64.div (F64.fin q) (F64.fin (n : ℚ))) (F64.fin (5 / 4)) = F64.fin y ∧
      235 / 256 ≤ y := ⟨_, F64.eq_fin_of_within_pos W2 (by norm_num), W2.2.1⟩
  unfold finalScore
  dsimp only
  rw [hof, ofRat_nine_tenths, hy]
  exact clamp_ge y _ (by norm_num) (le_trans (by norm_num) hlo)

/-- C5, amended: for every valid configuration in colour space RGB with no
timeout whose base image reads opaque pure black `(0, 0, 0, 65535)` and whose
reference of the same dimensions reads opaque pure white
`(65535, 65535, 65535, 65535)` at every scanned position, the width and the
height positive and the pixel count `Height × Width` at most `2^51`, `Compare`
returns no error and a score of at least `0.9`. -/
theorem Compare_black_white (env : Env) (c : Config) (r : Result) (bimg rimg : Image)
    (hv : c.Valid = none) (hcs : c.ColorSpace = "RGB")
    (hW : c.BaseImg.Width = c.RefImg.Width)
    (hH : c.BaseImg.Height = c.RefImg.Height) (hT : c.Timeout = 0)
    (hb : c.BaseImg.Image = some bimg) (hr : c.RefImg.Image = some rimg)
    (hblack : ∀ x y : Int, c.Scanned x y → baseReading c bimg x y = black)
    (hwhite : ∀ x y : Int, c.Scanned x y → refReading c rimg x y = white)
    (hpos : 0 < c.BaseImg.Width ∧ 0 < c.BaseImg.Height)
    (hsize : c.BaseImg.Height * c.BaseImg.Width ≤ 2 ^ 51) :
    ∃ r' : Result, Compare env c r = Exec.ret (none, r') ∧
      F64.le (F64.ofRat (9 / 10)) r'.Score = true := by
  obtain ⟨b1, b2, b3⟩ := blackWhiteDistance_bounds
  have hw : ∀ x y : Int, c.Scanned x y →
      F64.Within 0 1 (alphaWeight (refReading c rimg x y)) :=
    fun x y h => alphaWeight_within _ (by rw [hwhite x y h]; decide)
  set n : ℕ := c.BaseImg.Height.toNat * c.BaseImg.Width.toNat with hn
  have hnZ : c.BaseImg.Height * c.BaseImg.Width = (n : Int) := by
    rw [hn]
    push_cast
    rw [Int.toNat_of_nonneg hpos.2.le, Int.toNat_of_nonneg hpos.1.le]
  have hn1 : n ≤ 2 ^ 51 := by
    have : (n : Int) ≤ 2 ^ 51 := by rw [← hnZ]; exact hsize
    exact_mod_cast this
  have hn0 : 0 < n := by
    have : (0 : Int) < (n : Int) := by rw [← hnZ]; exact mul_pos hpos.2 hpos.1
    exact_mod_cast this
  obtain ⟨s, hs, q, hq, hq1, hq2⟩ := scanLoop_counted c bimg rimg
    (fun k s => ∃ q : ℚ, s.cumul = F64.fin q ∧ ((3 : ℚ) / 4 - 1 / 1000) * k ≤ q ∧ q ≤ 5 / 4 * k)
    hb hr hw { cumul := F64.fin 0, PixelsDifferent := 0 }
    ⟨0, rfl, by norm_num, by norm_num⟩
    (by
      intro k x y s hsc hk ⟨q, hq, hq1, hq2⟩
      have hkq : (k : ℚ) + 1 ≤ (2 : ℚ) ^ (51 : ℤ) := by
        have h1 : k + 1 ≤ 2 ^ 51 := by omega
        have h2 : ((k + 1 : ℕ) : ℚ) ≤ ((2 ^ 51 : ℕ) : ℚ) := by exact_mod_cast h1
        calc (k : ℚ) + 1 = ((k + 1 : ℕ) : ℚ) := by push_cast; ring
          _ ≤ ((2 ^ 51 : ℕ) : ℚ) := h2
          _ = (2 : ℚ) ^ (51 : ℤ) := by norm_num
      have hk0 : (0 : ℚ) ≤ (k : ℚ) := Nat.cast_nonneg k
      have h52 : (2 : ℚ) ^ (52 : ℤ) = (2 : ℚ) ^ (51 : ℤ) + (2 : ℚ) ^ (51 : ℤ) := two_zpow_succ 51
      obtain ⟨q', ha, l1, l2⟩ := add_blackWhite q (by nlinarith) (by rw [h52]; nlinarith)
      refine ⟨q', ?_, ?_, ?_⟩
      · show F64.add s.cumul (weightedDistance c bimg rimg x y) = F64.fin q'
        unfold weightedDistance
        rw [hq, hblack x y hsc, hwhite x y hsc, hcs, weightedDistance_black_white, ha]
      · push_cast; nlinarith
      · push_cast; nlinarith)
  refine ⟨_, Compare_of_scan env c r s hv hW hH hT hs, ?_⟩
  show F64.le (F64.ofRat (9 / 10)) (finalScore s.cumul c.BaseImg.Height c.BaseImg.Width) = true
  rw [hq]
  exact finalScore_ge q _ _ n hnZ hn0 hn1 hq1 hq2

/-- Witness of C5 (amended): an opaque black 3×2 base against an opaque white
reference. -/
theorem Compare_black_white_witness :
    ∃ r' : Result,
      Compare sampleEnv (uniformConfig "RGB" false black 3 2 white 3 2) staleResult
        = Exec.ret (none, r') ∧
      F64.le (F64.ofRat (9 / 10)) r'.Score = true :=
  Compare_black_white sampleEnv (uniformConfig "RGB" false black 3 2 white 3 2) staleResult
    (uniformImage black 3 2) (uniformImage white 3 2) (by decide) rfl rfl rfl rfl rfl rfl
    (fun _ _ _ => rfl) (fun _ _ _ => rfl) (by decide) (by decide)

/-- A running sum capped at `K` stays capped when a term of at most `T` is
rounded away at `K`. -/
theorem add_stall_gen {a t : F64} {K T : ℚ} (hK : roundVal (K + T) = K)
    (hbig : K + T ≤ (2 : ℚ) ^ (1023 : ℤ)) (hTK : T ≤ K)
    (ha : F64.Within 0 K a) (ht : F64.Within 0 T t) : F64.Within 0 K (F64.add a t) := by
  obtain ⟨fa, a0, a1⟩ := ha
  obtain ⟨ft, t0, t1⟩ := ht
  cases a with
  | fin p =>
    cases t with
    | fin q =>
      simp only [F64.toRat] at a0 a1 t0 t1
      have hsum : |p + q| ≤ (2 : ℚ) ^ (1023 : ℤ) := by
        rw [abs_of_nonneg (by linarith)]
        linarith
      obtain ⟨hf, hv⟩ := F64.round_finite (p + q) hsum
      refine ⟨hf, ?_, ?_⟩
      · show 0 ≤ (F64.round (p + q)).toRat
        rw [hv]; exact roundVal_nonneg _ (by linarith)
      · show (F64.round (p + q)).toRat ≤ _
        rw [hv, ← hK]
        exact roundVal_mono _ _ (by linarith)
    | negZero => exact ⟨rfl, a0, a1⟩
    | inf s => exact absurd ft Bool.false_ne_true
    | nan => exact absurd ft Bool.false_ne_true
  | negZero =>
    cases t with
    | fin q =>
      simp only [F64.toRat] at t0 t1
      exact ⟨rfl, t0, le_trans t1 hTK⟩
    | negZero =>
      simp only [F64.toRat] at t0 t1
      exact ⟨rfl, le_refl _, le_trans t1 hTK⟩
    | inf s => exact absurd ft Bool.false_ne_true
    | nan => exact absurd ft Bool.false_ne_true
  | inf s => exact absurd fa Bool.false_ne_true
  | nan => exact absurd fa Bool.false_ne_true

theorem roundVal_stall_53 :
    roundVal ((2 : ℚ) ^ (53 : ℤ) + blackWhiteDistance) = (2 : ℚ) ^ (53 : ℤ) := by
  decide!

theorem ofInt_stall :
    F64.ofInt (wrapInt64 (2 ^ 26 * (3 * 2 ^ 26))) = F64.fin (3 * (2 : ℚ) ^ (52 : ℤ)) := by
  decide!

theorem roundVal_11_16 : roundVal (11 / 16) = 11 / 16 := by decide!

theorem roundVal_55_64 : roundVal (55 / 64) = 55 / 64 := by decide!

/-- Capping at `1.0` keeps a float below any bound that it is below. -/
theorem clamp_lt (v : F64) (B t : ℚ) (hv : F64.Within 0 B v) (hB1 : B ≤ 1) (hBt : B < t) :
    F64.le (F64.fin t) (if F64.gt v (F64.fin 1) then F64.fin 1 else v) = false := by
  obtain ⟨fv, v0, v1⟩ := hv
  have h10 : ¬ ((1 : ℚ) < 0) := by norm_num
  cases v with
  | fin q =>
    simp only [F64.toRat] at v0 v1
    have hgt : ¬ ((1 : ℚ) < q) := by linarith
    have h1 : ¬ (t < q) := by linarith
    have h2 : ¬ (t = q) := by intro h; linarith
    simp [F64.gt, F64.lt, F64.le, F64.eq, F64.toRat, hgt, h1, h2]
  | negZero =>
    simp only [F64.toRat] at v0 v1
    have h1 : ¬ (t < 0) := by linarith
    have h2 : ¬ (t = 0) := by intro h; linarith
    simp [F64.gt, F64.lt, F64.le, F64.eq, F64.toRat, h10, h1, h2]
  | inf s => exact absurd fv Bool.false_ne_true
  | nan => exact absurd fv Bool.false_ne_true

/-- C5 as stated fails: for an opaque black base against an opaque white
reference of `3·2^26 × 2^26` pixels the running sum of float64 additions cannot
pass `2^53`, where adding a distance below 1 is rounded away, so the score is
at most `2^53 / (3·2^52) × 1.25 < 0.86`, below `0.9`. -/
theorem Compare_black_white_stalls :
    stallConfig.Valid = none ∧
    ∃ r' : Result, Compare sampleEnv stallConfig staleResult = Exec.ret (none, r') ∧
      F64.le (F64.ofRat (9 / 10)) r'.Score = false := by
  have hv : stallConfig.Valid = none := by decide
  refine ⟨hv, ?_⟩
  obtain ⟨b1, b2, b3⟩ := blackWhiteDistance_bounds
  have hw : ∀ x y : Int, stallConfig.Scanned x y → F64.Within 0 1
      (alphaWeight (refReading stallConfig (uniformImage white (3 * 2 ^ 26) (2 ^ 26)) x y)) :=
    fun x y h => alphaWeight_within _ (show white.a.toNat ≤ 65535 from by decide)
  have hT : F64.Within 0 blackWhiteDistance (F64.fin blackWhiteDistance) :=
    ⟨rfl, b3.le, le_refl _⟩
  have h53 : (2 : ℚ) ^ (53 : ℤ) + blackWhiteDistance ≤ (2 : ℚ) ^ (1023 : ℤ) := by
    have e : (2 : ℚ) ^ (54 : ℤ) = (2 : ℚ) ^ (53 : ℤ) + (2 : ℚ) ^ (53 : ℤ) := two_zpow_succ 53
    have : (2 : ℚ) ^ (54 : ℤ) ≤ (2 : ℚ) ^ (1023 : ℤ) := two_zpow_mono (by norm_num)
    have : (1 : ℚ) ≤ (2 : ℚ) ^ (53 : ℤ) := by
      have := two_zpow_mono (show (0 : ℤ) ≤ 53 by norm_num)
      simpa using this
    linarith
  have hTK : blackWhiteDistance ≤ (2 : ℚ) ^ (53 : ℤ) := by
    have : (1 : ℚ) ≤ (2 : ℚ) ^ (53 : ℤ) := by
      have := two_zpow_mono (show (0 : ℤ) ≤ 53 by norm_num)
      simpa using this
    linarith
  obtain ⟨s, hs, hc⟩ := scanLoop_invariant stallConfig (uniformImage black (3 * 2 ^ 26) (2 ^ 26))
    (uniformImage white (3 * 2 ^ 26) (2 ^ 26))
    (fun s => F64.Within 0 ((2 : ℚ) ^ (53 : ℤ)) s.cumul) rfl rfl hw
    { cumul := F64.fin 0, PixelsDifferent := 0 } ⟨rfl, le_refl _, (two_zpow_pos _).le⟩
    (by
      intro x y s hsc hs
      show F64.Within 0 ((2 : ℚ) ^ (53 : ℤ))
        (F64.add s.cumul (F64.mul (pixelDistance "RGB" black white) (alphaWeight white)))
      rw [weightedDistance_black_white]
      exact add_stall_gen roundVal_stall_53 h53 hTK hs hT)
  refine ⟨_, Compare_of_scan sampleEnv stallConfig staleResult s hv rfl rfl rfl hs, ?_⟩
  show F64.le (F64.ofRat (9 / 10)) (finalScore s.cumul (2 ^ 26) (3 * 2 ^ 26)) = false
  obtain ⟨fc, c0, c1⟩ := hc
  have e53 : (2 : ℚ) ^ (53 : ℤ) = (2 : ℚ) ^ (52 : ℤ) + (2 : ℚ) ^ (52 : ℤ) := two_zpow_succ 52
  have p52 := two_zpow_pos 52
  have big1 : (1 : ℚ) ≤ (2 : ℚ) ^ (1023 : ℤ) := by
    have := two_zpow_le_big 0 (by norm_num)
    simpa using this
  have W1 : F64.Within 0 (11 / 16)
      (F64.div s.cumul (F64.fin (3 * (2 : ℚ) ^ (52 : ℤ)))) := by
    refine F64.div_within fc rfl (by show (3 * (2 : ℚ) ^ (52 : ℤ)) ≠ 0; positivity)
      roundVal_zero roundVal_11_16 neg_big_le_zero (by linarith) ?_ ?_
    · exact div_nonneg c0 (by show (0 : ℚ) ≤ 3 * (2 : ℚ) ^ (52 : ℤ); positivity)
    · show s.cumul.toRat / (3 * (2 : ℚ) ^ (52 : ℤ)) ≤ 11 / 16
      rw [div_le_iff₀ (by positivity)]
      linarith
  have W2 : F64.Within 0 (55 / 64)
      (F64.mul (F64.div s.cumul (F64.fin (3 * (2 : ℚ) ^ (52 : ℤ)))) (F64.fin (5 / 4))) := by
    refine F64.mul_within W1.1 rfl roundVal_zero roundVal_55_64 neg_big_le_zero
      (by linarith) ?_ ?_
    · show 0 ≤ (F64.div s.cumul (F64.fin (3 * (2 : ℚ) ^ (52 : ℤ)))).toRat * (5 / 4)
      exact mul_nonneg W1.2.1 (by norm_num)
    · show (F64.div s.cumul (F64.fin (3 * (2 : ℚ) ^ (52 : ℤ)))).toRat * (5 / 4) ≤ 55 / 64
      have := W1.2.2
      linarith
  unfold finalScore
  dsimp only
  rw [ofInt_stall, ofRat_nine_tenths]
  exact clamp_lt _ _ _ W2 (by norm_num) (by norm_num)

/-! ## The timeout race -/

/-- Running `Compare` on a valid configuration with equal dimensions and a
timeout when the timer's message is received first and the scanning goroutine
has not panicked: the timeout error, the runtime `PreWait + Timeout`, and a
timeout flag that is true unless the scanning goroutine cleared it last. -/
theorem Compare_timer_first (env : Env) (c : Config) (r : Result)
    (hv : c.Valid = none) (hW : c.BaseImg.Width = c.RefImg.Width)
    (hH : c.BaseImg.Height = c.RefImg.Height) (hT : 0 < c.Timeout)
    (hfirst : env.timerFirst = true)
    (hrun : env.scanProgress.pastLoops = true →
      scanLoop c 0 c.BaseImg.Height { cumul := F64.fin 0, PixelsDifferent := 0 }
        ≠ Exec.panicked) :
    ∃ r' : Result, Compare env c r = Exec.ret (some (Error.timeoutExceeded c.Timeout), r') ∧
      r'.Timeout = (!env.scanProgress.timeoutLast) ∧
      r'.Runtime = wrapInt64 (c.PreWait + c.Timeout) := by
  have hdim : ¬ (c.BaseImg.Width ≠ c.RefImg.Width ∨ c.BaseImg.Height ≠ c.RefImg.Height) := by
    rintro (h | h)
    · exact h hW
    · exact h hH
  unfold Compare
  rw [if_neg hdim, hv]
  simp only [gt_iff_lt, hT, if_true, hfirst]
  cases hp : env.scanProgress with
  | notStarted => exact ⟨_, rfl, rfl, rfl⟩
  | inLoops n => exact ⟨_, rfl, rfl, rfl⟩
  | wroteTimeout last =>
    rw [hp] at hrun
    cases hs : scanLoop c 0 c.BaseImg.Height { cumul := F64.fin 0, PixelsDifferent := 0 } with
    | panicked => exact absurd hs (hrun rfl)
    | ret s => exact ⟨_, rfl, rfl, rfl⟩
  | wroteScore last =>
    rw [hp] at hrun
    cases hs : scanLoop c 0 c.BaseImg.Height { cumul := F64.fin 0, PixelsDifferent := 0 } with
    | panicked => exact absurd hs (hrun rfl)
    | ret s => exact ⟨_, rfl, rfl, rfl⟩
  | finished last =>
    rw [hp] at hrun
    cases hs : scanLoop c 0 c.BaseImg.Height { cumul := F64.fin 0, PixelsDifferent := 0 } with
    | panicked => exact absurd hs (hrun rfl)
    | ret s => exact ⟨_, rfl, rfl, rfl⟩

/-- The scan of two opaque black 2×2 images does not panic. -/
theorem scanLoop_timeoutConfig :
    scanLoop timeoutConfig 0 timeoutConfig.BaseImg.Height
      { cumul := F64.fin 0, PixelsDifferent := 0 } ≠ Exec.panicked := by
  decide!

/-- C11 as stated fails: for a valid configuration with a timeout of 50 ms,
the timer's message arriving first, `Compare` returns the error
"timeout 50ms exceeded", not nil. And when the scanning goroutine, which shares
the result, assigns `r.Timeout = false` after the caller's `r.Timeout = true`,
the result `Compare` returns with that error has `Timeout = false`. -/
theorem Compare_timeout_returns_error :
    timeoutConfig.Valid = none ∧ 0 < timeoutConfig.Timeout ∧
    (timerEnv.timerFirst = true ∧
      ∃ r' : Result, Compare timerEnv timeoutConfig staleResult
        = Exec.ret (some (Error.timeoutExceeded 50000000), r') ∧ r'.Timeout = true) ∧
    (raceEnv.timerFirst = true ∧
      ∃ r' : Result, Compare raceEnv timeoutConfig staleResult
        = Exec.ret (some (Error.timeoutExceeded 50000000), r') ∧ r'.Timeout = false) := by
  have hv : timeoutConfig.Valid = none := by decide
  have hT : 0 < timeoutConfig.Timeout := by decide
  obtain ⟨r1, h1, t1, _⟩ := Compare_timer_first timerEnv timeoutConfig staleResult hv rfl rfl hT
    rfl (fun _ => scanLoop_timeoutConfig)
  obtain ⟨r2, h2, t2, _⟩ := Compare_timer_first raceEnv timeoutConfig staleResult hv rfl rfl hT
    rfl (fun _ => scanLoop_timeoutConfig)
  exact ⟨hv, hT, ⟨rfl, r1, h1, t1⟩, ⟨rfl, r2, h2, t2⟩⟩

/-- A panic of the scanning goroutine ends the program also when the timer's
message was received first: with alpha readings of 65536 the first pass of the
loops panics, and `Compare` does not return. -/
theorem Compare_timeout_scan_panic :
    overRangeTimeoutConfig.Valid = none ∧ 0 < overRangeTimeoutConfig.Timeout ∧
    timerEnv.timerFirst = true ∧
    Compare timerEnv overRangeTimeoutConfig staleResult = Exec.panicked := by
  decide!

/-- C11, amended: for every valid configuration with equal dimensions and
`Timeout > 0`, when the timer's message is the first one received and the
scanning goroutine has by then neither panicked nor assigned
`r.Timeout = false` after the caller's `r.Timeout = true`, `Compare` returns
the error "timeout ... exceeded" together with a result whose `Timeout` is true
and whose `Runtime` is `PreWait + Timeout`, the sum being that of two 64-bit
durations. -/
theorem Compare_timeout (env : Env) (c : Config) (r : Result)
    (hv : c.Valid = none) (hW : c.BaseImg.Width = c.RefImg.Width)
    (hH : c.BaseImg.Height = c.RefImg.Height) (hT : 0 < c.Timeout)
    (hfirst : env.timerFirst = true)
    (hrun : env.scanProgress.pastLoops = true →
      scanLoop c 0 c.BaseImg.Height { cumul := F64.fin 0, PixelsDifferent := 0 }
        ≠ Exec.panicked)
    (hlast : env.scanProgress.timeoutLast = false) :
    ∃ r' : Result, Compare env c r = Exec.ret (some (Error.timeoutExceeded c.Timeout), r') ∧
      r'.Timeout = true ∧ r'.Runtime = wrapInt64 (c.PreWait + c.Timeout) ∧
      (-(2 ^ 63) ≤ c.PreWait + c.Timeout ∧ c.PreWait + c.Timeout < 2 ^ 63 →
        r'.Runtime = c.PreWait + c.Timeout) := by
  obtain ⟨r', h, ht, hr⟩ := Compare_timer_first env c r hv hW hH hT hfirst hrun
  refine ⟨r', h, ?_, hr, fun hfit => ?_⟩
  · rw [ht, hlast]
    rfl
  · rw [hr]
    exact wrapInt64_of_range _ hfit.1 hfit.2

/-- Witness of C11 (amended): a timeout of 50 ms after a pre-wait of 20 ms, the
scanning goroutine having finished before the caller sets the flag, gives a
runtime of 70 ms. -/
theorem Compare_timeout_witness :
    ∃ r' : Result, Compare timerEnv timeoutConfig staleResult
        = Exec.ret (some (Error.timeoutExceeded timeoutConfig.Timeout), r') ∧
      r'.Timeout = true ∧
      r'.Runtime = wrapInt64 (timeoutConfig.PreWait + timeoutConfig.Timeout) ∧
      (-(2 ^ 63) ≤ timeoutConfig.PreWait + timeoutConfig.Timeout ∧
        timeoutConfig.PreWait + timeoutConfig.Timeout < 2 ^ 63 →
        r'.Runtime = timeoutConfig.PreWait + timeoutConfig.Timeout) :=
  Compare_timeout timerEnv timeoutConfig staleResult (by decide) rfl rfl (by decide) rfl
    (fun _ => (show scanLoop timeoutConfig 0 timeoutConfig.BaseImg.Height
      { cumul := F64.fin 0, PixelsDifferent := 0 } ≠ Exec.panicked from by decide!)) rfl

/-! ## The admissible-difference allowance -/

/-- C12, evaluated at its failing input: comparing an opaque black pixel with
an opaque white one, one differing pixel being admissible, `Compare` counts one
differing pixel, which is within the allowance, and stores the score `1.0`,
not zero. -/
theorem Compare_ignores_allowance :
    allowanceConfig.Valid = none ∧
    ∃ r' : Result, Compare sampleEnv allowanceConfig staleResult = Exec.ret (none, r') ∧
      r'.PixelsDifferent = 1 ∧ r'.PixelsDifferent ≤ allowanceConfig.AdmissibleDiffPixel ∧
      r'.Score = F64.fin 1 ∧ F64.eq r'.Score (F64.fin 0) = false := by
  have hv : allowanceConfig.Valid = none := by decide
  have hs : scanLoop allowanceConfig 0 allowanceConfig.BaseImg.Height
      { cumul := F64.fin 0, PixelsDifferent := 0 }
      = Exec.ret { cumul := F64.fin blackWhiteDistance, PixelsDifferent := 1 } := by
    decide!
  have hf : finalScore (F64.fin blackWhiteDistance) 1 1 = F64.fin 1 := by decide!
  refine ⟨hv, _, Compare_of_scan sampleEnv allowanceConfig staleResult _ hv rfl rfl rfl hs,
    rfl, by decide, hf, ?_⟩
  show F64.eq (finalScore (F64.fin blackWhiteDistance) 1 1) (F64.fin 0) = false
  rw [hf]
  decide!

/-! ## The base image's alpha -/

/-- Two loops whose bodies agree at every index below the bound agree. -/
theorem forRange_congr {σ : Type} (n : ℕ) (body1 body2 : ℕ → σ → Exec σ) (s : σ)
    (h : ∀ i s, i < n → body1 i s = body2 i s) :
    forRange n body1 s = forRange n body2 s := by
  induction n with
  | zero => rfl
  | succ k ih =>
    rw [forRange_succ, forRange_succ, ih (fun i s hi => h i s (Nat.lt_succ_of_lt hi))]
    cases forRange k body2 s with
    | ret a => exact h k a (Nat.lt_succ_self k)
    | panicked => rfl

/-- The distance of a pixel pair depends on the base reading through its
straight colour only. -/
theorem pixelDistance_congr (colorSpace : String) (p q p2 : RGBA)
    (h : straightColour p = straightColour q) :
    pixelDistance colorSpace p p2 = pixelDistance colorSpace q p2 := by
  unfold straightColour at h
  have h1 := congrArg Prod.fst h
  have h2 := congrArg (fun t => t.2.1) h
  have h3 := congrArg (fun t => t.2.2) h
  dsimp only at h1 h2 h3
  unfold pixelDistance
  dsimp only
  rw [h1, h2, h3]

/-- Replacing the base readings leaves `Config.Valid` as it is. -/
theorem Valid_withBasePixels (c : Config) (pixels : Int → Int → RGBA) :
    (c.withBasePixels pixels).Valid = c.Valid := by
  obtain ⟨cs, t, w, n, d, ⟨bi, bw, bh, bx, bY, bf, bs⟩, ⟨ri, rw_, rh, rx, rY, rf, rs⟩⟩ := c
  cases bi <;> cases ri <;> rfl

/-- Replacing the base readings leaves `Config.String` as it is. -/
theorem String_withBasePixels (c : Config) (pixels : Int → Int → RGBA) (f : Int → String) :
    (c.withBasePixels pixels).String f = c.String f := by
  obtain ⟨cs, t, w, n, d, ⟨bi, bw, bh, bx, bY, bf, bs⟩, ref⟩ := c
  cases bi <;> rfl

/-- Two configurations whose pixel pairs at a position have the same distance
and the same reference reading go through the loop body alike there. -/
theorem scanPixel_congr (c1 c2 : Config) (b1 b2 rimg : Image) (y x : Int) (s : Scan)
    (hb1 : c1.BaseImg.Image = some b1) (hb2 : c2.BaseImg.Image = some b2)
    (hr1 : c1.RefImg.Image = some rimg) (hr2 : c2.RefImg.Image = some rimg)
    (hd : pixelDistance c1.ColorSpace (baseReading c1 b1 x y) (refReading c1 rimg x y)
      = pixelDistance c2.ColorSpace (baseReading c2 b2 x y) (refReading c2 rimg x y))
    (hp : refReading c1 rimg x y = refReading c2 rimg x y) :
    scanPixel c1 y x s = scanPixel c2 y x s := by
  unfold baseReading refReading at hd
  unfold refReading at hp
  unfold scanPixel
  rw [hb1, hb2, hr1, hr2]
  dsimp only
  rw [hd, hp]

/-- One pass of the loop body reads the base image through its straight
colour only. -/
theorem scanPixel_withBasePixels (c : Config) (bimg : Image) (pixels : Int → Int → RGBA)
    (y x : Int) (s : Scan) (hb : c.BaseImg.Image = some bimg)
    (h : straightColour (pixels (readCoord c.BaseImg x y).1 (readCoord c.BaseImg x y).2)
      = straightColour (baseReading c bimg x y)) :
    scanPixel (c.withBasePixels pixels) y x s = scanPixel c y x s := by
  have hb2 : (c.withBasePixels pixels).BaseImg.Image
      = some { Bounds := bimg.Bounds, At := pixels } := by
    show Option.map _ c.BaseImg.Image = _
    rw [hb]
    rfl
  cases hr : c.RefImg.Image with
  | none =>
    have hr2 : (c.withBasePixels pixels).RefImg.Image = none := hr
    unfold scanPixel
    rw [hb, hb2, hr, hr2]
  | some rimg =>
    exact scanPixel_congr _ _ _ _ rimg y x s hb2 hb hr hr
      (pixelDistance_congr c.ColorSpace _ _ _ h) rfl

/-- The scan reads the base image through its straight colour only. -/
theorem scanLoop_withBasePixels (c : Config) (bimg : Image) (pixels : Int → Int → RGBA)
    (s : Scan) (hb : c.BaseImg.Image = some bimg)
    (h : ∀ x y : Int, c.Scanned x y →
      straightColour (pixels (readCoord c.BaseImg x y).1 (readCoord c.BaseImg x y).2)
        = straightColour (baseReading c bimg x y)) :
    scanLoop (c.withBasePixels pixels) 0 c.BaseImg.Height s = scanLoop c 0 c.BaseImg.Height s := by
  unfold scanLoop
  show forRange (c.BaseImg.Height - 0).toNat
      (fun i s => forRange c.BaseImg.Width.toNat
        (fun j s => scanPixel (c.withBasePixels pixels) (0 + (i : Int)) (j : Int) s) s) s = _
  refine forRange_congr _ _ _ _ (fun i s hi => ?_)
  refine forRange_congr _ _ _ _ (fun j s hj => ?_)
  refine scanPixel_withBasePixels c bimg pixels _ _ s hb (h _ _ ?_)
  unfold Config.Scanned
  omega

/-- Replacing the base readings by readings of the same straight colour at
every scanned position leaves the whole outcome of `Compare` as it is. -/
theorem Compare_withBasePixels (env : Env) (c : Config) (r : Result) (bimg : Image)
    (pixels : Int → Int → RGBA) (hb : c.BaseImg.Image = some bimg)
    (h : ∀ x y : Int, c.Scanned x y →
      straightColour (pixels (readCoord c.BaseImg x y).1 (readCoord c.BaseImg x y).2)
        = straightColour (baseReading c bimg x y)) :
    Compare env (c.withBasePixels pixels) r = Compare env c r := by
  have hV := Valid_withBasePixels c pixels
  have hS := String_withBasePixels c pixels env.fmtDuration
  have hW : (c.withBasePixels pixels).BaseImg.Width = c.BaseImg.Width := rfl
  have hH : (c.withBasePixels pixels).BaseImg.Height = c.BaseImg.Height := rfl
  have hR : (c.withBasePixels pixels).RefImg = c.RefImg := rfl
  have hT : (c.withBasePixels pixels).Timeout = c.Timeout := rfl
  have hP : (c.withBasePixels pixels).PreWait = c.PreWait := rfl
  have hN : (c.withBasePixels pixels).NoDimensionError = c.NoDimensionError := rfl
  have hC : ∀ r, compareImages env.fmtDuration (c.withBasePixels pixels) r 0 c.BaseImg.Height
      = compareImages env.fmtDuration c r 0 c.BaseImg.Height := by
    intro r
    unfold compareImages
    rw [scanLoop_withBasePixels c bimg pixels _ hb h, hS, hW]
  have hL : scanLoop (c.withBasePixels pixels) 0 c.BaseImg.Height
      { cumul := F64.fin 0, PixelsDifferent := 0 }
      = scanLoop c 0 c.BaseImg.Height { cumul := F64.fin 0, PixelsDifferent := 0 } :=
    scanLoop_withBasePixels c bimg pixels _ hb h
  unfold Compare
  simp only [hV, hS, hW, hH, hR, hT, hP, hN, hC, hL]

/-- C13 as stated fails: two valid 1×1 configurations in RGB that differ in
nothing but the alpha reading of the base pixel, 65535 in one and 200 in the
other, the red, green and blue readings being 100 in both. Against the
reference reading `(100, 100, 100, 65535)` the first gives no differing pixel
and the score zero, the second one differing pixel and another score. -/
theorem Compare_depends_on_base_alpha :
    greyConfig.Valid = none ∧ (greyConfig.withBasePixels fun _ _ => greyFaint).Valid = none ∧
    greyFaint.r = greySolid.r ∧ greyFaint.g = greySolid.g ∧ greyFaint.b = greySolid.b ∧
    ∃ r1 r2 : Result,
      Compare sampleEnv greyConfig staleResult = Exec.ret (none, r1) ∧
      Compare sampleEnv (greyConfig.withBasePixels fun _ _ => greyFaint) staleResult
        = Exec.ret (none, r2) ∧
      r1.PixelsDifferent = 0 ∧ r2.PixelsDifferent = 1 ∧
      F64.eq r1.Score (F64.fin 0) = true ∧ F64.eq r2.Score r1.Score = false := by
  have hv1 : greyConfig.Valid = none := by decide
  have hv2 : (greyConfig.withBasePixels fun _ _ => greyFaint).Valid = none := by decide
  have hs1 : scanLoop greyConfig 0 greyConfig.BaseImg.Height
      { cumul := F64.fin 0, PixelsDifferent := 0 }
      = Exec.ret { cumul := F64.fin 0, PixelsDifferent := 0 } := by
    decide!
  have hs2 : scanLoop (greyConfig.withBasePixels fun _ _ => greyFaint) 0
      (greyConfig.withBasePixels fun _ _ => greyFaint).BaseImg.Height
      { cumul := F64.fin 0, PixelsDifferent := 0 }
      = Exec.ret (scanStep (greyConfig.withBasePixels fun _ _ => greyFaint)
          (uniformImage greyFaint 1 1) (uniformImage greySolid 1 1) 0 0
          { cumul := F64.fin 0, PixelsDifferent := 0 }) := by
    decide!
  refine ⟨hv1, hv2, rfl, rfl, rfl, _, _,
    Compare_of_scan sampleEnv greyConfig staleResult _ hv1 rfl rfl rfl hs1,
    Compare_of_scan sampleEnv _ staleResult _ hv2 rfl rfl rfl hs2, rfl, ?_, ?_, ?_⟩
  · decide!
  · decide!
  · decide!

/-- C13, amended: the base image's alpha enters the comparison through the
conversion of the base readings to straight colour and through nothing else.
For every configuration and every replacement of the base image's readings
whose straight red, green and blue, as `toNRGBA` gives them, are those of the
original readings at every scanned position, `Compare` yields the same
outcome: the same error, `Score`, `PixelsDifferent` and other fields, or the
same panic. -/
theorem Compare_base_alpha (env : Env) (c : Config) (r : Result) (bimg : Image)
    (pixels : Int → Int → RGBA) (hb : c.BaseImg.Image = some bimg)
    (hsame : ∀ x y : Int, c.Scanned x y →
      straightColour (pixels (readCoord c.BaseImg x y).1 (readCoord c.BaseImg x y).2)
        = straightColour (baseReading c bimg x y)) :
    Compare env (c.withBasePixels pixels) r = Compare env c r :=
  Compare_withBasePixels env c r bimg pixels hb hsame

/-- Witness of C13 (amended): the base readings `(100, 100, 100, 200)` and
`(50, 50, 50, 100)` have the same straight colour. -/
theorem Compare_base_alpha_witness :
    Compare sampleEnv
      ((uniformConfig "RGB" false greyFaint 1 1 greySolid 1 1).withBasePixels
        fun _ _ => greyFainter) staleResult
      = Compare sampleEnv (uniformConfig "RGB" false greyFaint 1 1 greySolid 1 1) staleResult :=
  Compare_base_alpha sampleEnv (uniformConfig "RGB" false greyFaint 1 1 greySolid 1 1)
    staleResult (uniformImage greyFaint 1 1) (fun _ _ => greyFainter) rfl
    (fun _ _ _ => (show straightColour greyFainter = straightColour greyFaint from by decide!))

/-! ## The conversion to straight colour -/

/-- The quotient `float64(n) / float64(a)` of two 32-bit numbers, `a` not
zero, is the exact quotient rounded once. -/
theorem div_uint32 (n a : ℕ) (hn : n < 2 ^ 32) (ha : a < 2 ^ 32) (ha0 : a ≠ 0) :
    F64.div (F64.ofInt (n : ℤ)) (F64.ofInt (a : ℤ)) = F64.round ((n : ℚ) / (a : ℚ)) := by
  rw [F64.ofInt_natCast n (by omega), F64.ofInt_natCast a (by omega)]
  have ha' : ¬ ((a : ℚ) = 0) := by exact_mod_cast ha0
  by_cases h0 : n = 0
  · subst h0
    simp [F64.div, F64.isZero, F64.toRat, F64.isNeg, F64.signedZero, F64.round, ha']
  · have hn' : ¬ ((n : ℚ) = 0) := by exact_mod_cast h0
    simp [F64.div, F64.isZero, F64.toRat, ha', hn']

/-- The product `r * 0xFFFF` of `toNRGBA` does not wrap when `r ≤ 65537`. -/
theorem wrapUint32_channel (r : ℕ) (h : r ≤ 65537) :
    wrapUint32 (r * 65535) = r * 65535 := by
  unfold wrapUint32
  exact Nat.mod_eq_of_lt (by omega)

/-- The result of `toNRGBA` on a reading whose alpha is not zero. -/
theorem toNRGBA_nonzero_alpha (r g b a : UInt32) (h : a.toNat ≠ 0) :
    toNRGBA r g b a =
      (F64.round (((wrapUint32 (r.toNat * 65535) : ℕ) : ℚ) / (a.toNat : ℚ)),
       F64.round (((wrapUint32 (g.toNat * 65535) : ℕ) : ℚ) / (a.toNat : ℚ)),
       F64.round (((wrapUint32 (b.toNat * 65535) : ℕ) : ℚ) / (a.toNat : ℚ)),
       F64.fin (a.toNat : ℚ)) := by
  have hne : ¬ (F64.eq (F64.ofInt (a.toNat : ℤ)) (F64.fin 0) = true) := by
    rw [F64.ofInt_natCast _ (by have := uint32_lt a; omega), eq_fin_zero, decide_eq_false h]
    simp
  unfold toNRGBA
  dsimp only
  rw [if_neg hne]
  rw [← div_uint32 _ _ (wrapUint32_lt (r.toNat * 65535)) (uint32_lt a) h,
    ← div_uint32 _ _ (wrapUint32_lt (g.toNat * 65535)) (uint32_lt a) h,
    ← div_uint32 _ _ (wrapUint32_lt (b.toNat * 65535)) (uint32_lt a) h,
    ← F64.ofInt_natCast a.toNat (by have := uint32_lt a; omega)]

/-- A straight colour channel of a premultiplied reading, `n ≤ a ≤ 65535`,
lies in `[0, 65535]`. -/
theorem channel_premultiplied (n a : ℕ) (hn : n ≤ a) (ha : a ≤ 65535) (ha0 : a ≠ 0) :
    F64.Within 0 65535 (F64.round (((wrapUint32 (n * 65535) : ℕ) : ℚ) / (a : ℚ))) := by
  rw [wrapUint32_channel n (by omega)]
  have hapos : (0 : ℚ) < (a : ℚ) := by
    have : 0 < a := Nat.pos_of_ne_zero ha0
    exact_mod_cast this
  have h65 : roundVal (65535 : ℚ) = 65535 := by
    have := roundVal_natCast 65535 (by norm_num)
    simpa using this
  refine F64.round_within _ 0 65535 roundVal_zero h65 neg_big_le_zero ?_ ?_ ?_
  · calc (65535 : ℚ) ≤ (2 : ℚ) ^ (32 : ℤ) := by norm_num
      _ ≤ (2 : ℚ) ^ (1023 : ℤ) := two_zpow_le_big _ (by norm_num)
  · exact div_nonneg (Nat.cast_nonneg _) hapos.le
  · rw [div_le_iff₀ hapos]
    have : ((n * 65535 : ℕ) : ℚ) ≤ ((65535 * a : ℕ) : ℚ) := by
      exact_mod_cast (by nlinarith : n * 65535 ≤ 65535 * a)
    simpa using this

/-- C14 as stated fails: for the reading `r = 65538`, `a = 1` the 32-bit
product `r * 0xFFFF` wraps to `65534`, and `toNRGBA` returns `65534` for the
red channel, not `65538 · 65535 / 1 = 4295032830`. -/
theorem toNRGBA_wraps :
    (toNRGBA 65538 0 0 1).1 = F64.fin 65534 ∧
    F64.div (F64.ofInt (65538 * 65535)) (F64.ofInt 1) = F64.fin 4295032830 ∧
    (toNRGBA 65538 0 0 1).1 ≠ F64.div (F64.ofInt (65538 * 65535)) (F64.ofInt 1) := by
  decide!

/-- C14, amended: `toNRGBA` never divides by zero. When `a = 0` it returns
exactly `(0, 0, 0, 0)`. When `a > 0` it returns the finite quotients
`(r·65535 mod 2^32) / a`, `(g·65535 mod 2^32) / a`, `(b·65535 mod 2^32) / a`,
each rounded once to binary64, and `a`; the product is `r·65535` itself
whenever `r ≤ 65537`. For a premultiplied reading, `r, g, b ≤ a ≤ 65535`, no
product wraps and each returned colour channel lies in `[0, 65535]`. -/
theorem toNRGBA_spec (r g b a : UInt32) :
    (a.toNat = 0 → toNRGBA r g b a = (F64.fin 0, F64.fin 0, F64.fin 0, F64.fin 0)) ∧
    (0 < a.toNat →
      toNRGBA r g b a =
        (F64.round (((wrapUint32 (r.toNat * 65535) : ℕ) : ℚ) / (a.toNat : ℚ)),
         F64.round (((wrapUint32 (g.toNat * 65535) : ℕ) : ℚ) / (a.toNat : ℚ)),
         F64.round (((wrapUint32 (b.toNat * 65535) : ℕ) : ℚ) / (a.toNat : ℚ)),
         F64.fin (a.toNat : ℚ)) ∧
      (toNRGBA r g b a).1.isFinite = true ∧ (toNRGBA r g b a).2.1.isFinite = true ∧
      (toNRGBA r g b a).2.2.1.isFinite = true) ∧
    (r.toNat ≤ 65537 → wrapUint32 (r.toNat * 65535) = r.toNat * 65535) ∧
    (g.toNat ≤ 65537 → wrapUint32 (g.toNat * 65535) = g.toNat * 65535) ∧
    (b.toNat ≤ 65537 → wrapUint32 (b.toNat * 65535) = b.toNat * 65535) ∧
    (r.toNat ≤ a.toNat → g.toNat ≤ a.toNat → b.toNat ≤ a.toNat → a.toNat ≤ 65535 →
      r.toNat * 65535 < 2 ^ 32 ∧ g.toNat * 65535 < 2 ^ 32 ∧ b.toNat * 65535 < 2 ^ 32 ∧
      F64.Within 0 65535 (toNRGBA r g b a).1 ∧ F64.Within 0 65535 (toNRGBA r g b a).2.1 ∧
      F64.Within 0 65535 (toNRGBA r g b a).2.2.1) := by
  refine ⟨toNRGBA_transparent r g b a, ?_, wrapUint32_channel _, wrapUint32_channel _,
    wrapUint32_channel _, ?_⟩
  · intro h
    have hw := toNRGBA_within r g b a
    exact ⟨toNRGBA_nonzero_alpha r g b a (by omega), hw.1.1, hw.2.1.1, hw.2.2.1⟩
  · intro hr hg hb ha
    refine ⟨by omega, by omega, by omega, ?_⟩
    by_cases h0 : a.toNat = 0
    · rw [toNRGBA_transparent r g b a h0]
      have hz : F64.Within 0 65535 (F64.fin 0) := ⟨rfl, le_refl _, by norm_num [F64.toRat]⟩
      exact ⟨hz, hz, hz⟩
    · rw [toNRGBA_nonzero_alpha r g b a h0]
      exact ⟨channel_premultiplied _ _ hr ha h0, channel_premultiplied _ _ hg ha h0,
        channel_premultiplied _ _ hb ha h0⟩

/-- Witness of C14 (amended): the premultiplied reading `(100, 200, 300, 4000)`. -/
theorem toNRGBA_spec_witness :
    (100 * 65535 < 2 ^ 32 ∧ 200 * 65535 < 2 ^ 32 ∧ 300 * 65535 < 2 ^ 32) ∧
    F64.Within 0 65535 (toNRGBA 100 200 300 4000).1 ∧
    F64.Within 0 65535 (toNRGBA 100 200 300 4000).2.1 ∧
    F64.Within 0 65535 (toNRGBA 100 200 300 4000).2.2.1 ∧
    (toNRGBA 100 200 300 4000).2.2.2 = F64.fin 4000 :=
  have h := toNRGBA_spec 100 200 300 4000
  have hp := h.2.2.2.2.2 (by decide) (by decide) (by decide) (by decide)
  ⟨⟨hp.1, hp.2.1, hp.2.2.1⟩, hp.2.2.2.1, hp.2.2.2.2.1, hp.2.2.2.2.2,
    by rw [(h.2.1 (by decide)).1]; norm_num⟩

/-! ## Reads and the decoded bounds -/

/-- What the bounds checks of `Config.Valid` do ensure: over images whose
bounds start at `(0, 0)`, the sums `MinX + Width` and `MinY + Height` not
passing the range of `int`, every coordinate the scanner reads lies within the
bounds of the image it is read from. -/
theorem Valid_reads_within_origin_bounds (c : Config) (bimg rimg : Image)
    (hv : c.Valid = none) (hb : c.BaseImg.Image = some bimg) (hr : c.RefImg.Image = some rimg)
    (hW : c.BaseImg.Width = c.RefImg.Width) (hH : c.BaseImg.Height = c.RefImg.Height)
    (hb0 : bimg.Bounds.Min.X = 0 ∧ bimg.Bounds.Min.Y = 0)
    (hr0 : rimg.Bounds.Min.X = 0 ∧ rimg.Bounds.Min.Y = 0)
    (hbM : -(2 ^ 63) ≤ bimg.Bounds.Max.X ∧ bimg.Bounds.Max.X < 2 ^ 63 ∧
      -(2 ^ 63) ≤ bimg.Bounds.Max.Y ∧ bimg.Bounds.Max.Y < 2 ^ 63)
    (hrM : -(2 ^ 63) ≤ rimg.Bounds.Max.X ∧ rimg.Bounds.Max.X < 2 ^ 63 ∧
      -(2 ^ 63) ≤ rimg.Bounds.Max.Y ∧ rimg.Bounds.Max.Y < 2 ^ 63)
    (hbS : c.BaseImg.MinX + c.BaseImg.Width < 2 ^ 63 ∧
      c.BaseImg.MinY + c.BaseImg.Height < 2 ^ 63)
    (hrS : c.RefImg.MinX + c.RefImg.Width < 2 ^ 63 ∧ c.RefImg.MinY + c.RefImg.Height < 2 ^ 63)
    (x y : Int) (hs : c.Scanned x y) :
    bimg.Bounds.Contains (readCoord c.BaseImg x y).1 (readCoord c.BaseImg x y).2 ∧
    rimg.Bounds.Contains (readCoord c.RefImg x y).1 (readCoord c.RefImg x y).2 := by
  obtain ⟨_, b', r', hb', hr', _, _, _, _, hx1, hy1, hx2, hy2, h1, h2, h3, h4⟩ := Valid_none c hv
  rw [hb] at hb'
  rw [hr] at hr'
  cases hb'
  cases hr'
  obtain ⟨s1, s2, s3, s4⟩ := hs
  rw [hb0.1, sub_zero, wrapInt64_of_range _ (by omega) (by omega),
    wrapInt64_of_range _ hbM.1 hbM.2.1] at h1
  rw [hb0.2, sub_zero, wrapInt64_of_range _ (by omega) (by omega),
    wrapInt64_of_range _ hbM.2.2.1 hbM.2.2.2] at h2
  rw [hr0.1, sub_zero, wrapInt64_of_range _ (by omega) (by omega),
    wrapInt64_of_range _ hrM.1 hrM.2.1] at h3
  rw [hr0.2, sub_zero, wrapInt64_of_range _ (by omega) (by omega),
    wrapInt64_of_range _ hrM.2.2.1 hrM.2.2.2] at h4
  unfold Rectangle.Contains readCoord
  dsimp only
  rw [wrapInt64_of_range (c.BaseImg.MinX + x) (by omega) (by omega),
    wrapInt64_of_range (c.BaseImg.MinY + y) (by omega) (by omega),
    wrapInt64_of_range (c.RefImg.MinX + x) (by omega) (by omega),
    wrapInt64_of_range (c.RefImg.MinY + y) (by omega) (by omega), hb0.1, hb0.2, hr0.1, hr0.2]
  omega

/-- C15, evaluated at its failing input: `Config.Valid` accepts a 2×2
comparison rectangle with zero offsets over an image whose bounds are
`[10, 12) × [0, 2)`, and the scanner's first read, at position `(0, 0)` of the
rectangle, is at the coordinate `(0, 0)`, outside those bounds. -/
theorem Valid_allows_read_outside_bounds :
    shiftedConfig.Valid = none ∧
    shiftedConfig.BaseImg.Width = shiftedConfig.RefImg.Width ∧
    shiftedConfig.BaseImg.Height = shiftedConfig.RefImg.Height ∧
    shiftedConfig.Scanned 0 0 ∧
    readCoord shiftedConfig.BaseImg 0 0 = (0, 0) ∧
    ¬ shiftedImage.Bounds.Contains (readCoord shiftedConfig.BaseImg 0 0).1
      (readCoord shiftedConfig.BaseImg 0 0).2 ∧
    ¬ shiftedImage.Bounds.Contains (readCoord shiftedConfig.RefImg 0 0).1
      (readCoord shiftedConfig.RefImg 0 0).2 := by
  refine ⟨by decide, rfl, rfl, ?_, by decide, by decide, by decide⟩
  show (0 : Int) ≤ 0 ∧ (0 : Int) < 2 ∧ (0 : Int) ≤ 0 ∧ (0 : Int) < 2
  decide

/-! ## Loading an image -/

/-- What a successful `FromFilepath` leaves in the tagged image: the decoded
image, its width and height, `Bounds.Min.Y` in `MinX`, the earlier `MinY`, the
format and the path. -/
theorem FromFilepath_ok (decode : String → Except Error (Image × String)) (i : TaggedImage)
    (fp : String) (decoded : Image) (format : String) (h : decode fp = .ok (decoded, format)) :
    i.FromFilepath decode fp =
      ({ Image := some decoded
         Width := wrapInt64 (decoded.Bounds.Max.X - decoded.Bounds.Min.X)
         Height := wrapInt64 (decoded.Bounds.Max.Y - decoded.Bounds.Min.Y)
         MinX := decoded.Bounds.Min.Y
         MinY := i.MinY
         Format := format
         Source := fp }, none) := by
  unfold TaggedImage.FromFilepath
  rw [h]

/-- C16, evaluated at its failing inputs: `FromFilepath` stores the decoded
`Bounds.Min.Y` in `MinX` and never writes `MinY`. A tagged image that held the
offsets `(4, 7)` keeps `MinY = 7` after loading an image anchored at the
origin, and the zero tagged image ends with `MinX = 0` and `MinY = 0` after
loading one whose bounds start at `(10, 0)`. -/
theorem FromFilepath_leaves_MinY :
    (staleTagged.FromFilepath originDecode "a.png").2 = none ∧
    (staleTagged.FromFilepath originDecode "a.png").1.MinX = 0 ∧
    (staleTagged.FromFilepath originDecode "a.png").1.MinY = 7 ∧
    (uniformImage black 2 2).Bounds.Min.Y = 0 ∧
    (zeroTagged.FromFilepath shiftedDecode "b.png").2 = none ∧
    (zeroTagged.FromFilepath shiftedDecode "b.png").1.MinX = 0 ∧
    shiftedImage.Bounds.Min.X = 10 := by
  refine ⟨rfl, rfl, rfl, rfl, rfl, rfl, rfl⟩

end ScreenshotCompare
